import Mathlib

/-!
# Verification of the tiedot storage core (data layer)

This file shallowly embeds the storage core of the tiedot document database:

* `data/collection.go` — the document collection file (insert / read / update /
  delete over a byte buffer with 11-byte headers),
* the hash-table file (`HashTable.Put/Get/Remove`, `nextBucket`, `lastBucket`,
  `GetPartitionRange`, `collectEntries`, `GetPartition`),
* `data/partition.go` — `Partition.Insert/Read/Update/Delete` pairing a
  collection with an id → physical-offset lookup table,
* the integer smear `Config.HashKey`, and
* `db/db.go`'s `GetIn` attribute extraction.

Machine integers are modelled as Lean `Int` (Go `int`/`int64` are 64-bit signed;
wraparound is written explicitly where it matters).  The mmap'd byte buffer of a
data file is modelled as a total function `Int → Nat` (a byte per address);
Go would panic on an out-of-bounds index, the model returns the mapped byte or
`0` — the operations below only dereference in-bounds addresses on the states
the theorems quantify over.  Loops become either structural recursion or
fuel-indexed recursion (the fuel is an upper bound on the iteration count; the
theorems establish that the fuel suffices on the states of interest), so every
definition is executable and a witness can evaluate it on concrete input.
-/

/-! ## Byte buffers -/

/-- A byte buffer: one byte (a `Nat`, always `< 256` for bytes the code wrote)
per `Int` address, total so that reads never fail.  `Go`: `[]byte` under mmap. -/
def Buf : Type := Int → Nat

/-- Write a single byte, `buf[a] = x`. -/
def Buf.set (buf : Buf) (a : Int) (x : Nat) : Buf :=
  fun p => if p = a then x else buf p

/-- Write a list of bytes starting at address `a`:
`copy(buf[a:a+len(bs)], bs)`. -/
def Buf.writeBytes (buf : Buf) (a : Int) (bs : List Nat) : Buf :=
  match bs with
  | [] => buf
  | x :: xs => (buf.set a x).writeBytes (a + 1) xs

/-- Read `n` bytes starting at address `a`: the slice `buf[a : a+n]`. -/
def Buf.readBytes (buf : Buf) (a : Int) (n : Nat) : List Nat :=
  (List.range n).map fun i : Nat => buf (a + (i : Int))

theorem Buf.set_ne (buf : Buf) (a : Int) (x : Nat) (p : Int) (h : p ≠ a) :
    buf.set a x p = buf p := by
  simp [Buf.set, h]

theorem Buf.set_eq (buf : Buf) (a : Int) (x : Nat) :
    buf.set a x a = x := by
  simp [Buf.set]

/-- Bytes outside the written window are unchanged. -/
theorem Buf.writeBytes_outside (bs : List Nat) (buf : Buf) (a : Int) (p : Int)
    (h : p < a ∨ a + bs.length ≤ p) : buf.writeBytes a bs p = buf p := by
  induction bs generalizing buf a with
  | nil => rfl
  | cons x xs ih =>
    simp only [Buf.writeBytes]
    rw [ih]
    · apply Buf.set_ne
      rcases h with h | h
      · omega
      · simp [List.length_cons] at h; omega
    · rcases h with h | h
      · left; omega
      · right; simp at h ⊢; omega

/-- Bytes inside the written window take the written values. -/
theorem Buf.writeBytes_inside (bs : List Nat) (buf : Buf) (a : Int) (i : Nat)
    (h : i < bs.length) : buf.writeBytes a bs (a + i) = bs.getD i 0 := by
  induction bs generalizing buf a i with
  | nil => simp at h
  | cons x xs ih =>
    simp only [Buf.writeBytes]
    cases i with
    | zero =>
      rw [Buf.writeBytes_outside]
      · simpa using Buf.set_eq buf a x
      · left; omega
    | succ j =>
      have : a + (j + 1 : Nat) = (a + 1) + (j : Nat) := by push_cast; ring
      rw [this, ih]
      · simp [List.getD]
      · simpa using h

/-! ## Signed varint encoding (`encoding/binary`)

Go's `binary.PutVarint`/`binary.Varint`: zig-zag mapping to an unsigned 64-bit
integer and little-endian base-128 continuation bytes.  The encoder is
fuel-indexed (10 groups always suffice for a 64-bit value). -/

/-- `binary.PutUvarint`: 7-bit groups, low first, continuation bit `0x80`.
`byte(x) | 0x80 = x % 128 + 128`.  Fuel `10` covers every `x < 2 ^ 70`. -/
def putUvarintAux : Nat → Nat → List Nat
  | 0, _ => []
  | fuel + 1, x =>
    if x ≥ 0x80 then (x % 0x80 + 0x80) :: putUvarintAux fuel (x / 0x80)
    else [x]

def putUvarint (x : Nat) : List Nat := putUvarintAux 10 x

/-- The zig-zag map of `binary.PutVarint`:
`ux := uint64(x) << 1; if x < 0 { ux = ^ux }`. -/
def zigzag (x : Int) : Nat :=
  if x < 0 then (2 * (-x) - 1).toNat else (2 * x).toNat

/-- `binary.PutVarint` : the byte string written for a signed value. -/
def putVarint (x : Int) : List Nat := putUvarint (zigzag x)

/-- One step of `binary.Uvarint`'s loop over `buf`: accumulator `x` (a
`uint64`, reduced mod `2^64`), shift `s`, byte index `i`.  Returns
`(value, bytesRead)`; `bytesRead ≤ 0` signals an empty or overflowing buffer. -/
def uvarintAux : List Nat → Nat → Nat → Nat → Nat × Int
  | [], _, _, _ => (0, 0)
  | b :: rest, i, x, s =>
    if i = 10 then (0, -(i + 1 : Int))
    else if b < 0x80 then
      if i = 9 ∧ b > 1 then (0, -(i + 1 : Int))
      else ((x ||| (b <<< s)) % 2 ^ 64, (i : Int) + 1)
    else uvarintAux rest (i + 1) ((x ||| ((b % 0x80) <<< s)) % 2 ^ 64) (s + 7)

/-- `binary.Uvarint`. -/
def uvarint (bs : List Nat) : Nat × Int := uvarintAux bs 0 0 0

/-- `binary.Varint`: un-zig-zag; `^x = -x - 1` on `int64`. -/
def varint (bs : List Nat) : Int × Int :=
  let (ux, n) := uvarint bs
  (if ux % 2 = 1 then -((ux / 2 : Nat) : Int) - 1 else ((ux / 2 : Nat) : Int), n)

/-- Decode the fixed 10-byte slot at address `a`: `binary.Varint(buf[a:a+10])`. -/
def varintAt (buf : Buf) (a : Int) : Int × Int :=
  varint (buf.readBytes a 10)

/-! ## `Config.HashKey` — the integer smear

Go `int` is a 64-bit two's-complement integer.  We represent a value by its
bit pattern (a `Nat` below `2 ^ 64`); `>>` on a signed `int` is an arithmetic
shift, `<<` and `+` wrap modulo `2 ^ 64`, `^`/`&` act bitwise on the pattern. -/

/-- Signed value of a 64-bit pattern. -/
def toSigned64 (p : Nat) : Int :=
  if p < 2 ^ 63 then (p : Int) else (p : Int) - 2 ^ 64

/-- Pattern of an integer modulo `2 ^ 64` (two's complement). -/
def toPattern64 (n : Int) : Nat := (n % 2 ^ 64).toNat

/-- Arithmetic shift right of a 64-bit pattern (Go `>>` on `int`).
`Int.shiftRight` is a floor shift, exactly the arithmetic shift. -/
def sar64 (p : Nat) (s : Nat) : Nat := toPattern64 (toSigned64 p >>> s)

/-- `Config.HashKey` on the 64-bit bit pattern of `key` (src `HashKey`):
```
key ^= key >> 4
key  = (key ^ 0xdeadbeef) + (key << 5)
key ^= key >> 11
return key & ((1 << HashBits) - 1)
```
-/
def hashKey (hashBits : Nat) (key : Nat) : Nat :=
  let k1 := key ^^^ sar64 key 4
  let k2 := ((k1 ^^^ 0xdeadbeef) + (k1 <<< 5)) % 2 ^ 64
  let k3 := k2 ^^^ sar64 k2 11
  k3 &&& (2 ^ hashBits - 1)

/-- The spec's §6 bit-exact reference smear, written from the spec's text:
`key ^= key >> 4; key = (key ^ 0xDEADBEEF) + (key << 5); key ^= key >> 11;`
`result = key & ((1 << HashBits) − 1)`, two's-complement 64-bit with
wraparound. -/
def hashKeySpec (hashBits : Nat) (key : Nat) : Nat :=
  let a := key ^^^ sar64 key 4
  let b := ((a ^^^ 0xDEADBEEF) + (a <<< 5)) % 2 ^ 64
  let c := b ^^^ sar64 b 11
  c &&& ((1 <<< hashBits) - 1)

/-- The smear clamps its result below `2 ^ hashBits` (the final mask). -/
theorem hashKey_lt (hashBits key : Nat) : hashKey hashBits key < 2 ^ hashBits := by
  have h := @Nat.and_le_right (let k1 := key ^^^ sar64 key 4
    let k2 := ((k1 ^^^ 0xdeadbeef) + (k1 <<< 5)) % 2 ^ 64
    k2 ^^^ sar64 k2 11) (2 ^ hashBits - 1)
  have hp : 0 < 2 ^ hashBits := Nat.pos_pow_of_pos hashBits (by norm_num)
  calc hashKey hashBits key ≤ 2 ^ hashBits - 1 := h
    _ < 2 ^ hashBits := by omega

/-- `HashKey` is a pure function of `(HashBits, key)`: it equals
the §6 bit-exact integer smear on every 64-bit input, and its result lies in
`[0, 1 <<< HashBits) = [0, InitialBuckets)`. -/
theorem hashKey_pure_spec_range (hashBits key : Nat) (hkey : key < 2 ^ 64) :
    hashKey hashBits key = hashKeySpec hashBits key ∧
    hashKey hashBits key < 2 ^ hashBits := by
  refine ⟨?_, hashKey_lt hashBits key⟩
  simp [hashKey, hashKeySpec, Nat.shiftLeft_eq]

/-- Concrete instantiation of `hashKey_pure_spec_range` at `HashBits = 16`,
`key = 12345`. -/
theorem hashKey_pure_spec_range_witness :
    (12345 : Nat) < 2 ^ 64 ∧
    (hashKey 16 12345 = hashKeySpec 16 12345 ∧ hashKey 16 12345 < 2 ^ 16) :=
  ⟨by norm_num, hashKey_pure_spec_range 16 12345 (by norm_num)⟩

/-! ## `Config.GetPartitionRange` -/

/-- `Config.GetPartitionRange` (src): split the head-bucket index space
`[0, InitialBuckets)` into `totalParts` contiguous ranges.
```
perPart := conf.InitialBuckets / totalParts
leftOver := conf.InitialBuckets % totalParts
start = partNum * perPart
if leftOver > 0 {
    if partNum == 0 { end++ }
    else if partNum < leftOver { start += partNum; end++ }
    else { start += leftOver }
}
end += start + perPart
if partNum == totalParts-1 { end = conf.InitialBuckets }
```
All quantities are non-negative in every call, so `Nat` matches Go `int`. -/
def getPartitionRange (initialBuckets totalParts partNum : Nat) : Nat × Nat :=
  let perPart := initialBuckets / totalParts
  let leftOver := initialBuckets % totalParts
  let start0 := partNum * perPart
  let se : Nat × Nat :=
    if leftOver > 0 then
      if partNum = 0 then (start0, 1)
      else if partNum < leftOver then (start0 + partNum, 1)
      else (start0 + leftOver, 0)
    else (start0, 0)
  let e := se.2 + se.1 + perPart
  (se.1, if partNum = totalParts - 1 then initialBuckets else e)


/-- Closed form for the start of a partition range:
`start = partNum * perPart + min partNum leftOver`. -/
theorem getPartitionRange_fst (ib tp i : Nat) :
    (getPartitionRange ib tp i).1 = i * (ib / tp) + min i (ib % tp) := by
  simp only [getPartitionRange]
  split_ifs with h1 h2 h3
  · subst h2; simp
  · have := Nat.min_eq_left (Nat.le_of_lt h3)
    simp only [this]
  · have : min i (ib % tp) = ib % tp := Nat.min_eq_right (by omega)
    simp only [this]
  · have : min i (ib % tp) = ib % tp := Nat.min_eq_right (by omega)
    simp only [this]
    omega

/-- Closed form for the end of a non-final partition range: it is the start
formula evaluated at the next partition. -/
theorem getPartitionRange_snd (ib tp i : Nat) (hi : i + 1 < tp) :
    (getPartitionRange ib tp i).2 = (i + 1) * (ib / tp) + min (i + 1) (ib % tp) := by
  simp only [getPartitionRange]
  rw [if_neg (by omega)]
  split_ifs with h1 h2 h3
  · subst h2
    have : min (0 + 1) (ib % tp) = 0 + 1 := Nat.min_eq_left (by omega)
    simp only [this]
    ring
  · have : min (i + 1) (ib % tp) = i + 1 := Nat.min_eq_left (by omega)
    simp only [this, Nat.succ_mul]
    ring
  · have : min (i + 1) (ib % tp) = ib % tp := Nat.min_eq_right (by omega)
    simp only [this, Nat.succ_mul]
    omega
  · have : min (i + 1) (ib % tp) = ib % tp := Nat.min_eq_right (by omega)
    simp only [this, Nat.succ_mul]
    omega

/-- The final partition always ends at `InitialBuckets`. -/
theorem getPartitionRange_snd_last (ib tp : Nat) :
    (getPartitionRange ib tp (tp - 1)).2 = ib := by
  simp [getPartitionRange]

/-- `GetPartitionRange` partitions `[0, InitialBuckets)` exactly: partition 0
starts at 0, each partition's end is the next partition's start, every range is
non-empty, and the last partition ends at `InitialBuckets`. -/
theorem getPartitionRange_partitions (ib tp : Nat) (h1 : 1 ≤ tp) (h2 : tp ≤ ib) :
    (getPartitionRange ib tp 0).1 = 0 ∧
    (∀ i, i + 1 < tp →
      (getPartitionRange ib tp i).2 = (getPartitionRange ib tp (i + 1)).1) ∧
    (∀ i, i < tp →
      (getPartitionRange ib tp i).1 < (getPartitionRange ib tp i).2) ∧
    (getPartitionRange ib tp (tp - 1)).2 = ib := by
  have hdm : tp * (ib / tp) + ib % tp = ib := Nat.div_add_mod ib tp
  have hmod : ib % tp < tp := Nat.mod_lt ib (by omega)
  have hq : 1 ≤ ib / tp := (Nat.one_le_div_iff (by omega)).mpr h2
  refine ⟨?_, ?_, ?_, ?_⟩
  · rw [getPartitionRange_fst]; simp
  · intro i hi
    rw [getPartitionRange_snd ib tp i hi, getPartitionRange_fst]
  · intro i hi
    rcases Nat.lt_or_ge (i + 1) tp with hlt | hge
    · rw [getPartitionRange_fst, getPartitionRange_snd ib tp i hlt, Nat.succ_mul]
      omega
    · have hk : tp - 1 + 1 = tp := by omega
      have hie : i = tp - 1 := by omega
      subst hie
      rw [getPartitionRange_fst, getPartitionRange_snd_last]
      have hsp : tp * (ib / tp) = (tp - 1) * (ib / tp) + 1 * (ib / tp) := by
        rw [← Nat.add_mul, hk]
      omega
  · exact getPartitionRange_snd_last ib tp

/-- Concrete instantiation of `getPartitionRange_partitions`:
`InitialBuckets = 7`, `totalParts = 3` (so ranges are `[0,3) [3,5) [5,7)`). -/
theorem getPartitionRange_partitions_witness :
    (1 ≤ 3 ∧ 3 ≤ 7) ∧
    ((getPartitionRange 7 3 0).1 = 0 ∧
     (∀ i, i + 1 < 3 →
       (getPartitionRange 7 3 i).2 = (getPartitionRange 7 3 (i + 1)).1) ∧
     (∀ i, i < 3 →
       (getPartitionRange 7 3 i).1 < (getPartitionRange 7 3 i).2) ∧
     (getPartitionRange 7 3 (3 - 1)).2 = 7) :=
  ⟨by norm_num, getPartitionRange_partitions 7 3 (by norm_num) (by norm_num)⟩

/-! ## `GetIn` — attribute extraction (`db/db.go`)

A decoded JSON document (`interface{}` after `json.Unmarshal`): an object
(`map[string]interface{}`, modelled as an association list with unique keys),
an array (`[]interface{}`), or a scalar (`nil` / `bool` / number / string; the
number payload stands in for Go's `float64`, which `GetIn` never inspects). -/

inductive Value where
  | null : Value
  | boolean : Bool → Value
  | num : Int → Value
  | str : String → Value
  | arr : List Value → Value
  | obj : List (String × Value) → Value

/-- Go map indexing `aMap[seg]`: the bound value, or `nil` when absent. -/
def lookupField (fs : List (String × Value)) (k : String) : Value :=
  match fs with
  | [] => .null
  | (k', v) :: rest => if k' = k then v else lookupField rest k

theorem sizeOf_lookupField (fs : List (String × Value)) (k : String) :
    sizeOf (lookupField fs k) < 1 + sizeOf fs := by
  induction fs with
  | nil => simp [lookupField]
  | cons p rest ih =>
    obtain ⟨k', v⟩ := p
    simp only [lookupField]
    split_ifs
    · simp; omega
    · simp; omega

/-- Is the decoded document a JSON object (`map[string]interface{}`)? -/
def Value.isObj : Value → Bool
  | .obj _ => true
  | _ => false

mutual

/-- `GetIn(doc, path)` (src `db/db.go`): the top-level type assertion
`doc.(map[string]interface{})` yields nothing for a non-map document;
otherwise the loop of `getInLoop` runs with `thing := docMap`. -/
def getIn (doc : Value) (path : List String) : List Value :=
  match doc with
  | .obj fs => getInLoop (.obj fs) path
  | _ => []
termination_by sizeOf doc * 2 + 1

/-- The `for i, seg := range path` loop of `GetIn`, plus the final `switch`:
a map descends one segment; an array recurses every element on the full
remaining path; any other mid-path value yields nothing.  After the loop an
array contributes its elements (one level) and anything else itself. -/
def getInLoop (thing : Value) (path : List String) : List Value :=
  match path with
  | [] =>
    match thing with
    | .arr xs => xs
    | _ => [thing]
  | seg :: rest =>
    match thing with
    | .obj fs => getInLoop (lookupField fs seg) rest
    | .arr xs => getInArr xs (seg :: rest)
    | _ => []
termination_by sizeOf thing * 2
decreasing_by
  all_goals simp
  all_goals (have hsz := sizeOf_lookupField fs seg; omega)

/-- `for _, element := range anArray { ret = append(ret, GetIn(element, path[i:])...) }` -/
def getInArr (xs : List Value) (path : List String) : List Value :=
  match xs with
  | [] => []
  | e :: rest => getIn e path ++ getInArr rest path
termination_by sizeOf xs * 2
decreasing_by
  all_goals simp
  all_goals omega

end

mutual

/-- The spec's recursive reference definition of attribute extraction:
a map descends `value[path[0]]` with `path[1..]`; an array recurses on every
element with the full remaining path and concatenates; otherwise the value
itself is yielded when the path is empty and nothing when it is not. -/
def getInRef (v : Value) (path : List String) : List Value :=
  match v, path with
  | .obj fs, seg :: rest => getInRef (lookupField fs seg) rest
  | .arr xs, _ => getInRefArr xs path
  | w, [] => [w]
  | _, _ => []
termination_by sizeOf v * 2 + 1
decreasing_by
  all_goals simp
  all_goals try (have hsz := sizeOf_lookupField fs seg; omega)
  all_goals omega

/-- Element-wise recursion of the reference definition over an array. -/
def getInRefArr (xs : List Value) (path : List String) : List Value :=
  match xs with
  | [] => []
  | e :: rest => getInRef e path ++ getInRefArr rest path
termination_by sizeOf xs * 2
decreasing_by
  all_goals simp
  all_goals omega

end

/-- Is the value an array? -/
def Value.isArr : Value → Bool
  | .arr _ => true
  | _ => false

mutual

/-- No array occurs directly inside another array of the value. -/
def noNestedArr : Value → Bool
  | .arr xs => noNestedElems xs
  | .obj fs => noNestedFields fs
  | _ => true
termination_by v => sizeOf v

/-- Array elements are not themselves arrays, and are recursively clean. -/
def noNestedElems : List Value → Bool
  | [] => true
  | e :: rest => !e.isArr && noNestedArr e && noNestedElems rest
termination_by xs => sizeOf xs
decreasing_by
  all_goals simp
  all_goals omega

/-- Object field values are recursively clean. -/
def noNestedFields : List (String × Value) → Bool
  | [] => true
  | (_, v) :: rest => noNestedArr v && noNestedFields rest
termination_by fs => sizeOf fs
decreasing_by
  all_goals simp
  all_goals omega

end

/-- A field looked up in a clean object is clean (`nil` for a missing key). -/
theorem noNestedArr_lookupField (fs : List (String × Value)) (k : String)
    (h : noNestedFields fs = true) : noNestedArr (lookupField fs k) = true := by
  induction fs with
  | nil => rw [lookupField, noNestedArr] <;> simp
  | cons p rest ih =>
    obtain ⟨k', v⟩ := p
    rw [noNestedFields] at h
    simp only [Bool.and_eq_true] at h
    rw [lookupField]
    split_ifs
    · exact h.1
    · exact ih h.2

/-- On an empty path the reference flattens a clean array to its elements. -/
theorem getInRefArr_nil_eq (xs : List Value) (h : noNestedElems xs = true) :
    getInRefArr xs [] = xs := by
  induction xs with
  | nil => rw [getInRefArr]
  | cons e rest ih =>
    rw [noNestedElems] at h
    simp only [Bool.and_eq_true] at h
    rw [getInRefArr, ih h.2]
    cases e with
    | arr ys => simp [Value.isArr] at h
    | null => rw [getInRef] <;> simp
    | boolean b => rw [getInRef] <;> simp
    | num n => rw [getInRef] <;> simp
    | str s => rw [getInRef] <;> simp
    | obj fs => rw [getInRef] <;> simp

mutual

/-- On values with no array directly inside another array, the `GetIn` loop
agrees with the spec's recursive reference definition. -/
theorem getInLoop_eq_ref : ∀ (v : Value) (path : List String),
    noNestedArr v = true → getInLoop v path = getInRef v path
  | .null, [], _ => by rw [getInLoop, getInRef] <;> simp
  | .boolean b, [], _ => by rw [getInLoop, getInRef] <;> simp
  | .num n, [], _ => by rw [getInLoop, getInRef] <;> simp
  | .str s, [], _ => by rw [getInLoop, getInRef] <;> simp
  | .obj fs, [], _ => by rw [getInLoop, getInRef] <;> simp
  | .arr xs, [], h => by
    rw [noNestedArr] at h
    rw [getInLoop, getInRef, getInRefArr_nil_eq xs h]
  | .null, seg :: rest, _ => by rw [getInLoop, getInRef] <;> simp
  | .boolean b, seg :: rest, _ => by rw [getInLoop, getInRef] <;> simp
  | .num n, seg :: rest, _ => by rw [getInLoop, getInRef] <;> simp
  | .str s, seg :: rest, _ => by rw [getInLoop, getInRef] <;> simp
  | .obj fs, seg :: rest, h => by
    rw [noNestedArr] at h
    rw [getInLoop, getInRef]
    exact getInLoop_eq_ref (lookupField fs seg) rest
      (noNestedArr_lookupField fs seg h)
  | .arr xs, seg :: rest, h => by
    rw [noNestedArr] at h
    rw [getInLoop, getInRef]
    exact getInArr_eq_ref xs seg rest h
termination_by v _ _ => sizeOf v * 2
decreasing_by
  all_goals simp
  all_goals try (have hsz := sizeOf_lookupField fs seg; omega)

/-- Element-wise: on a non-empty path, the loop's array recursion agrees with
the reference's. -/
theorem getInArr_eq_ref : ∀ (xs : List Value) (seg : String)
    (rest : List String), noNestedElems xs = true →
    getInArr xs (seg :: rest) = getInRefArr xs (seg :: rest)
  | [], seg, rest, _ => by rw [getInArr, getInRefArr]
  | .arr ys :: tail, seg, rest, h => by
    rw [noNestedElems] at h
    simp [Value.isArr] at h
  | .obj fs :: tail, seg, rest, h => by
    rw [noNestedElems] at h
    simp only [Bool.and_eq_true] at h
    rw [getInArr, getInRefArr, getInArr_eq_ref tail seg rest h.2, getIn]
    rw [getInLoop_eq_ref (.obj fs) (seg :: rest) h.1.2]
  | .null :: tail, seg, rest, h => by
    rw [noNestedElems] at h
    simp only [Bool.and_eq_true] at h
    rw [getInArr, getInRefArr, getInArr_eq_ref tail seg rest h.2]
    rw [getIn] <;> try simp
    rw [getInRef] <;> simp
  | .boolean b :: tail, seg, rest, h => by
    rw [noNestedElems] at h
    simp only [Bool.and_eq_true] at h
    rw [getInArr, getInRefArr, getInArr_eq_ref tail seg rest h.2]
    rw [getIn] <;> try simp
    rw [getInRef] <;> simp
  | .num n :: tail, seg, rest, h => by
    rw [noNestedElems] at h
    simp only [Bool.and_eq_true] at h
    rw [getInArr, getInRefArr, getInArr_eq_ref tail seg rest h.2]
    rw [getIn] <;> try simp
    rw [getInRef] <;> simp
  | .str s :: tail, seg, rest, h => by
    rw [noNestedElems] at h
    simp only [Bool.and_eq_true] at h
    rw [getInArr, getInRefArr, getInArr_eq_ref tail seg rest h.2]
    rw [getIn] <;> try simp
    rw [getInRef] <;> simp
termination_by xs _ _ _ => sizeOf xs * 2
decreasing_by
  all_goals simp
  all_goals omega

end

/-- `GetIn` and the reference differ on a scalar with an empty path: `GetIn`
type-asserts the document to a map up front and yields nothing, the reference
yields the scalar. -/
theorem getIn_scalar_empty_path_ne_ref :
    getIn (Value.str "a") [] ≠ getInRef (Value.str "a") [] := by
  rw [getIn, getInRef] <;> simp

/-- Amended extraction agreement: `GetIn` equals the reference on every
document that is a map and has no array directly inside another array
(exactly where the reference's recursive array flattening and `GetIn`'s
one-level flattening coincide). -/
theorem getIn_eq_ref_of_obj (v : Value) (path : List String)
    (hobj : v.isObj = true) (h : noNestedArr v = true) :
    getIn v path = getInRef v path := by
  cases v with
  | obj fs =>
    rw [getIn]
    exact getInLoop_eq_ref _ _ h
  | null => simp [Value.isObj] at hobj
  | boolean b => simp [Value.isObj] at hobj
  | num n => simp [Value.isObj] at hobj
  | str s => simp [Value.isObj] at hobj
  | arr xs => simp [Value.isObj] at hobj

/-- Concrete instantiation of `getIn_eq_ref_of_obj` at `{"a": 1}`, path `["a"]`. -/
theorem getIn_eq_ref_of_obj_witness :
    ((Value.obj [("a", Value.num 1)]).isObj = true ∧
     noNestedArr (Value.obj [("a", Value.num 1)]) = true) ∧
    getIn (Value.obj [("a", Value.num 1)]) ["a"]
      = getInRef (Value.obj [("a", Value.num 1)]) ["a"] :=
  ⟨⟨by rw [Value.isObj],
    by rw [noNestedArr, noNestedFields, noNestedFields, noNestedArr] <;> simp⟩,
   getIn_eq_ref_of_obj _ _ (by rw [Value.isObj])
     (by rw [noNestedArr, noNestedFields, noNestedFields, noNestedArr] <;> simp)⟩

/-! ## Varint round-trip -/

/-- Bitwise-or acts as addition when the low bits are already below the shift. -/
theorem lor_mul_pow (s : Nat) : ∀ a b : Nat, a < 2 ^ s → a ||| b * 2 ^ s = a + b * 2 ^ s := by
  induction s with
  | zero =>
    intro a b ha
    interval_cases a
    simp
  | succ t ih =>
    intro a b ha
    have hd2 : (a ||| b * 2 ^ (t + 1)) / 2 = a / 2 + b * 2 ^ t := by
      rw [Nat.or_div_two]
      have : b * 2 ^ (t + 1) / 2 = b * 2 ^ t := by
        rw [pow_succ, ← Nat.mul_assoc]
        exact Nat.mul_div_cancel _ (by norm_num)
      rw [this]
      exact ih (a / 2) b (by omega)
    have hm2 : (a ||| b * 2 ^ (t + 1)) % 2 = a % 2 := by
      have hbz : b * 2 ^ (t + 1) % 2 = 0 := by
        rw [pow_succ, ← Nat.mul_assoc]
        exact Nat.mul_mod_left _ 2
      have := Nat.or_mod_two_eq_one (a := a) (b := b * 2 ^ (t + 1))
      omega
    have h1 := Nat.div_add_mod (a ||| b * 2 ^ (t + 1)) 2
    have h2 := Nat.div_add_mod a 2
    have hp : (2 : Nat) ^ (t + 1) = 2 ^ t * 2 := pow_succ 2 t
    have hbm : b * 2 ^ (t + 1) = b * 2 ^ t * 2 := by rw [hp, Nat.mul_assoc]
    omega

theorem putUvarintAux_length (fuel x : Nat) :
    (putUvarintAux fuel x).length ≤ fuel := by
  induction fuel generalizing x with
  | zero => simp [putUvarintAux]
  | succ f ih =>
    rw [putUvarintAux]
    split_ifs
    · have := ih (x / 0x80)
      simp only [List.length_cons]
      omega
    · simp

theorem putUvarintAux_length_pos (fuel x : Nat) (h : 1 ≤ fuel) :
    1 ≤ (putUvarintAux fuel x).length := by
  cases fuel with
  | zero => omega
  | succ f =>
    rw [putUvarintAux]
    split_ifs <;> simp

/-- Decoding an encoded unsigned varint (followed by anything) recovers the
value and consumes exactly the encoded bytes. -/
theorem uvarintAux_putUvarintAux : ∀ (fuel x acc s i : Nat) (rest : List Nat),
    1 ≤ fuel → x < 2 ^ (7 * fuel) → fuel + i ≤ 10 → s = 7 * i →
    acc < 2 ^ s → acc + x * 2 ^ s < 2 ^ 64 →
    uvarintAux (putUvarintAux fuel x ++ rest) i acc s
      = (acc + x * 2 ^ s, (i : Int) + (putUvarintAux fuel x).length) := by
  intro fuel
  induction fuel with
  | zero => omega
  | succ f ih =>
    intro x acc s i rest _ hx hfi hs hacc hbound
    rw [putUvarintAux]
    by_cases hge : x ≥ 0x80
    · rw [if_pos hge]
      have hf1 : 1 ≤ f := by
        by_contra hc
        have : f = 0 := by omega
        subst this
        simp at hx
        omega
      simp only [List.cons_append]
      rw [uvarintAux]
      rw [if_neg (by omega)]
      rw [if_neg (by omega)]
      have hbm : (x % 0x80 + 0x80) % 0x80 = x % 0x80 := by omega
      rw [hbm]
      have hsl : (x % 0x80) <<< s = x % 0x80 * 2 ^ s := by rw [Nat.shiftLeft_eq]
      have hlor : acc ||| x % 0x80 * 2 ^ s = acc + x % 0x80 * 2 ^ s :=
        lor_mul_pow s acc (x % 0x80) hacc
      have hle : acc + x % 0x80 * 2 ^ s ≤ acc + x * 2 ^ s :=
        Nat.add_le_add_left (Nat.mul_le_mul_right _ (Nat.mod_le x _)) acc
      rw [hsl, hlor, Nat.mod_eq_of_lt (by omega)]
      have hppow : (2 : Nat) ^ (s + 7) = 2 ^ s * 128 := by
        rw [pow_add]; norm_num
      have hxdm : 0x80 * (x / 0x80) + x % 0x80 = x := Nat.div_add_mod x 0x80
      have hrec := ih (x / 0x80) (acc + x % 0x80 * 2 ^ s) (s + 7) (i + 1) rest
        hf1
        (by
          have h7 : 7 * Nat.succ f = 7 * f + 7 := by omega
          rw [h7] at hx
          have : (2 : Nat) ^ (7 * f + 7) = 2 ^ (7 * f) * 128 := by
            rw [pow_add]; norm_num
          rw [this] at hx
          exact Nat.div_lt_of_lt_mul (by omega))
        (by omega)
        (by omega)
        (by
          have h1 : x % 0x80 * 2 ^ s ≤ 127 * 2 ^ s :=
            Nat.mul_le_mul_right _ (by omega)
          have h2 : (127 : Nat) * 2 ^ s + 2 ^ s = 2 ^ s * 128 := by ring
          omega)
        (by
          have heq : acc + x % 0x80 * 2 ^ s + x / 0x80 * 2 ^ (s + 7)
              = acc + x * 2 ^ s := by
            rw [hppow]
            calc acc + x % 0x80 * 2 ^ s + x / 0x80 * (2 ^ s * 128)
                = acc + (0x80 * (x / 0x80) + x % 0x80) * 2 ^ s := by ring
              _ = acc + x * 2 ^ s := by rw [hxdm]
          omega)
      rw [hrec]
      have heq : acc + x % 0x80 * 2 ^ s + x / 0x80 * 2 ^ (s + 7)
          = acc + x * 2 ^ s := by
        rw [hppow]
        calc acc + x % 0x80 * 2 ^ s + x / 0x80 * (2 ^ s * 128)
            = acc + (0x80 * (x / 0x80) + x % 0x80) * 2 ^ s := by ring
          _ = acc + x * 2 ^ s := by rw [hxdm]
      rw [heq]
      simp only [List.length_cons, Prod.mk.injEq, true_and]
      push_cast
      ring
    · rw [if_neg hge]
      simp only [List.cons_append, List.length_cons, List.length_nil]
      rw [uvarintAux]
      rw [if_neg (by omega)]
      rw [if_pos (by omega)]
      have hb1 : ¬(i = 9 ∧ x > 1) := by
        rintro ⟨h9, hxgt⟩
        subst h9
        have hs63 : s = 63 := by omega
        subst hs63
        have : 2 * 2 ^ 63 ≤ x * 2 ^ 63 :=
          Nat.mul_le_mul_right _ (by omega)
        have h64 : (2 : Nat) ^ 64 = 2 * 2 ^ 63 := by norm_num
        omega
      rw [if_neg hb1]
      have hsl : x <<< s = x * 2 ^ s := by rw [Nat.shiftLeft_eq]
      have hlor : acc ||| x * 2 ^ s = acc + x * 2 ^ s :=
        lor_mul_pow s acc x hacc
      rw [hsl, hlor, Nat.mod_eq_of_lt hbound]
      simp

/-- Top-level unsigned round-trip: any trailing junk after the encoding is
never read. -/
theorem uvarint_putUvarint (x : Nat) (rest : List Nat) (hx : x < 2 ^ 64) :
    uvarint (putUvarint x ++ rest) = (x, ((putUvarint x).length : Int)) := by
  have h := uvarintAux_putUvarintAux 10 x 0 0 0 rest (by norm_num)
    (by norm_num; omega) (by norm_num) (by norm_num) (by norm_num)
    (by simpa using hx)
  simpa [uvarint, putUvarint] using h

/-- Signed round-trip through the zig-zag map. -/
theorem varint_putVarint (v : Int) (rest : List Nat)
    (hv : -(2 ^ 63) ≤ v) (hv2 : v < 2 ^ 63) :
    varint (putVarint v ++ rest) = (v, ((putVarint v).length : Int)) := by
  have hz : zigzag v < 2 ^ 64 := by
    rw [zigzag]
    split_ifs <;> omega
  unfold varint
  rw [putVarint, uvarint_putUvarint (zigzag v) rest hz]
  simp only [putVarint, Prod.mk.injEq, and_true]
  rcases lt_or_ge v 0 with hneg | hpos
  · have hzz : zigzag v = (2 * (-v) - 1).toNat := by rw [zigzag, if_pos hneg]
    rw [hzz]
    have hodd : (2 * (-v) - 1).toNat % 2 = 1 := by omega
    rw [if_pos hodd]
    omega
  · have hzz : zigzag v = (2 * v).toNat := by
      rw [zigzag, if_neg (by omega)]
    rw [hzz]
    have hev : ¬((2 * v).toNat % 2 = 1) := by omega
    rw [if_neg hev]
    omega

theorem Buf.readBytes_succ (buf : Buf) (a : Int) (n : Nat) :
    buf.readBytes a (n + 1) = buf a :: (buf.readBytes (a + 1) n) := by
  rw [Buf.readBytes, Buf.readBytes, List.range_succ_eq_map]
  simp only [List.map_cons, List.map_map]
  congr 1
  · simp
  · apply List.map_congr_left
    intro i _
    simp only [Function.comp_apply]
    congr 1
    push_cast
    ring

theorem Buf.readBytes_congr (buf1 buf2 : Buf) (a : Int) (n : Nat)
    (h : ∀ i : Nat, i < n → buf1 (a + i) = buf2 (a + i)) :
    buf1.readBytes a n = buf2.readBytes a n := by
  rw [Buf.readBytes, Buf.readBytes]
  apply List.map_congr_left
  intro i hi
  simp only [List.mem_range] at hi
  exact h i hi

/-- Reading a window that begins with freshly written bytes yields the written
list followed by untouched bytes of the old buffer. -/
theorem Buf.readBytes_writeBytes (bs : List Nat) (buf : Buf) (a : Int) (n : Nat)
    (h : bs.length ≤ n) :
    (buf.writeBytes a bs).readBytes a n
      = bs ++ buf.readBytes (a + bs.length) (n - bs.length) := by
  induction bs generalizing buf a n with
  | nil => simp [Buf.writeBytes]
  | cons x xs ih =>
    simp only [List.length_cons] at h
    obtain ⟨m, rfl⟩ : ∃ m, n = m + 1 := ⟨n - 1, by omega⟩
    rw [Buf.writeBytes, Buf.readBytes_succ]
    have hhead : ((buf.set a x).writeBytes (a + 1) xs) a = x := by
      rw [Buf.writeBytes_outside xs _ _ _ (by omega)]
      exact Buf.set_eq buf a x
    rw [hhead]
    rw [ih (buf.set a x) (a + 1) m (by omega)]
    have htail : (buf.set a x).readBytes (a + 1 + xs.length) (m - xs.length)
        = buf.readBytes (a + 1 + xs.length) (m - xs.length) := by
      apply Buf.readBytes_congr
      intro i _
      apply Buf.set_ne
      omega
    rw [htail]
    simp only [List.cons_append, List.length_cons]
    have h1 : a + (((xs.length + 1 : Nat)) : Int) = a + 1 + (xs.length : Int) := by
      push_cast; ring
    have h2 : m + 1 - (xs.length + 1) = m - xs.length := by omega
    rw [h1, h2]

/-- Writing a varint into its fixed 10-byte slot and decoding the slot
recovers the value (stale bytes after the encoding are never read). -/
theorem varintAt_writeBytes (buf : Buf) (a : Int) (v : Int)
    (hv : -(2 ^ 63) ≤ v) (hv2 : v < 2 ^ 63) :
    varintAt (buf.writeBytes a (putVarint v)) a = (v, ((putVarint v).length : Int)) := by
  have hlen : (putVarint v).length ≤ 10 := putUvarintAux_length 10 (zigzag v)
  rw [varintAt, Buf.readBytes_writeBytes _ _ _ _ hlen]
  exact varint_putVarint v _ hv hv2

/-- A varint slot of ten zero bytes decodes to `(0, 1)`. -/
theorem varintAt_zero (buf : Buf) (a : Int)
    (h : ∀ i : Nat, i < 10 → buf (a + i) = 0) :
    varintAt buf a = (0, 1) := by
  have hz : buf.readBytes a 10 = List.replicate 10 0 := by
    rw [Buf.readBytes]
    apply List.ext_getElem
    · simp
    · intro i h1 h2
      simp only [List.getElem_map, List.getElem_range, List.getElem_replicate]
      apply h
      simpa using h1
  rw [varintAt, hz]
  rfl

/-! ## DataFile (`data/file.go`)

The state the operations manipulate: the mapped buffer, `Used`, `Size`,
`Growth`.  `EnsureSize` loops forever when `Growth ≤ 0` (Go would keep
growing by zero); the positivity of the configured growth is carried in the
state so the model is total. -/

structure DataFile where
  buf : Buf
  used : Int
  size : Int
  growth : Int
  growth_pos : 0 < growth

/-- `DataFile.EnsureSize(more)`: grow `Size` by whole `Growth` increments
until `Used + more ≤ Size`.  Unmapping, zero-filling and remapping are
filesystem effects with no bearing on the modelled buffer contents (the grown
region is fresh and the operations never read it before writing it).  The
recursion depth is bounded by the initial deficit `used + more - size` (each
step shrinks it by `growth ≥ 1`), which is passed as explicit fuel so the
definition reduces on concrete states; `ensureSize_spec` shows the fuel
suffices. -/
def DataFile.ensureSizeFuel : Nat → DataFile → Int → DataFile
  | 0, f, _ => f
  | fuel + 1, f, more =>
    if f.used + more ≤ f.size then f
    else DataFile.ensureSizeFuel fuel { f with size := f.size + f.growth } more

def DataFile.ensureSize (f : DataFile) (more : Int) : DataFile :=
  DataFile.ensureSizeFuel ((f.used + more - f.size).toNat + 1) f more

theorem DataFile.ensureSizeFuel_spec :
    ∀ (fuel : Nat) (f : DataFile) (more : Int),
    (f.used + more - f.size).toNat < fuel →
    (DataFile.ensureSizeFuel fuel f more).buf = f.buf ∧
    (DataFile.ensureSizeFuel fuel f more).used = f.used ∧
    (DataFile.ensureSizeFuel fuel f more).growth = f.growth ∧
    f.size ≤ (DataFile.ensureSizeFuel fuel f more).size ∧
    f.used + more ≤ (DataFile.ensureSizeFuel fuel f more).size := by
  intro fuel
  induction fuel with
  | zero => intro f more h; omega
  | succ n ih =>
    intro f more h
    rw [DataFile.ensureSizeFuel]
    by_cases hle : f.used + more ≤ f.size
    · rw [if_pos hle]
      exact ⟨rfl, rfl, rfl, le_refl _, hle⟩
    · rw [if_neg hle]
      have hg := f.growth_pos
      obtain ⟨h1, h2, h3, h4, h5⟩ :=
        ih { f with size := f.size + f.growth } more (by simp; omega)
      refine ⟨h1, h2, h3, ?_, h5⟩
      simp at h4
      omega

theorem DataFile.ensureSize_spec (f : DataFile) (more : Int) :
    (f.ensureSize more).buf = f.buf ∧ (f.ensureSize more).used = f.used ∧
    (f.ensureSize more).growth = f.growth ∧ f.size ≤ (f.ensureSize more).size ∧
    f.used + more ≤ (f.ensureSize more).size :=
  DataFile.ensureSizeFuel_spec _ f more (by omega)

/-! ## Collection (`data/collection.go`) -/

/-- `DocHeader = 1 + 10`: flag byte plus the 10-byte varint room slot. -/
def DocHeader : Int := 11

/-- `conf.Padding = strings.Repeat(" ", 128)` — 128 ASCII spaces. -/
def paddingBytes : List Nat := List.replicate 128 32

/-- `conf.LenPadding = len(conf.Padding)`. -/
def lenPadding : Int := 128

/-- Storage-layer errors (`dberr`): `ErrorDocTooLarge(maxRoom, got)` and
`ErrorNoDoc(id)`. -/
inductive DbErr where
  | docTooLarge : Int → Int → DbErr
  | noDoc : Int → DbErr
deriving DecidableEq

/-- Does the result carry an `ErrorNoDoc`? -/
def isNoDoc {β : Type} (e : Except DbErr β) : Bool :=
  match e with
  | .error (.noDoc _) => true
  | _ => false

/-- The space-padding loop shared by `Collection.Insert` and the in-place
branch of `Collection.Update`:
```
for ; padding < till; padding += LenPadding {
    copySize := LenPadding
    if padding+LenPadding >= till { copySize = till - padding }
    copy(Buf[padding:padding+copySize], Padding)
}
```
(`copy` writes `min(copySize, len(Padding)) = copySize` bytes of `Padding`.)
The iteration count is bounded by `till - padding` (each pass advances by
`LenPadding = 128`), passed as explicit fuel; `padLoop_inside` shows the fuel
suffices. -/
def padLoopFuel : Nat → Buf → Int → Int → Buf
  | 0, buf, _, _ => buf
  | fuel + 1, buf, padding, till =>
    if padding < till then
      padLoopFuel fuel (buf.writeBytes padding (paddingBytes.take
          (if padding + lenPadding ≥ till then till - padding else lenPadding).toNat))
        (padding + lenPadding) till
    else buf

def padLoop (buf : Buf) (padding till : Int) : Buf :=
  padLoopFuel ((till - padding).toNat + 1) buf padding till

theorem padLoopFuel_outside : ∀ (fuel : Nat) (buf : Buf) (padding till p : Int),
    (p < padding ∨ till ≤ p) → padLoopFuel fuel buf padding till p = buf p := by
  intro fuel
  induction fuel with
  | zero => intro buf padding till p hp; rfl
  | succ n ih =>
    intro buf padding till p hp
    rw [padLoopFuel]
    by_cases hlt : padding < till
    · rw [if_pos hlt]
      rw [ih _ _ _ p (by
        cases hp with
        | inl h => exact Or.inl (by simp only [lenPadding]; omega)
        | inr h => exact Or.inr h)]
      apply Buf.writeBytes_outside
      have hlen : (paddingBytes.take
          (if padding + lenPadding ≥ till then till - padding else lenPadding).toNat).length
          ≤ (till - padding).toNat := by
        simp only [List.length_take, paddingBytes, List.length_replicate, lenPadding]
        split_ifs <;> omega
      cases hp with
      | inl h => exact Or.inl h
      | inr h => exact Or.inr (by omega)
    · rw [if_neg hlt]

theorem padLoop_outside (buf : Buf) (padding till : Int) :
    ∀ p : Int, (p < padding ∨ till ≤ p) → padLoop buf padding till p = buf p :=
  fun p hp => padLoopFuel_outside _ buf padding till p hp

theorem padLoopFuel_inside : ∀ (fuel : Nat) (buf : Buf) (padding till p : Int),
    (till - padding).toNat < fuel → padding ≤ p → p < till →
    padLoopFuel fuel buf padding till p = 32 := by
  intro fuel
  induction fuel with
  | zero => intro buf padding till p hf h1 h2; omega
  | succ n ih =>
    intro buf padding till p hf h1 h2
    rw [padLoopFuel, if_pos (by omega)]
    set cs : Int := if padding + lenPadding ≥ till then till - padding else lenPadding
      with hcs
    have hcsup : cs ≤ lenPadding := by
      rw [hcs]; simp only [lenPadding]; split_ifs <;> omega
    have hcspos : 0 < cs := by
      rw [hcs]; simp only [lenPadding]; split_ifs <;> omega
    have hlen : (paddingBytes.take cs.toNat).length = cs.toNat := by
      simp only [List.length_take, paddingBytes, List.length_replicate, lenPadding]
      simp only [lenPadding] at hcsup
      omega
    by_cases hc : p < padding + cs
    · rw [padLoopFuel_outside _ _ _ _ p (Or.inl (by
        simp only [lenPadding]
        simp only [lenPadding] at hcsup
        omega))]
      obtain ⟨i, rfl⟩ : ∃ i : Nat, p = padding + i :=
        ⟨(p - padding).toNat, by omega⟩
      rw [Buf.writeBytes_inside _ _ _ i (by omega)]
      have hi : i < 128 := by
        simp only [lenPadding] at hcsup
        omega
      have hi2 : i < cs.toNat := by omega
      rw [List.getD_eq_getElem?_getD, List.getElem?_take, if_pos hi2, paddingBytes,
        List.getElem?_replicate_of_lt hi]
      rfl
    · have hple : padding + lenPadding ≤ p := by
        rw [hcs] at hc
        simp only [lenPadding] at hc ⊢
        split_ifs at hc <;> omega
      exact ih _ _ _ p (by simp only [lenPadding]; omega) (by omega) h2

theorem padLoop_inside (buf : Buf) (padding till : Int) :
    ∀ p : Int, padding ≤ p → p < till → padLoop buf padding till p = 32 :=
  fun p h1 h2 => padLoopFuel_inside _ buf padding till p (by omega) h1 h2

/-- A collection file: its `DataFile` plus the `DocMaxRoom` knob. -/
structure Collection where
  file : DataFile
  docMaxRoom : Int

/-- `Collection.Read` (src): validate `id`, decode `room`, bounds-check, and
copy out the `room` bytes of payload-plus-padding. -/
def Collection.read (col : Collection) (id : Int) : Option (List Nat) :=
  if id < 0 ∨ id > col.file.used - DocHeader ∨ col.file.buf id ≠ 1 then none
  else
    let room := (varintAt col.file.buf (id + 1)).1
    if room > col.docMaxRoom then none
    else if id + DocHeader + room ≥ col.file.size then none
    else some (col.file.buf.readBytes (id + DocHeader) room.toNat)

/-- `Collection.Insert` (src): reserve `room = 2*len(data)`, write flag, room
varint, payload, then space-pad the rest of the reserved region. -/
def Collection.insert (col : Collection) (data : List Nat) :
    Collection × Except DbErr Int :=
  let room := (data.length : Int) * 2
  if room > col.docMaxRoom then
    (col, .error (.docTooLarge col.docMaxRoom room))
  else
    let id := col.file.used
    let docSize := DocHeader + room
    let f1 := col.file.ensureSize docSize
    let f2 := { f1 with used := f1.used + docSize }
    let b1 := f2.buf.set id 1
    let b2 := b1.writeBytes (id + 1) (putVarint room)
    let b3 := b2.writeBytes (id + DocHeader) data
    let b4 := padLoop b3 (id + DocHeader + data.length) (id + docSize)
    ({ col with file := { f2 with buf := b4 } }, .ok id)

/-- `Collection.Delete` (src): validate `id`, clear the flag byte. -/
def Collection.delete (col : Collection) (id : Int) :
    Collection × Except DbErr Unit :=
  if id < 0 ∨ id > col.file.used - DocHeader ∨ col.file.buf id ≠ 1 then
    (col, .error (.noDoc id))
  else
    let b := if col.file.buf id = 1 then col.file.buf.set id 0 else col.file.buf
    ({ col with file := { col.file with buf := b } }, .ok ())

/-- `Collection.Update` (src): size check, `id` validation (note `≥` against
`used - DocHeader`, where `Read` uses `>`), header decode and bounds checks,
then either in-place overwrite plus re-padding, or delete-and-reinsert. -/
def Collection.update (col : Collection) (id : Int) (data : List Nat) :
    Collection × Except DbErr Int :=
  let dataLen := (data.length : Int)
  if dataLen > col.docMaxRoom then
    (col, .error (.docTooLarge col.docMaxRoom dataLen))
  else if id < 0 ∨ id ≥ col.file.used - DocHeader ∨ col.file.buf id ≠ 1 then
    (col, .error (.noDoc id))
  else
    let currentDocRoom := (varintAt col.file.buf (id + 1)).1
    if currentDocRoom > col.docMaxRoom then (col, .error (.noDoc id))
    else if id + DocHeader + currentDocRoom ≥ col.file.size then
      (col, .error (.noDoc id))
    else if dataLen ≤ currentDocRoom then
      let b1 := col.file.buf.writeBytes (id + DocHeader) data
      let b2 := padLoop b1 (id + DocHeader + dataLen)
        (id + DocHeader + currentDocRoom)
      ({ col with file := { col.file with buf := b2 } }, .ok id)
    else
      let col2 := (col.delete id).1
      col2.insert data

/-- Varint slots decode equally on buffers that agree on the slot's bytes. -/
theorem varintAt_congr (b1 b2 : Buf) (a : Int)
    (h : ∀ i : Nat, i < 10 → b1 (a + i) = b2 (a + i)) :
    varintAt b1 a = varintAt b2 a := by
  rw [varintAt, varintAt, Buf.readBytes_congr _ _ _ _ h]

/-- Full characterization of a successful `Collection.Insert`: the returned id
is the old watermark, the watermark advances by `DocHeader + 2*len(data)`,
bytes outside the new record are untouched, and the new record consists of a
live flag, the encoded room, the payload, and space padding. -/
theorem Collection.insert_spec (col : Collection) (data : List Nat)
    (hroom : (data.length : Int) * 2 ≤ col.docMaxRoom)
    (h63 : (data.length : Int) * 2 < 2 ^ 63) :
    (col.insert data).2 = .ok col.file.used ∧
    (col.insert data).1.docMaxRoom = col.docMaxRoom ∧
    (col.insert data).1.file.used
      = col.file.used + DocHeader + (data.length : Int) * 2 ∧
    (col.insert data).1.file.size
      = (col.file.ensureSize (DocHeader + (data.length : Int) * 2)).size ∧
    (col.insert data).1.file.growth = col.file.growth ∧
    (∀ p : Int, (p < col.file.used ∨
        col.file.used + DocHeader + (data.length : Int) * 2 ≤ p) →
      (col.insert data).1.file.buf p = col.file.buf p) ∧
    (col.insert data).1.file.buf col.file.used = 1 ∧
    varintAt (col.insert data).1.file.buf (col.file.used + 1)
      = ((data.length : Int) * 2,
         ((putVarint ((data.length : Int) * 2)).length : Int)) ∧
    (∀ i : Nat, i < data.length →
      (col.insert data).1.file.buf (col.file.used + DocHeader + i)
        = data.getD i 0) ∧
    (∀ p : Int, col.file.used + DocHeader + data.length ≤ p →
      p < col.file.used + DocHeader + (data.length : Int) * 2 →
      (col.insert data).1.file.buf p = 32) := by
  have hD : DocHeader = (11 : Int) := rfl
  have hnotbig : ¬ ((data.length : Int) * 2 > col.docMaxRoom) := by omega
  obtain ⟨hb, hu, hg, hs1, hs2⟩ :=
    DataFile.ensureSize_spec col.file (DocHeader + (data.length : Int) * 2)
  have hvlen : (putVarint ((data.length : Int) * 2)).length ≤ 10 :=
    putUvarintAux_length 10 _
  simp only [Collection.insert]
  rw [if_neg hnotbig]
  simp only [hb]
  refine ⟨by simp, by simp, by rw [hu]; ring, by simp, hg, ?_, ?_, ?_, ?_, ?_⟩
  · -- frame: bytes below the record and at/after its end are unchanged
    intro p hp
    rw [padLoop_outside _ _ _ p (by
      cases hp with
      | inl h => exact Or.inl (by omega)
      | inr h => exact Or.inr (by omega))]
    rw [Buf.writeBytes_outside data _ _ _ (by
      cases hp with
      | inl h => exact Or.inl (by omega)
      | inr h => exact Or.inr (by omega))]
    rw [Buf.writeBytes_outside _ _ _ _ (by
      cases hp with
      | inl h => exact Or.inl (by omega)
      | inr h => exact Or.inr (by omega))]
    exact Buf.set_ne _ _ _ _ (by rcases hp with h | h <;> omega)
  · -- the flag byte is written to 1
    rw [padLoop_outside _ _ _ _ (Or.inl (by omega))]
    rw [Buf.writeBytes_outside data _ _ _ (Or.inl (by omega))]
    rw [Buf.writeBytes_outside _ _ _ _ (Or.inl (by omega))]
    exact Buf.set_eq _ _ _
  · -- the room varint decodes back
    refine Eq.trans (varintAt_congr _
      ((col.file.buf.set col.file.used 1).writeBytes
        (col.file.used + 1) (putVarint ((data.length : Int) * 2))) _ ?_) ?_
    · intro i hi
      rw [padLoop_outside _ _ _ _ (Or.inl (by omega))]
      rw [Buf.writeBytes_outside data _ _ _ (Or.inl (by omega))]
    · exact varintAt_writeBytes _ _ _ (by omega) h63
  · -- the payload bytes are written verbatim
    intro i hi
    rw [padLoop_outside _ _ _ _ (Or.inl (by omega))]
    exact Buf.writeBytes_inside data _ _ i (by omega)
  · -- the reserved tail is space padding
    intro p h1 h2
    exact padLoop_inside _ _ _ p (by omega) (by omega)

/-- Reading a record immediately after inserting it returns the full reserved
room: the payload followed by `len(data)` bytes of space padding (the record
must not end exactly at the file frontier, which `Read` rejects). -/
theorem Collection.read_insert (col : Collection) (data : List Nat)
    (hroom : (data.length : Int) * 2 ≤ col.docMaxRoom)
    (h63 : (data.length : Int) * 2 < 2 ^ 63)
    (hused : 0 ≤ col.file.used)
    (hspace : (col.insert data).1.file.used < (col.insert data).1.file.size) :
    (col.insert data).1.read col.file.used
      = some (data ++ List.replicate data.length 32) := by
  have hD : DocHeader = (11 : Int) := rfl
  obtain ⟨hok, hmax, husd, hsz, hgr, hframe, hflag, hvar, hdata, hpad⟩ :=
    Collection.insert_spec col data hroom h63
  rw [Collection.read]
  rw [if_neg (by
    simp only [not_or, hflag]
    refine ⟨by omega, by omega, by simp⟩)]
  simp only [hvar]
  rw [if_neg (by omega)]
  rw [if_neg (by omega)]
  congr 1
  have h2n : (((data.length : Int) * 2)).toNat = 2 * data.length := by omega
  rw [Buf.readBytes, h2n]
  apply List.ext_getElem
  · simp only [List.length_map, List.length_range, List.length_append,
      List.length_replicate]
    omega
  · intro i hi1 hi2
    simp only [List.getElem_map, List.getElem_range]
    have hi : i < 2 * data.length := by simpa using hi1
    by_cases hcase : i < data.length
    · have := hdata i hcase
      rw [this]
      rw [List.getElem_append_left (by simpa using hcase)]
      simp [List.getD_eq_getElem?_getD, List.getElem?_eq_getElem hcase]
    · have h32 := hpad (col.file.used + DocHeader + i) (by omega) (by omega)
      rw [h32]
      rw [List.getElem_append_right (by simpa using hcase)]
      simp

/-- The all-zero buffer of a newly created zero-filled file. -/
def zeroBuf : Buf := fun _ => 0

/-- A `DataFile` as `OpenDataFile` yields it for a brand-new file: zeroed
content, `used` reconstructed to 0, `size` extended to one growth increment. -/
def DataFile.fresh (growth : Int) (hg : 0 < growth) : DataFile :=
  ⟨zeroBuf, 0, growth, growth, hg⟩

/-- A fresh collection with a small test configuration: `DocMaxRoom = 4`,
`ColFileGrowth = 64`. -/
def freshCol : Collection := ⟨DataFile.fresh 64 (by norm_num), 4⟩

/-- Insert-read round trip, amended: a subsequent `Read` of a fresh insert
returns the record's full `room = 2*len(data)` bytes — the payload followed by
`len(data)` space bytes — rather than the payload alone (and the record must
not end exactly at the file frontier, which `Read` rejects). -/
theorem insert_read_roundtrip_padded (col : Collection) (data : List Nat)
    (hroom : (data.length : Int) * 2 ≤ col.docMaxRoom)
    (h63 : (data.length : Int) * 2 < 2 ^ 63)
    (hused : 0 ≤ col.file.used)
    (hspace : (col.insert data).1.file.used < (col.insert data).1.file.size) :
    (col.insert data).2 = .ok col.file.used ∧
    (col.insert data).1.read col.file.used
      = some (data ++ List.replicate data.length 32) :=
  ⟨(Collection.insert_spec col data hroom h63).1,
   Collection.read_insert col data hroom h63 hused hspace⟩

theorem freshCol_insert_space :
    (freshCol.insert [65]).1.file.used < (freshCol.insert [65]).1.file.size := by
  have h := Collection.insert_spec freshCol [65] (by norm_num [freshCol]) (by norm_num)
  rw [h.2.2.1, h.2.2.2.1]
  decide

/-- Concrete instantiation of `insert_read_roundtrip_padded`: inserting the
byte `65` into a fresh collection and reading it back yields `[65, 32]`. -/
theorem insert_read_roundtrip_padded_witness :
    ((([65] : List Nat).length : Int) * 2 ≤ freshCol.docMaxRoom ∧
     (([65] : List Nat).length : Int) * 2 < 2 ^ 63 ∧
     0 ≤ freshCol.file.used ∧
     (freshCol.insert [65]).1.file.used < (freshCol.insert [65]).1.file.size) ∧
    ((freshCol.insert [65]).2 = .ok freshCol.file.used ∧
     (freshCol.insert [65]).1.read freshCol.file.used
       = some ([65] ++ List.replicate ([65] : List Nat).length 32)) :=
  ⟨⟨by norm_num [freshCol], by norm_num, by norm_num [freshCol, DataFile.fresh],
    freshCol_insert_space⟩,
   insert_read_roundtrip_padded freshCol [65] (by norm_num [freshCol])
     (by norm_num) (by norm_num [freshCol, DataFile.fresh]) freshCol_insert_space⟩

/-- The original round-trip claim fails: reading back an inserted single byte
returns the byte plus one space of padding, not the payload alone. -/
theorem insert_read_not_same_bytes :
    (freshCol.insert [65]).2 = .ok 0 ∧
    (freshCol.insert [65]).1.read 0 ≠ some [65] := by
  have h0 : freshCol.file.used = 0 := rfl
  have h1 := Collection.insert_spec freshCol [65] (by norm_num [freshCol]) (by norm_num)
  have h2 := Collection.read_insert freshCol [65] (by norm_num [freshCol])
    (by norm_num) (by norm_num [freshCol, DataFile.fresh]) freshCol_insert_space
  constructor
  · rw [h1.1, h0]
  · rw [← h0, h2]
    simp

/-- Inserting never reports `ErrorNoDoc`. -/
theorem isNoDoc_insert (col : Collection) (data : List Nat) :
    isNoDoc (col.insert data).2 = false := by
  simp only [Collection.insert]
  split_ifs <;> rfl

/-- Update's id validation, amended: for data within `DocMaxRoom`,
`Update(id, data)` reports `ErrorNoDoc` exactly when `Read(id)` returns
nothing **or** `id` sits at the boundary `used - DocHeader` (where `Update`'s
`>=` comparison rejects an id that `Read`'s `>` comparison accepts). -/
theorem update_noDoc_iff (col : Collection) (id : Int) (data : List Nat)
    (hlen : (data.length : Int) ≤ col.docMaxRoom) :
    isNoDoc (col.update id data).2 = true ↔
      (col.read id = none ∨ id = col.file.used - DocHeader) := by
  by_cases h1 : id < 0 ∨ id ≥ col.file.used - DocHeader ∨ col.file.buf id ≠ 1
  · have hu : isNoDoc (col.update id data).2 = true := by
      rw [Collection.update, if_neg (by omega), if_pos h1]
      rfl
    rw [hu]
    simp only [true_iff]
    rcases h1 with h | h | h
    · left; rw [Collection.read, if_pos (Or.inl h)]
    · rcases eq_or_lt_of_le h with heq | hlt
      · right; omega
      · left; rw [Collection.read, if_pos (Or.inr (Or.inl (by omega)))]
    · left; rw [Collection.read, if_pos (Or.inr (Or.inr h))]
  · push_neg at h1
    obtain ⟨h1a, h1b, h1c⟩ := h1
    have hrv : ¬(id < 0 ∨ id > col.file.used - DocHeader ∨ col.file.buf id ≠ 1) := by
      simp only [not_or]
      exact ⟨by omega, by omega, by simpa using h1c⟩
    have huv : ¬(id < 0 ∨ id ≥ col.file.used - DocHeader ∨ col.file.buf id ≠ 1) := by
      simp only [not_or]
      exact ⟨by omega, by omega, by simpa using h1c⟩
    by_cases h2 : (varintAt col.file.buf (id + 1)).1 > col.docMaxRoom
    · have hu : isNoDoc (col.update id data).2 = true := by
        rw [Collection.update, if_neg (by omega), if_neg huv, if_pos h2]
        rfl
      have hr : col.read id = none := by
        rw [Collection.read, if_neg hrv, if_pos h2]
      rw [hu, hr]
      simp
    · by_cases h3 : id + DocHeader + (varintAt col.file.buf (id + 1)).1
          ≥ col.file.size
      · have hu : isNoDoc (col.update id data).2 = true := by
          rw [Collection.update, if_neg (by omega), if_neg huv, if_neg h2,
            if_pos h3]
          rfl
        have hr : col.read id = none := by
          rw [Collection.read, if_neg hrv, if_neg h2, if_pos h3]
        rw [hu, hr]
        simp
      · have hr : col.read id
            = some (col.file.buf.readBytes (id + DocHeader)
                (varintAt col.file.buf (id + 1)).1.toNat) := by
          rw [Collection.read, if_neg hrv, if_neg h2, if_neg h3]
        by_cases h4 : (data.length : Int) ≤ (varintAt col.file.buf (id + 1)).1
        · have hu : isNoDoc (col.update id data).2 = false := by
            rw [Collection.update, if_neg (by omega), if_neg huv, if_neg h2,
              if_neg h3, if_pos h4]
            rfl
          rw [hu, hr]
          simp
          omega
        · have hu : isNoDoc (col.update id data).2 = false := by
            rw [Collection.update, if_neg (by omega), if_neg huv, if_neg h2,
              if_neg h3, if_neg h4]
            exact isNoDoc_insert _ _
          rw [hu, hr]
          simp
          omega

/-- Concrete instantiation of `update_noDoc_iff` at a fresh collection,
`id = 0`, empty payload. -/
theorem update_noDoc_iff_witness :
    ((([] : List Nat).length : Int) ≤ freshCol.docMaxRoom) ∧
    (isNoDoc (freshCol.update 0 []).2 = true ↔
      (freshCol.read 0 = none ∨ 0 = freshCol.file.used - DocHeader)) :=
  ⟨by norm_num [freshCol], update_noDoc_iff freshCol 0 [] (by norm_num [freshCol])⟩

/-- The claim's exact read/update validation agreement fails at the boundary:
after inserting a zero-length document into a fresh collection, `Read 0`
succeeds (returning the empty room) while `Update 0` reports `ErrorNoDoc`. -/
theorem update_noDoc_but_read_succeeds :
    (freshCol.insert []).1.read 0 = some [] ∧
    isNoDoc ((freshCol.insert []).1.update 0 []).2 = true := by
  have h0 : freshCol.file.used = 0 := rfl
  have hinsp := Collection.insert_spec freshCol []
    (by norm_num [freshCol]) (by norm_num)
  have hsp : (freshCol.insert []).1.file.used
      < (freshCol.insert []).1.file.size := by
    rw [hinsp.2.2.1, hinsp.2.2.2.1]
    decide
  have h2 := Collection.read_insert freshCol [] (by norm_num [freshCol])
    (by norm_num) (by norm_num [freshCol, DataFile.fresh]) hsp
  constructor
  · rw [← h0, h2]
    simp
  · have hused2 : (freshCol.insert []).1.file.used = 11 := by
      rw [hinsp.2.2.1]
      norm_num [freshCol, DataFile.fresh, DocHeader]
    have hmax2 : (freshCol.insert []).1.docMaxRoom = 4 := by
      rw [hinsp.2.1]
      norm_num [freshCol]
    rw [Collection.update]
    rw [if_neg (by rw [hmax2]; norm_num)]
    rw [if_pos (Or.inr (Or.inl (by rw [hused2]; norm_num [DocHeader])))]
    rfl

/-- In-place `Collection.Update` of a valid live record with data no larger
than its reserved room: returns the same id, leaves `used`, `size` and every
byte outside the payload region `[id+DocHeader, id+DocHeader+room)` untouched,
and overwrites the region with the payload plus space padding. -/
theorem Collection.update_inplace_spec (col : Collection) (id : Int)
    (data : List Nat)
    (h0 : 0 ≤ id) (hlt : id < col.file.used - DocHeader)
    (hflag : col.file.buf id = 1)
    (hr : (varintAt col.file.buf (id + 1)).1 ≤ col.docMaxRoom)
    (hend : id + DocHeader + (varintAt col.file.buf (id + 1)).1 < col.file.size)
    (hdl : (data.length : Int) ≤ (varintAt col.file.buf (id + 1)).1) :
    (col.update id data).2 = .ok id ∧
    (col.update id data).1.file.used = col.file.used ∧
    (col.update id data).1.file.size = col.file.size ∧
    (col.update id data).1.file.growth = col.file.growth ∧
    (col.update id data).1.docMaxRoom = col.docMaxRoom ∧
    (∀ p : Int, (p < id + DocHeader ∨
        id + DocHeader + (varintAt col.file.buf (id + 1)).1 ≤ p) →
      (col.update id data).1.file.buf p = col.file.buf p) := by
  have hD : DocHeader = (11 : Int) := rfl
  simp only [Collection.update]
  rw [if_neg (by omega)]
  rw [if_neg (by
    simp only [not_or]
    exact ⟨by omega, by omega, by simpa using hflag⟩)]
  rw [if_neg (by omega), if_neg (by omega), if_pos hdl]
  refine ⟨rfl, rfl, rfl, rfl, rfl, ?_⟩
  intro p hp
  dsimp only
  rw [padLoop_outside _ _ _ p (by
    cases hp with
    | inl h => exact Or.inl (by omega)
    | inr h => exact Or.inr (by omega))]
  exact Buf.writeBytes_outside data _ _ _ (by
    cases hp with
    | inl h => exact Or.inl (by omega)
    | inr h => exact Or.inr (by omega))

/-! ## HashTable — static hash table file

Walks are structured exactly as the Go loops: an inner pass over the (at most
`PerBucket`) entries of the current bucket, then a hop to `nextBucket`.  The
hop count is bounded by a bucket fuel of `numBuckets + 1`; `nextBucket`'s
validation makes every hop strictly increasing, so this fuel is never
exhausted (proved below), and on concrete states the walk evaluates by
kernel reduction. -/

/-- `EntrySize = 1 + 10 + 10`. -/
def EntrySize : Int := 21

/-- `BucketHeader = 10`. -/
def BucketHeader : Int := 10

/-- Hash-table configuration (`PerBucket`, `HashBits`).  Go's walk loops
forever (or indexes out of bounds) when `PerBucket ≤ 0`; positivity is
carried in the structure. -/
structure HTConf where
  perBucket : Int
  hashBits : Nat
  perBucket_pos : 0 < perBucket

/-- `conf.BucketSize = BucketHeader + PerBucket*EntrySize`. -/
def HTConf.bucketSize (c : HTConf) : Int := BucketHeader + c.perBucket * EntrySize

/-- `conf.InitialBuckets = 1 << HashBits`. -/
def HTConf.initialBuckets (c : HTConf) : Int := 2 ^ c.hashBits

/-- `Config.HashKey` on a Go `int` key: smear the key's 64-bit pattern. -/
def HTConf.hashKeyI (c : HTConf) (key : Int) : Int :=
  (hashKey c.hashBits (toPattern64 key) : Int)

/-- A hash table file: configuration, data file, and the in-memory
`numBuckets` count. -/
structure HashTable where
  conf : HTConf
  file : DataFile
  numBuckets : Int

/-- Byte address of entry `entry` of bucket `bucket`. -/
def HashTable.entryAddr (ht : HashTable) (bucket entry : Int) : Int :=
  bucket * ht.conf.bucketSize + BucketHeader + entry * EntrySize

/-- The decoded view of one entry slot: flag byte, key and value varints. -/
structure Slot where
  flag : Nat
  key : Int
  val : Int
deriving DecidableEq

/-- Decode the slot at `(bucket, entry)`. -/
def HashTable.readSlot (ht : HashTable) (bucket entry : Int) : Slot :=
  ⟨ht.file.buf (ht.entryAddr bucket entry),
   (varintAt ht.file.buf (ht.entryAddr bucket entry + 1)).1,
   (varintAt ht.file.buf (ht.entryAddr bucket entry + 11)).1⟩

/-- `HashTable.nextBucket` (src): read the chained bucket number and reject
anything that is not strictly increasing, in overflow range, and in bounds. -/
def HashTable.nextBucket (ht : HashTable) (bucket : Int) : Int :=
  if bucket ≥ ht.numBuckets then 0
  else
    let bucketAddr := bucket * ht.conf.bucketSize
    let next := (varintAt ht.file.buf bucketAddr).1
    let err := (varintAt ht.file.buf bucketAddr).2
    if next = 0 then 0
    else if err < 0 ∨ next ≤ bucket ∨ next ≥ ht.numBuckets ∨
        next < ht.conf.initialBuckets then 0
    else next

/-- Validation makes every non-zero hop strictly increasing and in bounds —
for arbitrary byte contents. -/
theorem HashTable.nextBucket_bound (ht : HashTable) (bucket : Int) :
    ht.nextBucket bucket = 0 ∨
    (bucket < ht.nextBucket bucket ∧ ht.nextBucket bucket < ht.numBuckets) := by
  simp only [HashTable.nextBucket]
  split_ifs with h1 h2 h3
  · left; rfl
  · left; rfl
  · left; rfl
  · right
    push_neg at h3
    exact ⟨by omega, by omega⟩

/-- `HashTable.lastBucket` (src: follow `nextBucket` until it returns 0),
with an explicit hop budget of `numBuckets + 1` (shown sufficient below). -/
def HashTable.lastBucketFuel (ht : HashTable) : Nat → Int → Int
  | 0, curr => curr
  | fuel + 1, curr =>
    if ht.nextBucket curr = 0 then curr
    else ht.lastBucketFuel fuel (ht.nextBucket curr)

def HashTable.lastBucket (ht : HashTable) (bucket : Int) : Int :=
  ht.lastBucketFuel (ht.numBuckets + 1).toNat bucket

/-- With enough hops the walk reaches the chain's terminus: a bucket whose
`nextBucket` is 0. -/
theorem HashTable.lastBucketFuel_spec (ht : HashTable) :
    ∀ (fuel : Nat) (b : Int), 0 ≤ b → ht.numBuckets ≤ b + fuel →
    ht.nextBucket (ht.lastBucketFuel fuel b) = 0 := by
  intro fuel
  induction fuel with
  | zero =>
    intro b hb hle
    rw [HashTable.lastBucketFuel, HashTable.nextBucket, if_pos (by omega)]
  | succ f ih =>
    intro b hb hle
    rw [HashTable.lastBucketFuel]
    by_cases h : ht.nextBucket b = 0
    · rw [if_pos h]; exact h
    · rw [if_neg h]
      rcases ht.nextBucket_bound b with h0 | ⟨hgt, hlt⟩
      · exact absurd h0 h
      · exact ih (ht.nextBucket b) (by omega) (by omega)

/-- The terminus of `lastBucket` has no successor (for any buffer contents). -/
theorem HashTable.nextBucket_lastBucket (ht : HashTable) (b : Int)
    (hb : 0 ≤ b) : ht.nextBucket (ht.lastBucket b) = 0 := by
  rw [HashTable.lastBucket]
  exact ht.lastBucketFuel_spec _ b hb (by omega)

theorem HashTable.iterate_reach_zero (ht : HashTable) :
    ∀ (n : Nat) (b : Int), 0 ≤ b → ht.numBuckets ≤ b + n + 1 →
    ∃ k : Nat, k ≤ n + 1 ∧ (fun x => ht.nextBucket x)^[k] b = 0 := by
  intro n
  induction n with
  | zero =>
    intro b hb hle
    refine ⟨1, le_refl 1, ?_⟩
    rcases ht.nextBucket_bound b with h0 | ⟨hgt, hlt⟩
    · simpa using h0
    · omega
  | succ m ih =>
    intro b hb hle
    rcases ht.nextBucket_bound b with h0 | ⟨hgt, hlt⟩
    · exact ⟨1, by omega, by simpa using h0⟩
    · obtain ⟨k, hk, hit⟩ := ih (ht.nextBucket b) (by omega) (by omega)
      refine ⟨k + 1, by omega, ?_⟩
      rw [Function.iterate_succ_apply]
      exact hit

/-- Bucket-chain acyclicity and termination, for arbitrary buffer contents:
every non-zero `nextBucket` hop strictly increases and stays below
`numBuckets`, the hop sequence from any bucket reaches 0 within `numBuckets`
steps, and `lastBucket` halts at a bucket with no successor. -/
theorem nextBucket_chain_terminates (ht : HashTable) (b : Int)
    (hn : 1 ≤ ht.numBuckets) (hb : 0 ≤ b) :
    (∀ c : Int, ht.nextBucket c = 0 ∨
      (c < ht.nextBucket c ∧ ht.nextBucket c < ht.numBuckets)) ∧
    (∃ k : Nat, k ≤ ht.numBuckets.toNat ∧
      (fun x => ht.nextBucket x)^[k] b = 0) ∧
    ht.nextBucket (ht.lastBucket b) = 0 := by
  refine ⟨ht.nextBucket_bound, ?_, ht.nextBucket_lastBucket b hb⟩
  obtain ⟨k, hk, hit⟩ := ht.iterate_reach_zero (ht.numBuckets.toNat - 1) b hb (by omega)
  exact ⟨k, by omega, hit⟩

/-- Concrete instantiation of `nextBucket_chain_terminates`: a two-bucket
table over a zeroed file, starting at bucket 0. -/
theorem nextBucket_chain_terminates_witness :
    (1 ≤ (HashTable.mk ⟨2, 1, by norm_num⟩ (DataFile.fresh 104 (by norm_num)) 2).numBuckets ∧
     (0 : Int) ≤ 0) ∧
    ((∀ c : Int,
        (HashTable.mk ⟨2, 1, by norm_num⟩ (DataFile.fresh 104 (by norm_num)) 2).nextBucket c = 0 ∨
        (c < (HashTable.mk ⟨2, 1, by norm_num⟩ (DataFile.fresh 104 (by norm_num)) 2).nextBucket c ∧
         (HashTable.mk ⟨2, 1, by norm_num⟩ (DataFile.fresh 104 (by norm_num)) 2).nextBucket c
           < (HashTable.mk ⟨2, 1, by norm_num⟩ (DataFile.fresh 104 (by norm_num)) 2).numBuckets)) ∧
     (∃ k : Nat, k ≤ (HashTable.mk ⟨2, 1, by norm_num⟩ (DataFile.fresh 104 (by norm_num)) 2).numBuckets.toNat ∧
       (fun x => (HashTable.mk ⟨2, 1, by norm_num⟩ (DataFile.fresh 104 (by norm_num)) 2).nextBucket x)^[k] 0 = 0) ∧
     (HashTable.mk ⟨2, 1, by norm_num⟩ (DataFile.fresh 104 (by norm_num)) 2).nextBucket
       ((HashTable.mk ⟨2, 1, by norm_num⟩ (DataFile.fresh 104 (by norm_num)) 2).lastBucket 0) = 0) :=
  ⟨⟨by norm_num, le_refl 0⟩,
   nextBucket_chain_terminates _ 0 (by norm_num) (le_refl 0)⟩

/-- Inner pass of `HashTable.Get` over one bucket: `todo` entries remain.
`.inl` = the loop returns now; `.inr` = the bucket is exhausted, carry
`(count, vals)` to the chained bucket. -/
def HashTable.getBucket (ht : HashTable) (key limit bucket : Int) :
    Nat → Int → Int → List Int → (List Int) ⊕ (Int × List Int)
  | 0, _, count, vals => .inr (count, vals)
  | todo + 1, entry, count, vals =>
    let s := ht.readSlot bucket entry
    if s.flag = 1 then
      if s.key = key then
        if count + 1 = limit then .inl (vals ++ [s.val])
        else ht.getBucket key limit bucket todo (entry + 1) (count + 1)
          (vals ++ [s.val])
      else ht.getBucket key limit bucket todo (entry + 1) count vals
    else if s.key = 0 ∧ s.val = 0 then .inl vals
    else ht.getBucket key limit bucket todo (entry + 1) count vals

/-- Bucket-chain pass of `HashTable.Get`, with hop budget `bfuel`. -/
def HashTable.getChain (ht : HashTable) (key limit : Int) :
    Nat → Int → Int → List Int → List Int
  | 0, _, _, vals => vals
  | bfuel + 1, bucket, count, vals =>
    match ht.getBucket key limit bucket ht.conf.perBucket.toNat 0 count vals with
    | .inl res => res
    | .inr (count', vals') =>
      if ht.nextBucket bucket = 0 then vals'
      else ht.getChain key limit bfuel (ht.nextBucket bucket) count' vals'

/-- `HashTable.Get` (src): walk the chain of `HashKey(key)` collecting values
of live matching entries, until `limit` values are found (0 = unlimited), a
fully-zero slot is met, or the chain ends. -/
def HashTable.get (ht : HashTable) (key limit : Int) : List Int :=
  ht.getChain key limit (ht.numBuckets + 1).toNat (ht.conf.hashKeyI key) 0 []

/-- Inner pass of `HashTable.Remove`:
`.inl (some a)` = live matching entry found at address `a`;
`.inl none` = fully-zero slot met, stop; `.inr` = continue to next bucket. -/
def HashTable.removeBucket (ht : HashTable) (key val bucket : Int) :
    Nat → Int → (Option Int) ⊕ Unit
  | 0, _ => .inr ()
  | todo + 1, entry =>
    let s := ht.readSlot bucket entry
    if s.flag = 1 then
      if s.key = key ∧ s.val = val then .inl (some (ht.entryAddr bucket entry))
      else ht.removeBucket key val bucket todo (entry + 1)
    else if s.key = 0 ∧ s.val = 0 then .inl none
    else ht.removeBucket key val bucket todo (entry + 1)

/-- Bucket-chain pass of `HashTable.Remove`: the address to clear, if any. -/
def HashTable.removeChain (ht : HashTable) (key val : Int) :
    Nat → Int → Option Int
  | 0, _ => none
  | bfuel + 1, bucket =>
    match ht.removeBucket key val bucket ht.conf.perBucket.toNat 0 with
    | .inl r => r
    | .inr _ =>
      if ht.nextBucket bucket = 0 then none
      else ht.removeChain key val bfuel (ht.nextBucket bucket)

/-- `HashTable.Remove` (src): clear the flag of the first live entry with the
matching `(key, val)` pair; at most one entry is cleared. -/
def HashTable.remove (ht : HashTable) (key val : Int) : HashTable :=
  match ht.removeChain key val (ht.numBuckets + 1).toNat
      (ht.conf.hashKeyI key) with
  | some addr =>
    { ht with file := { ht.file with buf := ht.file.buf.set addr 0 } }
  | none => ht

/-- Inner pass of `HashTable.Put`: address of the first entry whose flag is
not 1 in this bucket, if any. -/
def HashTable.putBucket (ht : HashTable) (bucket : Int) :
    Nat → Int → Option Int
  | 0, _ => none
  | todo + 1, entry =>
    if ht.file.buf (ht.entryAddr bucket entry) ≠ 1 then
      some (ht.entryAddr bucket entry)
    else ht.putBucket bucket todo (entry + 1)

/-- Bucket-chain pass of `HashTable.Put`: the first vacant slot's address. -/
def HashTable.putChain (ht : HashTable) : Nat → Int → Option Int
  | 0, _ => none
  | bfuel + 1, bucket =>
    match ht.putBucket bucket ht.conf.perBucket.toNat 0 with
    | some addr => some addr
    | none =>
      if ht.nextBucket bucket = 0 then none
      else ht.putChain bfuel (ht.nextBucket bucket)

/-- Claim a vacant slot: `flag=1`, varint key at `+1`, varint val at `+11`. -/
def HashTable.writeEntry (ht : HashTable) (addr key val : Int) : HashTable :=
  let b1 := ht.file.buf.set addr 1
  let b2 := b1.writeBytes (addr + 1) (putVarint key)
  let b3 := b2.writeBytes (addr + 11) (putVarint val)
  { ht with file := { ht.file with buf := b3 } }

/-- `HashTable.growBucket` (src): extend the file by one bucket, link the
chain's last bucket to the new bucket number, bump `Used` and `numBuckets`. -/
def HashTable.growBucket (ht : HashTable) (bucket : Int) : HashTable :=
  let f1 := ht.file.ensureSize ht.conf.bucketSize
  { ht with
    file := { f1 with
      buf := f1.buf.writeBytes (ht.lastBucket bucket * ht.conf.bucketSize)
        (putVarint ht.numBuckets),
      used := f1.used + ht.conf.bucketSize },
    numBuckets := ht.numBuckets + 1 }

/-- `HashTable.Put` (src): claim the first vacant slot of `HashKey(key)`'s
chain; when the whole chain is live, grow a bucket onto the chain and retry.
On a well-formed table one retry always suffices (a grown bucket begins
vacant); the retry budget covers that with room to spare. -/
def HashTable.putFuel : Nat → HashTable → Int → Int → HashTable
  | 0, ht, _, _ => ht
  | retry + 1, ht, key, val =>
    match ht.putChain (ht.numBuckets + 1).toNat (ht.conf.hashKeyI key) with
    | some addr => ht.writeEntry addr key val
    | none =>
      HashTable.putFuel retry (ht.growBucket (ht.conf.hashKeyI key)) key val

def HashTable.put (ht : HashTable) (key val : Int) : HashTable :=
  HashTable.putFuel (ht.conf.initialBuckets + 2).toNat ht key val

/-! ## Partition (`data/partition.go`) -/

/-- A partition: a collection file plus the id → physical-offset lookup
table.  The locks and the exclusive-update channel map have no bearing on the
sequential state. -/
structure Partition where
  col : Collection
  lookup : HashTable

/-- `Partition.Insert` (src): insert into the collection, then record
`(id, physID)` in the lookup table. -/
def Partition.insert (part : Partition) (id : Int) (data : List Nat) :
    Partition × Except DbErr Int :=
  match part.col.insert data with
  | (col', .error e) => ({ part with col := col' }, .error e)
  | (col', .ok physID) =>
    (⟨col', part.lookup.put id physID⟩, .ok physID)

/-- `Partition.Read` (src): look up the physical offset, then read it. -/
def Partition.read (part : Partition) (id : Int) : Except DbErr (List Nat) :=
  match part.lookup.get id 1 with
  | [] => .error (.noDoc id)
  | physID :: _ =>
    match part.col.read physID with
    | none => .error (.noDoc id)
    | some data => .ok data

/-- `Partition.Update` (src): look up the physical offset, update the
collection; if the document moved, re-point the lookup entry. -/
def Partition.update (part : Partition) (id : Int) (data : List Nat) :
    Partition × Except DbErr Unit :=
  match part.lookup.get id 1 with
  | [] => (part, .error (.noDoc id))
  | physID :: _ =>
    match part.col.update physID data with
    | (col', .error e) => ({ part with col := col' }, .error e)
    | (col', .ok newID) =>
      if newID ≠ physID then
        (⟨col', (part.lookup.remove id physID).put id newID⟩, .ok ())
      else ({ part with col := col' }, .ok ())

/-- `Partition.Delete` (src): look up, tombstone in the collection (its error
is ignored), remove the lookup entry. -/
def Partition.delete (part : Partition) (id : Int) :
    Partition × Except DbErr Unit :=
  match part.lookup.get id 1 with
  | [] => (part, .error (.noDoc id))
  | physID :: _ =>
    (⟨(part.col.delete physID).1, part.lookup.remove id physID⟩, .ok ())

instance {ε α : Type} [DecidableEq ε] [DecidableEq α] : DecidableEq (Except ε α)
  | .ok a, .ok b =>
    if h : a = b then .isTrue (by rw [h])
    else .isFalse (by intro hc; cases hc; exact h rfl)
  | .ok _, .error _ => .isFalse (by intro hc; cases hc)
  | .error _, .ok _ => .isFalse (by intro hc; cases hc)
  | .error e, .error f =>
    if h : e = f then .isTrue (by rw [h])
    else .isFalse (by intro hc; cases hc; exact h rfl)

/-- Lookup-table configuration for the concrete scenarios: `PerBucket = 2`,
`HashBits = 1` (two head buckets). -/
def lookupConf : HTConf := ⟨2, 1, by norm_num⟩

/-- A fresh lookup table over a zeroed 104-byte file (two 52-byte buckets). -/
def freshLookup : HashTable := ⟨lookupConf, DataFile.fresh 104 (by norm_num), 2⟩

/-- A fresh partition with the small test configuration. -/
def freshPart : Partition := ⟨freshCol, freshLookup⟩

/-- Concrete violation of the lookup-liveness invariant: insert one document
under id 5, then update it with data whose doubled length exceeds
`DocMaxRoom = 4` but whose length does not.  `Collection.Update` tombstones
the record before `Insert` rejects the data, `Partition.Update` propagates the
error without touching the lookup table, and afterwards the live lookup entry
`(5, 0)` points at a record whose flag byte is 0. -/
theorem partition_update_fail_breaks_lookup_liveness :
    ((freshPart.insert 5 [65]).1.update 5 [66, 67, 68]).2
      = .error (.docTooLarge 4 6) ∧
    ((freshPart.insert 5 [65]).1.update 5 [66, 67, 68]).1.lookup.get 5 1 = [0] ∧
    ((freshPart.insert 5 [65]).1.update 5 [66, 67, 68]).1.col.file.buf 0 = 0 := by
  decide

/-- C9: in-place update frame condition through the partition layer.  For a
lookup entry `id → off` and a valid live record at `off` whose reserved room
holds `data`, `Partition.Update id data` succeeds, leaves the lookup table
literally unchanged, keeps the collection's `used` watermark and `size`, and
changes no byte outside the payload region `[off+DocHeader, off+DocHeader+room)`
— in particular every other record and this record's flag and room header. -/
theorem partition_update_inplace_frame (part : Partition) (id off : Int)
    (data : List Nat)
    (hget : part.lookup.get id 1 = [off])
    (h0 : 0 ≤ off) (hlt : off < part.col.file.used - DocHeader)
    (hflag : part.col.file.buf off = 1)
    (hr : (varintAt part.col.file.buf (off + 1)).1 ≤ part.col.docMaxRoom)
    (hend : off + DocHeader + (varintAt part.col.file.buf (off + 1)).1
      < part.col.file.size)
    (hdl : (data.length : Int) ≤ (varintAt part.col.file.buf (off + 1)).1) :
    (part.update id data).2 = .ok () ∧
    (part.update id data).1.lookup = part.lookup ∧
    (part.update id data).1.col.file.used = part.col.file.used ∧
    (part.update id data).1.col.file.size = part.col.file.size ∧
    (∀ p : Int, (p < off + DocHeader ∨
        off + DocHeader + (varintAt part.col.file.buf (off + 1)).1 ≤ p) →
      (part.update id data).1.col.file.buf p = part.col.file.buf p) := by
  obtain ⟨hok, hused, hsize, hgrowth, hmax, hframe⟩ :=
    Collection.update_inplace_spec part.col off data h0 hlt hflag hr hend hdl
  have hpair : part.col.update off data
      = ((part.col.update off data).1, Except.ok off) := Prod.ext rfl hok
  simp only [Partition.update, hget]
  rw [hpair]
  simp only [ne_eq, not_true_eq_false, if_false, ite_false]
  exact ⟨trivial, trivial, hused, hsize, hframe⟩

/-- Concrete instantiation of `partition_update_inplace_frame`: after inserting
`[65]` under id 5 into a fresh partition, update it in place with `[66]`. -/
theorem partition_update_inplace_frame_witness :
    ((freshPart.insert 5 [65]).1.lookup.get 5 1 = [0] ∧
     (0 : Int) ≤ 0 ∧
     (0 : Int) < (freshPart.insert 5 [65]).1.col.file.used - DocHeader ∧
     (freshPart.insert 5 [65]).1.col.file.buf 0 = 1 ∧
     (varintAt (freshPart.insert 5 [65]).1.col.file.buf (0 + 1)).1
       ≤ (freshPart.insert 5 [65]).1.col.docMaxRoom ∧
     0 + DocHeader + (varintAt (freshPart.insert 5 [65]).1.col.file.buf (0 + 1)).1
       < (freshPart.insert 5 [65]).1.col.file.size ∧
     (([66].length : Int)
       ≤ (varintAt (freshPart.insert 5 [65]).1.col.file.buf (0 + 1)).1)) ∧
    (((freshPart.insert 5 [65]).1.update 5 [66]).2 = .ok () ∧
     ((freshPart.insert 5 [65]).1.update 5 [66]).1.lookup
       = (freshPart.insert 5 [65]).1.lookup ∧
     ((freshPart.insert 5 [65]).1.update 5 [66]).1.col.file.used
       = (freshPart.insert 5 [65]).1.col.file.used ∧
     ((freshPart.insert 5 [65]).1.update 5 [66]).1.col.file.size
       = (freshPart.insert 5 [65]).1.col.file.size ∧
     (∀ p : Int, (p < 0 + DocHeader ∨
         0 + DocHeader
           + (varintAt (freshPart.insert 5 [65]).1.col.file.buf (0 + 1)).1 ≤ p) →
       ((freshPart.insert 5 [65]).1.update 5 [66]).1.col.file.buf p
         = (freshPart.insert 5 [65]).1.col.file.buf p)) :=
  ⟨⟨by decide, by decide, by decide, by decide, by decide, by decide, by decide⟩,
   partition_update_inplace_frame (freshPart.insert 5 [65]).1 5 0 [66]
     (by decide) (by decide) (by decide) (by decide) (by decide) (by decide)
     (by decide)⟩

/-! ## Pure view of the hash-table walks

Every walk (`Get`, `Remove`, `Put`) visits the entry slots of the buckets of
one chain in order.  We materialize the visited positions as a list and
re-express each walk as a pure recursion over that list, parameterized by a
slot reader, so that a state change at one slot becomes a pointwise change of
the reader. -/

/-- The bucket chain starting at `b`, as a list, with explicit hop fuel. -/
def HashTable.chainFuel (ht : HashTable) : Nat → Int → List Int
  | 0, _ => []
  | f + 1, b =>
    b :: (if ht.nextBucket b = 0 then [] else ht.chainFuel f (ht.nextBucket b))

/-- The bucket chain with the walks' hop budget. -/
def HashTable.chain (ht : HashTable) (b : Int) : List Int :=
  ht.chainFuel (ht.numBuckets + 1).toNat b

/-- The entry positions of one bucket, in visit order. -/
def HashTable.bucketPos (ht : HashTable) (b : Int) : List (Int × Int) :=
  (List.range ht.conf.perBucket.toNat).map (fun e : Nat => (b, (e : Int)))

/-- All slot positions visited by a walk of the chain of `b` (hop fuel `f`). -/
def HashTable.chainPosFuel (ht : HashTable) (f : Nat) (b : Int) :
    List (Int × Int) :=
  ((ht.chainFuel f b).map ht.bucketPos).flatten

/-- All slot positions visited by a walk of the chain of `b`. -/
def HashTable.chainPos (ht : HashTable) (b : Int) : List (Int × Int) :=
  ((ht.chain b).map ht.bucketPos).flatten

/-- Is the slot at `p` live, under reader `r`? -/
def isLive (r : Int → Int → Slot) (p : Int × Int) : Bool :=
  (r p.1 p.2).flag == 1

/-- Is the slot at `p` fully zero (dead flag, zero key, zero value)? -/
def isZeroSlot (r : Int → Int → Slot) (p : Int × Int) : Bool :=
  !((r p.1 p.2).flag == 1) && (r p.1 p.2).key == 0 && (r p.1 p.2).val == 0

/-- Is the slot at `p` a live entry for key `k`? -/
def isMatch (r : Int → Int → Slot) (k : Int) (p : Int × Int) : Bool :=
  isLive r p && (r p.1 p.2).key == k

/-- Is the slot at `p` a live entry for the pair `(k, v)`? -/
def isPair (r : Int → Int → Slot) (k v : Int) (p : Int × Int) : Bool :=
  isMatch r k p && (r p.1 p.2).val == v

/-- Values of the live entries for key `k` among the positions `ps`. -/
def liveVals (r : Int → Int → Slot) (k : Int) (ps : List (Int × Int)) :
    List Int :=
  (ps.filter (isMatch r k)).map (fun p => (r p.1 p.2).val)

/-- Every slot from the first fully-zero slot on is dead.  The walks stop at a
fully-zero slot, so this is exactly the condition under which they see every
live entry of the chain. -/
def cleanTail (r : Int → Int → Slot) (ps : List (Int × Int)) : Prop :=
  ((ps.dropWhile (fun p => !isZeroSlot r p)).all (fun p => !isLive r p)) = true

/-- Pure form of the `Get` walk over a position list. -/
def getPosLoop (r : Int → Int → Slot) (key limit : Int) :
    List (Int × Int) → Int → List Int → (List Int) ⊕ (Int × List Int)
  | [], count, vals => .inr (count, vals)
  | p :: ps, count, vals =>
    let s := r p.1 p.2
    if s.flag = 1 then
      if s.key = key then
        if count + 1 = limit then .inl (vals ++ [s.val])
        else getPosLoop r key limit ps (count + 1) (vals ++ [s.val])
      else getPosLoop r key limit ps count vals
    else if s.key = 0 ∧ s.val = 0 then .inl vals
    else getPosLoop r key limit ps count vals

/-- Result of the pure `Get` walk. -/
def getPos (r : Int → Int → Slot) (key limit : Int) (ps : List (Int × Int))
    (count : Int) (vals : List Int) : List Int :=
  match getPosLoop r key limit ps count vals with
  | .inl res => res
  | .inr (_, vals') => vals'

/-- Pure form of the `Remove` walk: position of the entry to clear.
`.inl (some p)` = found at `p`; `.inl none` = stopped at a fully-zero slot;
`.inr ()` = positions exhausted. -/
def removePosLoop (r : Int → Int → Slot) (key val : Int) :
    List (Int × Int) → (Option (Int × Int)) ⊕ Unit
  | [] => .inr ()
  | p :: ps =>
    let s := r p.1 p.2
    if s.flag = 1 then
      if s.key = key ∧ s.val = val then .inl (some p)
      else removePosLoop r key val ps
    else if s.key = 0 ∧ s.val = 0 then .inl none
    else removePosLoop r key val ps

/-- Pure form of the `Put` walk: the first position whose flag is not 1. -/
def putPosLoop (r : Int → Int → Slot) : List (Int × Int) → Option (Int × Int)
  | [] => none
  | p :: ps => if ¬((r p.1 p.2).flag = 1) then some p else putPosLoop r ps

/-- `getPosLoop` processes an appended list left to right. -/
theorem getPosLoop_append (r : Int → Int → Slot) (key limit : Int) :
    ∀ (l1 l2 : List (Int × Int)) (count : Int) (vals : List Int),
    getPosLoop r key limit (l1 ++ l2) count vals
      = match getPosLoop r key limit l1 count vals with
        | .inl res => .inl res
        | .inr (c, v) => getPosLoop r key limit l2 c v := by
  intro l1
  induction l1 with
  | nil => intro l2 count vals; rfl
  | cons p ps ih =>
    intro l2 count vals
    simp only [List.cons_append, getPosLoop]
    split_ifs with h1 h2 h3 <;> simp [ih]

/-- `removePosLoop` processes an appended list left to right. -/
theorem removePosLoop_append (r : Int → Int → Slot) (key val : Int) :
    ∀ (l1 l2 : List (Int × Int)),
    removePosLoop r key val (l1 ++ l2)
      = match removePosLoop r key val l1 with
        | .inl res => .inl res
        | .inr _ => removePosLoop r key val l2 := by
  intro l1
  induction l1 with
  | nil => intro l2; rfl
  | cons p ps ih =>
    intro l2
    simp only [List.cons_append, removePosLoop]
    split_ifs with h1 h2 h3 <;> simp [ih]

/-- `putPosLoop` processes an appended list left to right. -/
theorem putPosLoop_append (r : Int → Int → Slot) :
    ∀ (l1 l2 : List (Int × Int)),
    putPosLoop r (l1 ++ l2)
      = match putPosLoop r l1 with
        | some p => some p
        | none => putPosLoop r l2 := by
  intro l1
  induction l1 with
  | nil => intro l2; rfl
  | cons p ps ih =>
    intro l2
    simp only [List.cons_append, putPosLoop]
    split_ifs with h1 <;> simp [ih]

/-- Position window of one bucket pass, peeled by one entry. -/
theorem range_map_pos_succ (bucket entry : Int) (n : Nat) :
    (List.range (n + 1)).map (fun i : Nat => (bucket, entry + (i : Int)))
      = (bucket, entry)
        :: (List.range n).map (fun i : Nat => (bucket, entry + 1 + (i : Int))) := by
  rw [List.range_succ_eq_map]
  simp only [List.map_cons, List.map_map, Nat.cast_zero, add_zero]
  congr 1
  apply List.map_congr_left
  intro i _
  simp only [Function.comp_apply]
  congr 1
  push_cast
  ring

/-- A full bucket pass starting at entry 0 visits exactly `bucketPos`. -/
theorem range_map_pos_zero (ht : HashTable) (bucket : Int) :
    (List.range ht.conf.perBucket.toNat).map
        (fun i : Nat => (bucket, (0 : Int) + (i : Int)))
      = ht.bucketPos bucket := by
  rw [HashTable.bucketPos]
  apply List.map_congr_left
  intro i _
  simp

/-- One step of `chainPosFuel`. -/
theorem HashTable.chainPosFuel_succ (ht : HashTable) (f : Nat) (bucket : Int) :
    ht.chainPosFuel (f + 1) bucket
      = ht.bucketPos bucket
        ++ (if ht.nextBucket bucket = 0 then []
            else ht.chainPosFuel f (ht.nextBucket bucket)) := by
  rw [HashTable.chainPosFuel, HashTable.chainFuel]
  by_cases h : ht.nextBucket bucket = 0
  · simp [h, HashTable.chainPosFuel]
  · simp [h, HashTable.chainPosFuel]

/-- The inner `Get` pass is the pure walk over its position window. -/
theorem HashTable.getBucket_eq_pos (ht : HashTable) (key limit bucket : Int) :
    ∀ (todo : Nat) (entry count : Int) (vals : List Int),
    ht.getBucket key limit bucket todo entry count vals
      = getPosLoop ht.readSlot key limit
          ((List.range todo).map (fun i : Nat => (bucket, entry + (i : Int))))
          count vals := by
  intro todo
  induction todo with
  | zero => intro entry count vals; rfl
  | succ n ih =>
    intro entry count vals
    rw [range_map_pos_succ]
    simp only [HashTable.getBucket, getPosLoop]
    split_ifs <;> simp [ih]

/-- The `Get` chain walk is the pure walk over the chain's positions. -/
theorem HashTable.getChain_eq_pos (ht : HashTable) (key limit : Int) :
    ∀ (bfuel : Nat) (bucket count : Int) (vals : List Int),
    ht.getChain key limit bfuel bucket count vals
      = getPos ht.readSlot key limit (ht.chainPosFuel bfuel bucket) count vals := by
  intro bfuel
  induction bfuel with
  | zero => intro bucket count vals; rfl
  | succ f ih =>
    intro bucket count vals
    rw [HashTable.getChain,
      ht.getBucket_eq_pos key limit bucket ht.conf.perBucket.toNat 0 count vals,
      range_map_pos_zero, getPos, ht.chainPosFuel_succ f bucket,
      getPosLoop_append]
    cases hres : getPosLoop ht.readSlot key limit (ht.bucketPos bucket) count vals with
    | inl res => rfl
    | inr cv =>
      obtain ⟨c', v'⟩ := cv
      by_cases h : ht.nextBucket bucket = 0
      · rw [if_pos h]
        simp only [h, if_true]
        rfl
      · rw [if_neg h]
        simp only [h, if_false]
        rw [ih (ht.nextBucket bucket) c' v', getPos]

/-- `HashTable.Get` as the pure walk over `chainPos` of the key's head
bucket. -/
theorem HashTable.get_eq_pos (ht : HashTable) (key limit : Int) :
    ht.get key limit
      = getPos ht.readSlot key limit (ht.chainPos (ht.conf.hashKeyI key)) 0 [] := by
  rw [HashTable.get, ht.getChain_eq_pos key limit]
  rfl

/-- Map a found position to its entry address. -/
def posAddr (ht : HashTable) : (Option (Int × Int)) ⊕ Unit → (Option Int) ⊕ Unit
  | .inl r => .inl (r.map fun p => ht.entryAddr p.1 p.2)
  | .inr u => .inr u

/-- The inner `Remove` pass is the pure walk over its position window. -/
theorem HashTable.removeBucket_eq_pos (ht : HashTable) (key val bucket : Int) :
    ∀ (todo : Nat) (entry : Int),
    ht.removeBucket key val bucket todo entry
      = posAddr ht (removePosLoop ht.readSlot key val
          ((List.range todo).map (fun i : Nat => (bucket, entry + (i : Int))))) := by
  intro todo
  induction todo with
  | zero => intro entry; rfl
  | succ n ih =>
    intro entry
    rw [range_map_pos_succ]
    simp only [HashTable.removeBucket, removePosLoop]
    split_ifs <;> simp [ih, posAddr]

/-- The `Remove` chain walk is the pure walk over the chain's positions. -/
theorem HashTable.removeChain_eq_pos (ht : HashTable) (key val : Int) :
    ∀ (bfuel : Nat) (bucket : Int),
    ht.removeChain key val bfuel bucket
      = match removePosLoop ht.readSlot key val (ht.chainPosFuel bfuel bucket) with
        | .inl r => r.map fun p => ht.entryAddr p.1 p.2
        | .inr _ => none := by
  intro bfuel
  induction bfuel with
  | zero => intro bucket; rfl
  | succ f ih =>
    intro bucket
    rw [HashTable.removeChain,
      ht.removeBucket_eq_pos key val bucket ht.conf.perBucket.toNat 0,
      range_map_pos_zero, ht.chainPosFuel_succ f bucket, removePosLoop_append]
    cases hres : removePosLoop ht.readSlot key val (ht.bucketPos bucket) with
    | inl r => simp [posAddr]
    | inr u =>
      simp only [posAddr]
      by_cases h : ht.nextBucket bucket = 0
      · simp only [h, if_true]
        rfl
      · simp only [h, if_false]
        rw [ih (ht.nextBucket bucket)]

/-- The inner `Put` pass is the pure walk over its position window. -/
theorem HashTable.putBucket_eq_pos (ht : HashTable) (bucket : Int) :
    ∀ (todo : Nat) (entry : Int),
    ht.putBucket bucket todo entry
      = (putPosLoop ht.readSlot
          ((List.range todo).map (fun i : Nat => (bucket, entry + (i : Int))))).map
          (fun p => ht.entryAddr p.1 p.2) := by
  intro todo
  induction todo with
  | zero => intro entry; rfl
  | succ n ih =>
    intro entry
    rw [range_map_pos_succ]
    simp only [HashTable.putBucket, putPosLoop, HashTable.readSlot]
    split_ifs <;> simp [ih]

/-- The `Put` chain walk is the pure walk over the chain's positions. -/
theorem HashTable.putChain_eq_pos (ht : HashTable) :
    ∀ (bfuel : Nat) (bucket : Int),
    ht.putChain bfuel bucket
      = (putPosLoop ht.readSlot (ht.chainPosFuel bfuel bucket)).map
          (fun p => ht.entryAddr p.1 p.2) := by
  intro bfuel
  induction bfuel with
  | zero => intro bucket; rfl
  | succ f ih =>
    intro bucket
    rw [HashTable.putChain, ht.putBucket_eq_pos bucket ht.conf.perBucket.toNat 0,
      range_map_pos_zero, ht.chainPosFuel_succ f bucket, putPosLoop_append]
    cases hres : putPosLoop ht.readSlot (ht.bucketPos bucket) with
    | some p => rfl
    | none =>
      simp only []
      by_cases h : ht.nextBucket bucket = 0
      · simp only [h, if_true]
        rfl
      · simp only [h, if_false]
        rw [ih (ht.nextBucket bucket)]
        rfl

/-- From a start below `numBuckets`, every chain member stays in
`[b, numBuckets)`. -/
theorem HashTable.chainFuel_mem_bounds (ht : HashTable) :
    ∀ (f : Nat) (b x : Int), x ∈ ht.chainFuel f b → b < ht.numBuckets →
    b ≤ x ∧ x < ht.numBuckets := by
  intro f
  induction f with
  | zero => intro b x hx _; simp [HashTable.chainFuel] at hx
  | succ n ih =>
    intro b x hx hb
    rw [HashTable.chainFuel] at hx
    rcases List.mem_cons.mp hx with rfl | hx2
    · exact ⟨le_refl x, hb⟩
    · by_cases h : ht.nextBucket b = 0
      · rw [if_pos h] at hx2; simp at hx2
      · rw [if_neg h] at hx2
        rcases ht.nextBucket_bound b with h0 | ⟨hgt, hlt⟩
        · exact absurd h0 h
        · obtain ⟨h1, h2⟩ := ih (ht.nextBucket b) x hx2 hlt
          exact ⟨by omega, h2⟩

/-- Chains are strictly increasing, hence duplicate-free. -/
theorem HashTable.chainFuel_pairwise (ht : HashTable) :
    ∀ (f : Nat) (b : Int), (ht.chainFuel f b).Pairwise (· < ·) := by
  intro f
  induction f with
  | zero => intro b; simp [HashTable.chainFuel]
  | succ n ih =>
    intro b
    rw [HashTable.chainFuel]
    by_cases h : ht.nextBucket b = 0
    · simp [h]
    · rw [if_neg h]
      refine List.pairwise_cons.mpr ⟨?_, ih _⟩
      intro x hx
      rcases ht.nextBucket_bound b with h0 | ⟨hgt, hlt⟩
      · exact absurd h0 h
      · obtain ⟨h1, _⟩ := ht.chainFuel_mem_bounds n (ht.nextBucket b) x hx hlt
        omega

/-- Membership in a bucket's position window. -/
theorem HashTable.mem_bucketPos (ht : HashTable) (b : Int) (p : Int × Int) :
    p ∈ ht.bucketPos b ↔ p.1 = b ∧ 0 ≤ p.2 ∧ p.2 < ht.conf.perBucket := by
  rw [HashTable.bucketPos]
  simp only [List.mem_map, List.mem_range]
  constructor
  · rintro ⟨e, he, rfl⟩
    have hp := ht.conf.perBucket_pos
    refine ⟨rfl, by positivity, ?_⟩
    have : (e : Int) < (ht.conf.perBucket.toNat : Int) := by exact_mod_cast he
    omega
  · rintro ⟨h1, h2, h3⟩
    refine ⟨p.2.toNat, by omega, ?_⟩
    obtain ⟨pa, pb⟩ := p
    simp only at h1 h2 h3 ⊢
    rw [h1]
    congr 1
    omega

/-- Membership in a chain's position list. -/
theorem HashTable.mem_chainPosFuel (ht : HashTable) (f : Nat) (b : Int)
    (p : Int × Int) :
    p ∈ ht.chainPosFuel f b ↔ ∃ c ∈ ht.chainFuel f b, p ∈ ht.bucketPos c := by
  rw [HashTable.chainPosFuel]
  simp only [List.mem_flatten, List.mem_map]
  constructor
  · rintro ⟨l, ⟨c, hc, rfl⟩, hp⟩
    exact ⟨c, hc, hp⟩
  · rintro ⟨c, hc, hp⟩
    exact ⟨ht.bucketPos c, ⟨c, hc, rfl⟩, hp⟩

/-- A bucket's position window has no duplicates. -/
theorem HashTable.bucketPos_nodup (ht : HashTable) (b : Int) :
    (ht.bucketPos b).Nodup := by
  rw [HashTable.bucketPos]
  refine List.Nodup.map ?_ (List.nodup_range _)
  intro e1 e2 he
  have : ((e1 : Int)) = (e2 : Int) := congrArg Prod.snd he
  exact_mod_cast this

/-- A chain's position list has no duplicates. -/
theorem HashTable.chainPosFuel_nodup (ht : HashTable) :
    ∀ (f : Nat) (b : Int), b < ht.numBuckets → (ht.chainPosFuel f b).Nodup := by
  intro f
  induction f with
  | zero =>
    intro b _
    simp [HashTable.chainPosFuel, HashTable.chainFuel]
  | succ n ih =>
    intro b hb
    rw [HashTable.chainPosFuel_succ]
    refine List.Nodup.append (ht.bucketPos_nodup b) ?_ ?_
    · by_cases h : ht.nextBucket b = 0
      · simp [h]
      · rw [if_neg h]
        rcases ht.nextBucket_bound b with h0 | ⟨hgt, hlt⟩
        · exact absurd h0 h
        · exact ih _ hlt
    · intro p hp1 hp2
      have hfst1 : p.1 = b := ((ht.mem_bucketPos b p).mp hp1).1
      by_cases h : ht.nextBucket b = 0
      · rw [if_pos h] at hp2; simp at hp2
      · rw [if_neg h] at hp2
        rcases ht.nextBucket_bound b with h0 | ⟨hgt, hlt⟩
        · exact absurd h0 h
        · obtain ⟨c, hc, hpc⟩ := (ht.mem_chainPosFuel n _ p).mp hp2
          have hfst2 : p.1 = c := ((ht.mem_bucketPos c p).mp hpc).1
          obtain ⟨hcge, _⟩ := ht.chainFuel_mem_bounds n _ c hc hlt
          omega

/-- One unfolding step of `chainFuel`. -/
theorem HashTable.chainFuel_succ_def (ht : HashTable) (f : Nat) (b : Int) :
    ht.chainFuel (f + 1) b
      = b :: (if ht.nextBucket b = 0 then []
              else ht.chainFuel f (ht.nextBucket b)) := rfl

/-- With sufficient fuel, the chain list does not depend on the fuel. -/
theorem HashTable.chainFuel_stable (ht : HashTable) :
    ∀ (f : Nat) (b : Int) (g : Nat), ht.numBuckets ≤ b + f + 1 →
    ht.numBuckets ≤ b + g + 1 →
    ht.chainFuel (f + 1) b = ht.chainFuel (g + 1) b := by
  intro f
  induction f with
  | zero =>
    intro b g hf hg
    have h0 : ht.nextBucket b = 0 := by
      rcases ht.nextBucket_bound b with h | ⟨h1, h2⟩
      · exact h
      · omega
    rw [ht.chainFuel_succ_def 0 b, ht.chainFuel_succ_def g b, h0]
    simp
  | succ n ih =>
    intro b g hf hg
    by_cases h0 : ht.nextBucket b = 0
    · rw [ht.chainFuel_succ_def (n + 1) b, ht.chainFuel_succ_def g b, h0]
      simp
    · rcases ht.nextBucket_bound b with h | ⟨h1, h2⟩
      · exact absurd h h0
      · obtain ⟨g', rfl⟩ : ∃ g', g = g' + 1 := ⟨g - 1, by omega⟩
        rw [ht.chainFuel_succ_def (n + 1) b, ht.chainFuel_succ_def (g' + 1) b,
          if_neg h0, if_neg h0]
        congr 1
        exact ih (ht.nextBucket b) g' (by omega) (by omega)

/-- Chains agree between two states whose `nextBucket` agree along the walk. -/
theorem HashTable.chainFuel_congr_mem (ht1 ht2 : HashTable) :
    ∀ (f : Nat) (b : Int),
    (∀ x ∈ ht1.chainFuel f b, ht1.nextBucket x = ht2.nextBucket x) →
    ht1.chainFuel f b = ht2.chainFuel f b := by
  intro f
  induction f with
  | zero => intro b _; rfl
  | succ n ih =>
    intro b h
    rw [HashTable.chainFuel, HashTable.chainFuel]
    have hb : ht1.nextBucket b = ht2.nextBucket b := by
      apply h
      rw [HashTable.chainFuel]
      exact List.mem_cons_self _ _
    rw [← hb]
    by_cases h0 : ht1.nextBucket b = 0
    · simp [h0]
    · rw [if_neg h0, if_neg h0]
      congr 1
      apply ih
      intro x hx
      apply h
      rw [HashTable.chainFuel, if_neg h0]
      exact List.mem_cons_of_mem _ hx

/-- An entry slot's 21 bytes lie strictly inside its bucket's block, after the
10-byte header. -/
theorem HashTable.entryAddr_block (ht : HashTable) (b e : Int)
    (he0 : 0 ≤ e) (heP : e < ht.conf.perBucket) :
    b * ht.conf.bucketSize + BucketHeader ≤ ht.entryAddr b e ∧
    ht.entryAddr b e + EntrySize ≤ (b + 1) * ht.conf.bucketSize := by
  rw [HashTable.entryAddr]
  have hBS : ht.conf.bucketSize = BucketHeader + ht.conf.perBucket * EntrySize :=
    rfl
  have hE : EntrySize = (21 : Int) := rfl
  have hB : BucketHeader = (10 : Int) := rfl
  constructor
  · have : 0 ≤ e * EntrySize := by
      rw [hE]; positivity
    omega
  · have hmul : (e + 1) * EntrySize ≤ ht.conf.perBucket * EntrySize :=
      mul_le_mul_of_nonneg_right (by omega) (by rw [hE]; norm_num)
    have hexp : (b + 1) * ht.conf.bucketSize
        = b * ht.conf.bucketSize + BucketHeader
          + ht.conf.perBucket * EntrySize := by
      rw [hBS]; ring
    rw [hexp]
    have : e * EntrySize + EntrySize = (e + 1) * EntrySize := by ring
    omega

/-- Distinct buckets occupy disjoint byte blocks. -/
theorem block_disjoint (BS : Int) (hBS : 0 < BS) (b c : Int) (hbc : b ≠ c) :
    (b + 1) * BS ≤ c * BS ∨ (c + 1) * BS ≤ b * BS := by
  rcases lt_or_gt_of_ne hbc with h | h
  · left; exact mul_le_mul_of_nonneg_right (by omega) hBS.le
  · right; exact mul_le_mul_of_nonneg_right (by omega) hBS.le

/-- The bucket size is at least 31 bytes. -/
theorem HashTable.bucketSize_pos (ht : HashTable) :
    31 ≤ ht.conf.bucketSize := by
  have hp := ht.conf.perBucket_pos
  have hBS : ht.conf.bucketSize = BucketHeader + ht.conf.perBucket * EntrySize :=
    rfl
  have hmul : 1 * EntrySize ≤ ht.conf.perBucket * EntrySize :=
    mul_le_mul_of_nonneg_right (by omega) (by norm_num [EntrySize])
  rw [hBS]
  have hE : EntrySize = (21 : Int) := rfl
  have hB : BucketHeader = (10 : Int) := rfl
  omega

/-- The byte ranges of two distinct entry slots are disjoint. -/
theorem HashTable.entryAddr_sep (ht : HashTable) (b1 e1 b2 e2 : Int)
    (h1 : 0 ≤ e1) (h2 : e1 < ht.conf.perBucket)
    (h3 : 0 ≤ e2) (h4 : e2 < ht.conf.perBucket)
    (hne : (b1, e1) ≠ (b2, e2)) :
    ht.entryAddr b1 e1 + EntrySize ≤ ht.entryAddr b2 e2 ∨
    ht.entryAddr b2 e2 + EntrySize ≤ ht.entryAddr b1 e1 := by
  by_cases hb : b1 = b2
  · subst hb
    have hee : e1 ≠ e2 := by
      intro h; exact hne (by rw [h])
    rw [HashTable.entryAddr, HashTable.entryAddr]
    have hE : EntrySize = (21 : Int) := rfl
    have hB : BucketHeader = (10 : Int) := rfl
    rcases lt_or_gt_of_ne hee with h | h
    · left
      have : (e1 + 1) * EntrySize ≤ e2 * EntrySize :=
        mul_le_mul_of_nonneg_right (by omega) (by rw [hE]; norm_num)
      have hto : e1 * EntrySize + EntrySize = (e1 + 1) * EntrySize := by ring
      omega
    · right
      have : (e2 + 1) * EntrySize ≤ e1 * EntrySize :=
        mul_le_mul_of_nonneg_right (by omega) (by rw [hE]; norm_num)
      have hto : e2 * EntrySize + EntrySize = (e2 + 1) * EntrySize := by ring
      omega
  · obtain ⟨hl1, hr1⟩ := ht.entryAddr_block b1 e1 h1 h2
    obtain ⟨hl2, hr2⟩ := ht.entryAddr_block b2 e2 h3 h4
    have hBSpos : (0 : Int) < ht.conf.bucketSize := by
      have := ht.bucketSize_pos; omega
    rcases block_disjoint ht.conf.bucketSize hBSpos b1 b2 hb with h | h
    · left
      have hB : BucketHeader = (10 : Int) := rfl
      omega
    · right
      have hB : BucketHeader = (10 : Int) := rfl
      omega

/-- An entry slot's bytes never overlap any bucket header's 10 bytes. -/
theorem HashTable.entryAddr_not_header (ht : HashTable) (b e c : Int)
    (he0 : 0 ≤ e) (heP : e < ht.conf.perBucket) :
    ∀ i j : Int, 0 ≤ i → i < EntrySize → 0 ≤ j → j < BucketHeader →
    ht.entryAddr b e + i ≠ c * ht.conf.bucketSize + j := by
  intro i j hi0 hiE hj0 hjB
  obtain ⟨hl, hr⟩ := ht.entryAddr_block b e he0 heP
  have hB : BucketHeader = (10 : Int) := rfl
  have hE : EntrySize = (21 : Int) := rfl
  by_cases hbc : b = c
  · subst hbc
    omega
  · have hBSpos : (0 : Int) < ht.conf.bucketSize := by
      have := ht.bucketSize_pos; omega
    have hBS10 : (10 : Int) ≤ ht.conf.bucketSize := by
      have := ht.bucketSize_pos; omega
    rcases block_disjoint ht.conf.bucketSize hBSpos b c hbc with h | h
    · have hcc : c * ht.conf.bucketSize + j < (c + 1) * ht.conf.bucketSize := by
        have : (c + 1) * ht.conf.bucketSize
            = c * ht.conf.bucketSize + ht.conf.bucketSize := by ring
        omega
      have hbb : (b + 1) * ht.conf.bucketSize ≤ c * ht.conf.bucketSize := h
      omega
    · have hcc : c * ht.conf.bucketSize + ht.conf.bucketSize
          ≤ b * ht.conf.bucketSize := by
        have : (c + 1) * ht.conf.bucketSize
            = c * ht.conf.bucketSize + ht.conf.bucketSize := by ring
        omega
      omega

/-- Changing buffer bytes outside a slot's 21 bytes does not change the
decoded slot. -/
theorem HashTable.readSlot_congr (ht : HashTable) (buf2 : Buf) (b e : Int)
    (h : ∀ i : Int, 0 ≤ i → i < EntrySize →
      buf2 (ht.entryAddr b e + i) = ht.file.buf (ht.entryAddr b e + i)) :
    ({ ht with file := { ht.file with buf := buf2 } } : HashTable).readSlot b e
      = ht.readSlot b e := by
  have hE : EntrySize = (21 : Int) := rfl
  have haddr : ({ ht with file := { ht.file with buf := buf2 } } :
      HashTable).entryAddr b e = ht.entryAddr b e := rfl
  rw [HashTable.readSlot, HashTable.readSlot, haddr]
  have hflag : buf2 (ht.entryAddr b e) = ht.file.buf (ht.entryAddr b e) := by
    have := h 0 (by norm_num) (by rw [hE]; norm_num)
    simpa using this
  have hkey : varintAt buf2 (ht.entryAddr b e + 1)
      = varintAt ht.file.buf (ht.entryAddr b e + 1) := by
    apply varintAt_congr
    intro i hi
    have := h (1 + i) (by omega) (by rw [hE]; omega)
    have harr : ht.entryAddr b e + (1 + (i : Int))
        = ht.entryAddr b e + 1 + (i : Int) := by ring
    rw [harr] at this
    exact this
  have hval : varintAt buf2 (ht.entryAddr b e + 11)
      = varintAt ht.file.buf (ht.entryAddr b e + 11) := by
    apply varintAt_congr
    intro i hi
    have := h (11 + i) (by omega) (by rw [hE]; omega)
    have harr : ht.entryAddr b e + (11 + (i : Int))
        = ht.entryAddr b e + 11 + (i : Int) := by ring
    rw [harr] at this
    exact this
  dsimp only
  rw [hflag, hkey, hval]

/-- Changing buffer bytes outside a bucket's 10-byte header does not change
its `nextBucket`. -/
theorem HashTable.nextBucket_congr (ht : HashTable) (buf2 : Buf) (b : Int)
    (h : ∀ j : Int, 0 ≤ j → j < BucketHeader →
      buf2 (b * ht.conf.bucketSize + j) = ht.file.buf (b * ht.conf.bucketSize + j)) :
    ({ ht with file := { ht.file with buf := buf2 } } : HashTable).nextBucket b
      = ht.nextBucket b := by
  have hB : BucketHeader = (10 : Int) := rfl
  have hv : varintAt buf2 (b * ht.conf.bucketSize)
      = varintAt ht.file.buf (b * ht.conf.bucketSize) := by
    apply varintAt_congr
    intro i hi
    exact h i (by omega) (by rw [hB]; omega)
  simp only [HashTable.nextBucket]
  rw [hv]

/-- Pointwise-equal readers give equal slot tests. -/
theorem isLive_congr (r1 r2 : Int → Int → Slot) (q : Int × Int)
    (h : r1 q.1 q.2 = r2 q.1 q.2) : isLive r1 q = isLive r2 q := by
  rw [isLive, isLive, h]

theorem isZeroSlot_congr (r1 r2 : Int → Int → Slot) (q : Int × Int)
    (h : r1 q.1 q.2 = r2 q.1 q.2) : isZeroSlot r1 q = isZeroSlot r2 q := by
  rw [isZeroSlot, isZeroSlot, h]

theorem isMatch_congr (r1 r2 : Int → Int → Slot) (k : Int) (q : Int × Int)
    (h : r1 q.1 q.2 = r2 q.1 q.2) : isMatch r1 k q = isMatch r2 k q := by
  rw [isMatch, isMatch, isLive_congr r1 r2 q h, h]

theorem isPair_congr (r1 r2 : Int → Int → Slot) (k v : Int) (q : Int × Int)
    (h : r1 q.1 q.2 = r2 q.1 q.2) : isPair r1 k v q = isPair r2 k v q := by
  rw [isPair, isPair, isMatch_congr r1 r2 k q h, h]

/-- `liveVals` only depends on the reader at the listed positions. -/
theorem liveVals_congr (r1 r2 : Int → Int → Slot) (k : Int) :
    ∀ ps : List (Int × Int), (∀ p ∈ ps, r1 p.1 p.2 = r2 p.1 p.2) →
    liveVals r1 k ps = liveVals r2 k ps := by
  intro ps h
  rw [liveVals, liveVals]
  rw [List.filter_congr (fun p hp => isMatch_congr r1 r2 k p (h p hp))]
  apply List.map_congr_left
  intro p hp
  rw [h p (List.mem_of_mem_filter hp)]

theorem liveVals_append (r : Int → Int → Slot) (k : Int)
    (l1 l2 : List (Int × Int)) :
    liveVals r k (l1 ++ l2) = liveVals r k l1 ++ liveVals r k l2 := by
  simp [liveVals, List.filter_append]

theorem liveVals_cons (r : Int → Int → Slot) (k : Int) (p : Int × Int)
    (l : List (Int × Int)) :
    liveVals r k (p :: l)
      = (if isMatch r k p then [(r p.1 p.2).val] else []) ++ liveVals r k l := by
  by_cases h : isMatch r k p
  · rw [if_pos h, liveVals, liveVals, List.filter_cons_of_pos h, List.map_cons]
    rfl
  · rw [if_neg h, liveVals, liveVals,
      List.filter_cons_of_neg (by simpa using h), List.nil_append]

/-- `dropWhile` over the zero-slot test only depends on the listed slots. -/
theorem dropWhile_zero_congr (r1 r2 : Int → Int → Slot) :
    ∀ ps : List (Int × Int), (∀ p ∈ ps, r1 p.1 p.2 = r2 p.1 p.2) →
    ps.dropWhile (fun p => !isZeroSlot r1 p)
      = ps.dropWhile (fun p => !isZeroSlot r2 p) := by
  intro ps
  induction ps with
  | nil => intro _; rfl
  | cons p ps ih =>
    intro h
    rw [List.dropWhile_cons, List.dropWhile_cons,
      isZeroSlot_congr r1 r2 p (h p (List.mem_cons_self _ _))]
    by_cases hz : isZeroSlot r2 p
    · simp only [hz, Bool.not_true]
      norm_num
    · simp only [hz, Bool.not_false]
      norm_num
      exact ih (fun q hq => h q (List.mem_cons_of_mem _ hq))

/-- `cleanTail` only depends on the reader at the listed positions. -/
theorem cleanTail_congr (r1 r2 : Int → Int → Slot) (ps : List (Int × Int))
    (h : ∀ p ∈ ps, r1 p.1 p.2 = r2 p.1 p.2) :
    cleanTail r1 ps ↔ cleanTail r2 ps := by
  rw [cleanTail, cleanTail, dropWhile_zero_congr r1 r2 ps h]
  simp only [List.all_eq_true]
  constructor <;> intro ha q hq
  · rw [← isLive_congr r1 r2 q
      (h q ((List.dropWhile_sublist _).subset hq))]
    exact ha q hq
  · rw [isLive_congr r1 r2 q
      (h q ((List.dropWhile_sublist _).subset hq))]
    exact ha q hq

/-- Under `cleanTail`, the region before the first fully-zero slot carries
every live entry. -/
theorem liveVals_visible (r : Int → Int → Slot) (k : Int)
    (ps : List (Int × Int)) (h : cleanTail r ps) :
    liveVals r k (ps.takeWhile (fun p => !isZeroSlot r p)) = liveVals r k ps := by
  conv_rhs => rw [← List.takeWhile_append_dropWhile
    (p := fun p => !isZeroSlot r p) (l := ps)]
  rw [liveVals_append]
  suffices hnil : liveVals r k (ps.dropWhile (fun p => !isZeroSlot r p)) = [] by
    rw [hnil, List.append_nil]
  rw [liveVals, List.map_eq_nil_iff, List.filter_eq_nil_iff]
  intro q hq
  rw [cleanTail, List.all_eq_true] at h
  have hdead := h q hq
  rw [isMatch]
  simp only [Bool.not_eq_true'] at hdead
  rw [isLive] at hdead
  rw [isLive, hdead]
  simp

/-- One step of the pure `Get` walk. -/
theorem getPos_cons (r : Int → Int → Slot) (k limit : Int) (p : Int × Int)
    (ps : List (Int × Int)) (count : Int) (vals : List Int) :
    getPos r k limit (p :: ps) count vals
      = (if (r p.1 p.2).flag = 1 then
           if (r p.1 p.2).key = k then
             if count + 1 = limit then vals ++ [(r p.1 p.2).val]
             else getPos r k limit ps (count + 1) (vals ++ [(r p.1 p.2).val])
           else getPos r k limit ps count vals
         else if (r p.1 p.2).key = 0 ∧ (r p.1 p.2).val = 0 then vals
         else getPos r k limit ps count vals) := by
  rw [getPos, getPosLoop]
  split_ifs <;> rfl

/-- With `limit = 0` the pure `Get` walk collects the values of every live
entry for the key up to the first fully-zero slot. -/
theorem getPos_zero (r : Int → Int → Slot) (k : Int) :
    ∀ (ps : List (Int × Int)) (count : Int) (vals : List Int), 0 ≤ count →
    getPos r k 0 ps count vals
      = vals ++ liveVals r k (ps.takeWhile (fun p => !isZeroSlot r p)) := by
  intro ps
  induction ps with
  | nil =>
    intro count vals _
    simp [getPos, getPosLoop, liveVals]
  | cons p ps ih =>
    intro count vals hc
    rw [getPos_cons]
    by_cases h1 : (r p.1 p.2).flag = 1
    · have hz : (!isZeroSlot r p) = true := by
        simp [isZeroSlot, h1]
      rw [@List.takeWhile_cons_of_pos _ (fun q => !isZeroSlot r q) p ps hz,
        liveVals_cons]
      by_cases h2 : (r p.1 p.2).key = k
      · have hm : isMatch r k p = true := by
          simp [isMatch, isLive, h1, h2]
        rw [if_pos h1, if_pos h2, if_neg (by omega),
          ih (count + 1) (vals ++ [(r p.1 p.2).val]) (by omega), hm]
        simp
      · have hm : isMatch r k p = false := by
          simp [isMatch, isLive, h1, h2]
        rw [if_pos h1, if_neg h2, ih count vals hc, hm]
        simp
    · by_cases h3 : (r p.1 p.2).key = 0 ∧ (r p.1 p.2).val = 0
      · have hz : isZeroSlot r p = true := by
          simp [isZeroSlot, h1, h3.1, h3.2]
        rw [if_neg h1, if_pos h3, List.takeWhile_cons_of_neg (by simp [hz])]
        simp [liveVals]
      · have hz : (!isZeroSlot r p) = true := by
          rw [isZeroSlot]
          by_cases hk : (r p.1 p.2).key = 0
          · by_cases hv : (r p.1 p.2).val = 0
            · exact absurd ⟨hk, hv⟩ h3
            · simp [hv]
          · simp [hk]
        have hm : isMatch r k p = false := by
          simp [isMatch, isLive, h1]
        rw [if_neg h1, if_neg h3, ih count vals hc,
          @List.takeWhile_cons_of_pos _ (fun q => !isZeroSlot r q) p ps hz,
          liveVals_cons, hm]
        simp

/-- With `limit = 1` the pure `Get` walk returns the first live value for the
key before the first fully-zero slot, if any. -/
theorem getPos_one (r : Int → Int → Slot) (k : Int) :
    ∀ ps : List (Int × Int),
    getPos r k 1 ps 0 []
      = (liveVals r k (ps.takeWhile (fun p => !isZeroSlot r p))).take 1 := by
  intro ps
  induction ps with
  | nil => simp [getPos, getPosLoop, liveVals]
  | cons p ps ih =>
    rw [getPos_cons]
    by_cases h1 : (r p.1 p.2).flag = 1
    · have hz : (!isZeroSlot r p) = true := by
        simp [isZeroSlot, h1]
      rw [@List.takeWhile_cons_of_pos _ (fun q => !isZeroSlot r q) p ps hz,
        liveVals_cons]
      by_cases h2 : (r p.1 p.2).key = k
      · have hm : isMatch r k p = true := by
          simp [isMatch, isLive, h1, h2]
        rw [if_pos h1, if_pos h2, if_pos (by norm_num), hm]
        simp
      · have hm : isMatch r k p = false := by
          simp [isMatch, isLive, h1, h2]
        rw [if_pos h1, if_neg h2, ih, hm]
        simp
    · by_cases h3 : (r p.1 p.2).key = 0 ∧ (r p.1 p.2).val = 0
      · have hz : isZeroSlot r p = true := by
          simp [isZeroSlot, h1, h3.1, h3.2]
        rw [if_neg h1, if_pos h3, List.takeWhile_cons_of_neg (by simp [hz])]
        simp [liveVals]
      · have hz : (!isZeroSlot r p) = true := by
          rw [isZeroSlot]
          by_cases hk : (r p.1 p.2).key = 0
          · by_cases hv : (r p.1 p.2).val = 0
            · exact absurd ⟨hk, hv⟩ h3
            · simp [hv]
          · simp [hk]
        have hm : isMatch r k p = false := by
          simp [isMatch, isLive, h1]
        rw [if_neg h1, if_neg h3, ih,
          @List.takeWhile_cons_of_pos _ (fun q => !isZeroSlot r q) p ps hz,
          liveVals_cons, hm]
        simp

/-- A found `Remove` splits the walked positions: nothing before the found
slot pair-matches or is fully zero, and the found slot pair-matches. -/
theorem removePosLoop_some (r : Int → Int → Slot) (key val : Int) :
    ∀ (ps : List (Int × Int)) (p0 : Int × Int),
    removePosLoop r key val ps = .inl (some p0) →
    ∃ l1 l2, ps = l1 ++ p0 :: l2 ∧
      (∀ q ∈ l1, isPair r key val q = false ∧ isZeroSlot r q = false) ∧
      isPair r key val p0 = true := by
  intro ps
  induction ps with
  | nil => intro p0 h; simp [removePosLoop] at h
  | cons p ps ih =>
    intro p0 h
    rw [removePosLoop] at h
    by_cases h1 : (r p.1 p.2).flag = 1
    · by_cases h2 : (r p.1 p.2).key = key ∧ (r p.1 p.2).val = val
      · rw [if_pos h1, if_pos h2] at h
        simp only [Sum.inl.injEq, Option.some.injEq] at h
        subst h
        exact ⟨[], ps, rfl, by simp, by
          simp [isPair, isMatch, isLive, h1, h2.1, h2.2]⟩
      · rw [if_pos h1, if_neg h2] at h
        obtain ⟨l1, l2, heq, hl1, hp0⟩ := ih p0 h
        refine ⟨p :: l1, l2, by rw [heq]; rfl, ?_, hp0⟩
        intro q hq
        rcases List.mem_cons.mp hq with rfl | hq2
        · constructor
          · rw [isPair, isMatch]
            by_cases hk : (r q.1 q.2).key = key
            · have hv : ¬(r q.1 q.2).val = val := fun hv => h2 ⟨hk, hv⟩
              simp [hv]
            · simp [hk]
          · simp [isZeroSlot, h1]
        · exact hl1 q hq2
    · by_cases h3 : (r p.1 p.2).key = 0 ∧ (r p.1 p.2).val = 0
      · rw [if_neg h1, if_pos h3] at h
        simp at h
      · rw [if_neg h1, if_neg h3] at h
        obtain ⟨l1, l2, heq, hl1, hp0⟩ := ih p0 h
        refine ⟨p :: l1, l2, by rw [heq]; rfl, ?_, hp0⟩
        intro q hq
        rcases List.mem_cons.mp hq with rfl | hq2
        · refine ⟨by simp [isPair, isMatch, isLive, h1], ?_⟩
          rw [isZeroSlot]
          by_cases hk : (r q.1 q.2).key = 0
          · have hv : ¬(r q.1 q.2).val = 0 := fun hv => h3 ⟨hk, hv⟩
            simp [hv]
          · simp [hk]
        · exact hl1 q hq2

/-- A `Remove` that finds nothing means no pair-match is visible before the
first fully-zero slot. -/
theorem removePosLoop_none (r : Int → Int → Slot) (key val : Int) :
    ∀ ps : List (Int × Int),
    (removePosLoop r key val ps = .inl none ∨
     removePosLoop r key val ps = .inr ()) →
    ∀ q ∈ ps.takeWhile (fun p => !isZeroSlot r p), isPair r key val q = false := by
  intro ps
  induction ps with
  | nil => intro _ q hq; simp at hq
  | cons p ps ih =>
    intro h q hq
    rw [removePosLoop] at h
    by_cases h1 : (r p.1 p.2).flag = 1
    · by_cases h2 : (r p.1 p.2).key = key ∧ (r p.1 p.2).val = val
      · rw [if_pos h1, if_pos h2] at h
        simp at h
      · rw [if_pos h1, if_neg h2] at h
        have hz : (!isZeroSlot r p) = true := by simp [isZeroSlot, h1]
        rw [@List.takeWhile_cons_of_pos _ (fun x => !isZeroSlot r x) p ps hz] at hq
        rcases List.mem_cons.mp hq with rfl | hq2
        · rw [isPair, isMatch]
          by_cases hk : (r q.1 q.2).key = key
          · have hv : ¬(r q.1 q.2).val = val := fun hv => h2 ⟨hk, hv⟩
            simp [hv]
          · simp [hk]
        · exact ih h q hq2
    · by_cases h3 : (r p.1 p.2).key = 0 ∧ (r p.1 p.2).val = 0
      · have hz : isZeroSlot r p = true := by
          simp [isZeroSlot, h1, h3.1, h3.2]
        rw [List.takeWhile_cons_of_neg (by simp [hz])] at hq
        simp at hq
      · rw [if_neg h1, if_neg h3] at h
        have hz : (!isZeroSlot r p) = true := by
          rw [isZeroSlot]
          by_cases hk : (r p.1 p.2).key = 0
          · have hv : ¬(r p.1 p.2).val = 0 := fun hv => h3 ⟨hk, hv⟩
            simp [hv]
          · simp [hk]
        rw [@List.takeWhile_cons_of_pos _ (fun x => !isZeroSlot r x) p ps hz] at hq
        rcases List.mem_cons.mp hq with rfl | hq2
        · simp [isPair, isMatch, isLive, h1]
        · exact ih h q hq2

/-- A found `Put` splits the walked positions: everything before the found
slot is live and the found slot is not. -/
theorem putPosLoop_some (r : Int → Int → Slot) :
    ∀ (ps : List (Int × Int)) (p0 : Int × Int),
    putPosLoop r ps = some p0 →
    ∃ l1 l2, ps = l1 ++ p0 :: l2 ∧ (∀ q ∈ l1, isLive r q = true) ∧
      isLive r p0 = false := by
  intro ps
  induction ps with
  | nil => intro p0 h; simp [putPosLoop] at h
  | cons p ps ih =>
    intro p0 h
    rw [putPosLoop] at h
    by_cases h1 : (r p.1 p.2).flag = 1
    · rw [if_neg (by simpa using h1)] at h
      obtain ⟨l1, l2, heq, hl1, hp0⟩ := ih p0 h
      refine ⟨p :: l1, l2, by rw [heq]; rfl, ?_, hp0⟩
      intro q hq
      rcases List.mem_cons.mp hq with rfl | hq2
      · simp [isLive, h1]
      · exact hl1 q hq2
    · rw [if_pos h1] at h
      obtain rfl : p = p0 := by simpa using h
      exact ⟨[], ps, rfl, by simp, by simp [isLive, h1]⟩

/-- A `Put` that finds nothing means every walked slot is live. -/
theorem putPosLoop_none (r : Int → Int → Slot) :
    ∀ ps : List (Int × Int), putPosLoop r ps = none →
    ∀ q ∈ ps, isLive r q = true := by
  intro ps
  induction ps with
  | nil => intro _ q hq; simp at hq
  | cons p ps ih =>
    intro h q hq
    rw [putPosLoop] at h
    by_cases h1 : (r p.1 p.2).flag = 1
    · rw [if_neg (by simpa using h1)] at h
      rcases List.mem_cons.mp hq with rfl | hq2
      · simp [isLive, h1]
      · exact ih h q hq2
    · rw [if_pos h1] at h
      simp at h

/-- `Put` finds the first non-live slot. -/
theorem putPosLoop_found (r : Int → Int → Slot) :
    ∀ (l1 : List (Int × Int)) (p0 : Int × Int) (l2 : List (Int × Int)),
    (∀ q ∈ l1, isLive r q = true) → isLive r p0 = false →
    putPosLoop r (l1 ++ p0 :: l2) = some p0 := by
  intro l1
  induction l1 with
  | nil =>
    intro p0 l2 _ hp0
    rw [List.nil_append, putPosLoop]
    rw [if_pos (by simpa [isLive] using hp0)]
  | cons p l1 ih =>
    intro p0 l2 hl hp0
    rw [List.cons_append, putPosLoop]
    have hp : isLive r p = true := hl p (List.mem_cons_self _ _)
    rw [if_neg (by simpa [isLive] using hp)]
    exact ih p0 l2 (fun q hq => hl q (List.mem_cons_of_mem _ hq)) hp0

/-- A bucket header is sound: it stores either 0 or a forward pointer that
`nextBucket`'s validation accepts. -/
def HashTable.headerOK (ht : HashTable) (b : Int) : Prop :=
  (varintAt ht.file.buf (b * ht.conf.bucketSize)).1 = 0 ∨
  (0 ≤ (varintAt ht.file.buf (b * ht.conf.bucketSize)).2 ∧
   b < (varintAt ht.file.buf (b * ht.conf.bucketSize)).1 ∧
   (varintAt ht.file.buf (b * ht.conf.bucketSize)).1 < ht.numBuckets ∧
   ht.conf.initialBuckets ≤ (varintAt ht.file.buf (b * ht.conf.bucketSize)).1)

/-- Under a sound header, `nextBucket` returns exactly the stored pointer
(for an in-range bucket). -/
theorem HashTable.nextBucket_of_headerOK (ht : HashTable) (b : Int)
    (hok : ht.headerOK b) (hb : b < ht.numBuckets) :
    ht.nextBucket b = (varintAt ht.file.buf (b * ht.conf.bucketSize)).1 := by
  rw [HashTable.nextBucket, if_neg (by omega)]
  rcases hok with h0 | ⟨he, h1, h2, h3⟩
  · simp [h0]
  · have hIB : 1 ≤ ht.conf.initialBuckets := by
      rw [HTConf.initialBuckets]
      exact one_le_pow₀ (by norm_num)
    rw [if_neg (by omega), if_neg (by push_neg; exact ⟨by omega, by omega, by omega, by omega⟩)]

/-- The two states of a `writeEntry` agree outside the written 21 bytes. -/
theorem HashTable.writeEntry_buf_frame (ht : HashTable) (addr k v : Int) :
    ∀ p : Int, (p < addr ∨ addr + EntrySize ≤ p) →
    (ht.writeEntry addr k v).file.buf p = ht.file.buf p := by
  intro p hp
  have hE : EntrySize = (21 : Int) := rfl
  have hlk : (putVarint k).length ≤ 10 := putUvarintAux_length 10 (zigzag k)
  have hlv : (putVarint v).length ≤ 10 := putUvarintAux_length 10 (zigzag v)
  simp only [HashTable.writeEntry]
  rw [Buf.writeBytes_outside _ _ _ _ (by omega)]
  rw [Buf.writeBytes_outside _ _ _ _ (by omega)]
  exact Buf.set_ne _ _ _ _ (by omega)

/-- `writeEntry` installs a live slot decoding to `(k, v)`. -/
theorem HashTable.writeEntry_readSlot_self (ht : HashTable) (b0 e0 k v : Int)
    (hk1 : -(2 ^ 63) ≤ k) (hk2 : k < 2 ^ 63)
    (hv1 : -(2 ^ 63) ≤ v) (hv2 : v < 2 ^ 63) :
    (ht.writeEntry (ht.entryAddr b0 e0) k v).readSlot b0 e0
      = ⟨1, k, v⟩ := by
  have hlk : (putVarint k).length ≤ 10 := putUvarintAux_length 10 (zigzag k)
  have hlv : (putVarint v).length ≤ 10 := putUvarintAux_length 10 (zigzag v)
  have haddr : (ht.writeEntry (ht.entryAddr b0 e0) k v).entryAddr b0 e0
      = ht.entryAddr b0 e0 := rfl
  rw [HashTable.readSlot, haddr]
  simp only [HashTable.writeEntry]
  have hflag : ((ht.file.buf.set (ht.entryAddr b0 e0) 1).writeBytes
        (ht.entryAddr b0 e0 + 1) (putVarint k)).writeBytes
        (ht.entryAddr b0 e0 + 11) (putVarint v) (ht.entryAddr b0 e0) = 1 := by
    rw [Buf.writeBytes_outside _ _ _ _ (by omega),
      Buf.writeBytes_outside _ _ _ _ (by omega)]
    exact Buf.set_eq _ _ _
  have hkey : varintAt (((ht.file.buf.set (ht.entryAddr b0 e0) 1).writeBytes
        (ht.entryAddr b0 e0 + 1) (putVarint k)).writeBytes
        (ht.entryAddr b0 e0 + 11) (putVarint v)) (ht.entryAddr b0 e0 + 1)
      = (k, ((putVarint k).length : Int)) := by
    rw [varintAt_congr _ ((ht.file.buf.set (ht.entryAddr b0 e0) 1).writeBytes
        (ht.entryAddr b0 e0 + 1) (putVarint k)) _ (by
      intro i hi
      exact Buf.writeBytes_outside _ _ _ _ (by omega))]
    exact varintAt_writeBytes _ _ _ hk1 hk2
  have hval : varintAt (((ht.file.buf.set (ht.entryAddr b0 e0) 1).writeBytes
        (ht.entryAddr b0 e0 + 1) (putVarint k)).writeBytes
        (ht.entryAddr b0 e0 + 11) (putVarint v)) (ht.entryAddr b0 e0 + 11)
      = (v, ((putVarint v).length : Int)) :=
    varintAt_writeBytes _ _ _ hv1 hv2
  rw [hflag, hkey, hval]

/-- `writeEntry` at one slot leaves every other slot's decoding unchanged. -/
theorem HashTable.writeEntry_readSlot_other (ht : HashTable) (b0 e0 k v b e : Int)
    (he0 : 0 ≤ e0) (heP : e0 < ht.conf.perBucket)
    (hee0 : 0 ≤ e) (heeP : e < ht.conf.perBucket)
    (hne : (b, e) ≠ (b0, e0)) :
    (ht.writeEntry (ht.entryAddr b0 e0) k v).readSlot b e = ht.readSlot b e := by
  have hsep := ht.entryAddr_sep b e b0 e0 hee0 heeP he0 heP hne
  have hE : EntrySize = (21 : Int) := rfl
  have heq : (ht.writeEntry (ht.entryAddr b0 e0) k v)
      = { ht with file := { ht.file with
          buf := (ht.writeEntry (ht.entryAddr b0 e0) k v).file.buf } } := rfl
  rw [heq]
  apply HashTable.readSlot_congr
  intro i hi0 hiE
  apply ht.writeEntry_buf_frame
  omega

/-- `writeEntry` never touches a bucket header. -/
theorem HashTable.writeEntry_nextBucket (ht : HashTable) (b0 e0 k v c : Int)
    (he0 : 0 ≤ e0) (heP : e0 < ht.conf.perBucket) :
    (ht.writeEntry (ht.entryAddr b0 e0) k v).nextBucket c = ht.nextBucket c := by
  have heq : (ht.writeEntry (ht.entryAddr b0 e0) k v)
      = { ht with file := { ht.file with
          buf := (ht.writeEntry (ht.entryAddr b0 e0) k v).file.buf } } := rfl
  rw [heq]
  apply HashTable.nextBucket_congr
  intro j hj0 hjB
  apply ht.writeEntry_buf_frame
  have hE : EntrySize = (21 : Int) := rfl
  by_contra hc
  push_neg at hc
  obtain ⟨hc1, hc2⟩ := hc
  exact ht.entryAddr_not_header b0 e0 c he0 heP
    (c * ht.conf.bucketSize + j - ht.entryAddr b0 e0) j
    (by omega) (by omega) hj0 hjB (by omega)

/-- `InitialBuckets = 2^HashBits` is at least 1. -/
theorem HTConf.initialBuckets_pos (c : HTConf) : 1 ≤ c.initialBuckets := by
  rw [HTConf.initialBuckets]
  exact one_le_pow₀ (by norm_num)

/-- The head bucket of any key is one of the initial buckets. -/
theorem HTConf.hashKeyI_range (c : HTConf) (k : Int) :
    0 ≤ c.hashKeyI k ∧ c.hashKeyI k < c.initialBuckets := by
  rw [HTConf.hashKeyI, HTConf.initialBuckets]
  constructor
  · positivity
  · have h := hashKey_lt c.hashBits (toPattern64 k)
    exact_mod_cast h

/-- Clearing one slot's flag byte leaves its key and value bytes intact. -/
theorem HashTable.clear_readSlot_self (ht : HashTable) (b0 e0 : Int) :
    ({ ht with file := { ht.file with
        buf := ht.file.buf.set (ht.entryAddr b0 e0) 0 } } : HashTable).readSlot b0 e0
      = ⟨0, (ht.readSlot b0 e0).key, (ht.readSlot b0 e0).val⟩ := by
  rw [HashTable.readSlot, HashTable.readSlot]
  have haddr : ({ ht with file := { ht.file with
      buf := ht.file.buf.set (ht.entryAddr b0 e0) 0 } } : HashTable).entryAddr b0 e0
      = ht.entryAddr b0 e0 := rfl
  rw [haddr]
  dsimp only
  have hflag : ht.file.buf.set (ht.entryAddr b0 e0) 0 (ht.entryAddr b0 e0) = 0 :=
    Buf.set_eq _ _ _
  have hkey : varintAt (ht.file.buf.set (ht.entryAddr b0 e0) 0)
      (ht.entryAddr b0 e0 + 1) = varintAt ht.file.buf (ht.entryAddr b0 e0 + 1) := by
    apply varintAt_congr
    intro i hi
    exact Buf.set_ne _ _ _ _ (by omega)
  have hval : varintAt (ht.file.buf.set (ht.entryAddr b0 e0) 0)
      (ht.entryAddr b0 e0 + 11) = varintAt ht.file.buf (ht.entryAddr b0 e0 + 11) := by
    apply varintAt_congr
    intro i hi
    exact Buf.set_ne _ _ _ _ (by omega)
  rw [hflag, hkey, hval]

/-- Clearing one slot's flag byte leaves every other slot's decoding
unchanged. -/
theorem HashTable.clear_readSlot_other (ht : HashTable) (b0 e0 b e : Int)
    (he0 : 0 ≤ e0) (heP : e0 < ht.conf.perBucket)
    (hee0 : 0 ≤ e) (heeP : e < ht.conf.perBucket)
    (hne : (b, e) ≠ (b0, e0)) :
    ({ ht with file := { ht.file with
        buf := ht.file.buf.set (ht.entryAddr b0 e0) 0 } } : HashTable).readSlot b e
      = ht.readSlot b e := by
  have hsep := ht.entryAddr_sep b e b0 e0 hee0 heeP he0 heP hne
  have hE : EntrySize = (21 : Int) := rfl
  apply HashTable.readSlot_congr
  intro i hi0 hiE
  exact Buf.set_ne _ _ _ _ (by omega)

/-- Clearing one slot's flag byte never touches a bucket header. -/
theorem HashTable.clear_nextBucket (ht : HashTable) (b0 e0 c : Int)
    (he0 : 0 ≤ e0) (heP : e0 < ht.conf.perBucket) :
    ({ ht with file := { ht.file with
        buf := ht.file.buf.set (ht.entryAddr b0 e0) 0 } } : HashTable).nextBucket c
      = ht.nextBucket c := by
  apply HashTable.nextBucket_congr
  intro j hj0 hjB
  apply Buf.set_ne
  intro hc
  have hE : EntrySize = (21 : Int) := rfl
  exact ht.entryAddr_not_header b0 e0 c he0 heP 0 j (by omega) (by omega)
    hj0 hjB (by omega)

/-- Two states with equal configuration, bucket count and `nextBucket`
function have equal chains and chain positions. -/
theorem HashTable.chainPos_congr (ht1 ht2 : HashTable)
    (hconf : ht1.conf = ht2.conf) (hnum : ht1.numBuckets = ht2.numBuckets)
    (hnb : ∀ b, ht1.nextBucket b = ht2.nextBucket b) (h : Int) :
    ht1.chain h = ht2.chain h ∧ ht1.chainPos h = ht2.chainPos h := by
  have hchain : ht1.chain h = ht2.chain h := by
    rw [HashTable.chain, HashTable.chain, hnum]
    exact ht1.chainFuel_congr_mem ht2 _ h (fun x _ => hnb x)
  refine ⟨hchain, ?_⟩
  rw [HashTable.chainPos, HashTable.chainPos, hchain]
  congr 1
  apply List.map_congr_left
  intro c _
  rw [HashTable.bucketPos, HashTable.bucketPos, hconf]

/-- Bucket size bound at the configuration level. -/
theorem HTConf.bucketSize_ge (c : HTConf) : 31 ≤ c.bucketSize := by
  have hp := c.perBucket_pos
  have hBS : c.bucketSize = BucketHeader + c.perBucket * EntrySize := rfl
  have hmul : 1 * EntrySize ≤ c.perBucket * EntrySize :=
    mul_le_mul_of_nonneg_right (by omega) (by norm_num [EntrySize])
  have hE : EntrySize = (21 : Int) := rfl
  have hB : BucketHeader = (10 : Int) := rfl
  omega

/-- A hash table file as `OpenHashTable` leaves it when the backing file is
fresh: `InitialBuckets` buckets of zero bytes, all in use. -/
def emptyHT (c : HTConf) : HashTable :=
  ⟨c, ⟨zeroBuf, c.initialBuckets * c.bucketSize, c.initialBuckets * c.bucketSize,
    c.bucketSize, by have := c.bucketSize_ge; omega⟩, c.initialBuckets⟩

/-- A hash-table operation. -/
inductive HTOp where
  | put (k v : Int)
  | rem (k v : Int)
deriving DecidableEq

/-- Run one operation. -/
def applyOp (ht : HashTable) : HTOp → HashTable
  | .put k v => ht.put k v
  | .rem k v => ht.remove k v

/-- Run a sequence of operations. -/
def applyOps (ht : HashTable) : List HTOp → HashTable
  | [] => ht
  | op :: ops => applyOps (applyOp ht op) ops

/-- Record a put in the abstract per-key value multisets. -/
def bumpPut (m : Int → Multiset Int) (k v : Int) : Int → Multiset Int :=
  fun k2 => if k2 = k then v ::ₘ m k2 else m k2

/-- Record a remove in the abstract per-key value multisets. -/
def bumpRem (m : Int → Multiset Int) (k v : Int) : Int → Multiset Int :=
  fun k2 => if k2 = k then (m k2).erase v else m k2

/-- The net abstract content after a sequence of operations. -/
def mAfter (m : Int → Multiset Int) : List HTOp → Int → Multiset Int
  | [] => m
  | .put k v :: ops => mAfter (bumpPut m k v) ops
  | .rem k v :: ops => mAfter (bumpRem m k v) ops

/-- Is `x` representable in a 64-bit two's-complement integer? -/
def inRange64 (x : Int) : Bool := decide (-(2 ^ 63) ≤ x ∧ x < 2 ^ 63)

/-- The claim's side conditions on an operation sequence: every key and value
is a 64-bit integer and no pair is put while already live. -/
def opsDistinct : (Int → Multiset Int) → List HTOp → Bool
  | _, [] => true
  | m, .put k v :: ops =>
    inRange64 k && inRange64 v && decide (v ∉ m k)
      && opsDistinct (bumpPut m k v) ops
  | m, .rem k v :: ops =>
    inRange64 k && inRange64 v && opsDistinct (bumpRem m k v) ops

/-- No operation ever puts the pair `(0, 0)`. -/
def noZeroPut : List HTOp → Bool
  | [] => true
  | .put k v :: ops => (!(k == 0 && v == 0)) && noZeroPut ops
  | .rem _ _ :: ops => noZeroPut ops

/-- The wellformedness invariant tying a hash-table state to its abstract
per-key content `m`; `n` bounds the number of bucket growths performed. -/
structure HTInv (n : Nat) (ht : HashTable) (m : Int → Multiset Int) : Prop where
  nb_ge : ht.conf.initialBuckets ≤ ht.numBuckets
  nb_cnt : ht.numBuckets ≤ ht.conf.initialBuckets + n
  used_eq : ht.file.used = ht.numBuckets * ht.conf.bucketSize
  zeros : ∀ p : Int, (p < 0 ∨ ht.file.used ≤ p) → ht.file.buf p = 0
  headers : ∀ b : Int, ht.headerOK b
  disj : ∀ h1 h2 : Int, 0 ≤ h1 → h1 < ht.conf.initialBuckets → 0 ≤ h2 →
    h2 < ht.conf.initialBuckets → h1 ≠ h2 →
    ∀ b, b ∈ ht.chain h1 → b ∉ ht.chain h2
  clean : ∀ h : Int, 0 ≤ h → h < ht.conf.initialBuckets →
    cleanTail ht.readSlot (ht.chainPos h)
  content : ∀ k : Int,
    (liveVals ht.readSlot k (ht.chainPos (ht.conf.hashKeyI k)) : Multiset Int)
      = m k
  mzero : (0 : Int) ∉ m 0

/-- No list of dead slots contributes live values. -/
theorem liveVals_nil_of_dead (r : Int → Int → Slot) (k : Int) :
    ∀ ps : List (Int × Int), (∀ p ∈ ps, isLive r p = false) →
    liveVals r k ps = [] := by
  intro ps h
  rw [liveVals, List.map_eq_nil_iff, List.filter_eq_nil_iff]
  intro q hq
  rw [isMatch]
  simp [h q hq]

/-- A list of dead slots is trivially clean. -/
theorem cleanTail_of_dead (r : Int → Int → Slot) (ps : List (Int × Int))
    (h : ∀ p ∈ ps, isLive r p = false) : cleanTail r ps := by
  rw [cleanTail, List.all_eq_true]
  intro q hq
  have := h q ((List.dropWhile_sublist _).subset hq)
  simp [this]

/-- The fresh table has no chained buckets. -/
theorem emptyHT_nextBucket (c : HTConf) (b : Int) :
    (emptyHT c).nextBucket b = 0 := by
  rw [HashTable.nextBucket]
  by_cases hb : b ≥ (emptyHT c).numBuckets
  · rw [if_pos hb]
  · rw [if_neg hb]
    have hz : varintAt (emptyHT c).file.buf (b * (emptyHT c).conf.bucketSize)
        = (0, 1) := varintAt_zero _ _ (fun i _ => rfl)
    simp [hz]

/-- Every slot of the fresh table decodes to all zeroes. -/
theorem emptyHT_readSlot (c : HTConf) (b e : Int) :
    (emptyHT c).readSlot b e = ⟨0, 0, 0⟩ := by
  rw [HashTable.readSlot]
  have h2 := varintAt_zero (emptyHT c).file.buf ((emptyHT c).entryAddr b e + 1)
    (fun i _ => rfl)
  have h3 := varintAt_zero (emptyHT c).file.buf ((emptyHT c).entryAddr b e + 11)
    (fun i _ => rfl)
  rw [h2, h3]
  rfl

/-- Every chain of the fresh table is the head bucket alone. -/
theorem emptyHT_chain (c : HTConf) (h : Int) : (emptyHT c).chain h = [h] := by
  rw [HashTable.chain]
  have hnum : (emptyHT c).numBuckets = c.initialBuckets := rfl
  have hIB := c.initialBuckets_pos
  obtain ⟨f, hf⟩ : ∃ f, ((emptyHT c).numBuckets + 1).toNat = f + 1 :=
    ⟨((emptyHT c).numBuckets + 1).toNat - 1, by rw [hnum]; omega⟩
  rw [hf, (emptyHT c).chainFuel_succ_def, emptyHT_nextBucket]
  simp

theorem emptyHT_chainPos (c : HTConf) (h : Int) :
    (emptyHT c).chainPos h = (emptyHT c).bucketPos h := by
  rw [HashTable.chainPos, emptyHT_chain]
  simp

/-- The fresh table satisfies the invariant with empty content. -/
theorem HTInv.empty (c : HTConf) : HTInv 0 (emptyHT c) (fun _ => 0) := by
  refine ⟨le_refl _,
    by show c.initialBuckets ≤ c.initialBuckets + ((0 : Nat) : Int); simp,
    rfl, fun p _ => rfl, ?_, ?_, ?_, ?_, ?_⟩
  · intro b
    rw [HashTable.headerOK]
    left
    rw [varintAt_zero _ _ (fun i _ => rfl)]
  · intro h1 h2 _ _ _ _ hne b hb1 hb2
    rw [emptyHT_chain] at hb1 hb2
    simp at hb1 hb2
    exact hne (hb1 ▸ hb2 ▸ rfl)
  · intro h _ _
    rw [emptyHT_chainPos]
    apply cleanTail_of_dead
    intro p _
    rw [isLive, emptyHT_readSlot]
    rfl
  · intro k
    rw [liveVals_nil_of_dead _ _ _ (fun p _ => by rw [isLive, emptyHT_readSlot]; rfl)]
    rfl
  · exact Multiset.not_mem_zero 0

/-- `chainPos` is `chainPosFuel` at the walks' fuel. -/
theorem HashTable.chainPos_eq_fuel (ht : HashTable) (h : Int) :
    ht.chainPosFuel (ht.numBuckets + 1).toNat h = ht.chainPos h := rfl

/-- Ranges carried by membership in a chain's position list. -/
theorem HashTable.chainPos_ranges (ht : HashTable) (head : Int)
    (hh : head < ht.numBuckets) (p : Int × Int) (hp : p ∈ ht.chainPos head) :
    0 ≤ p.2 ∧ p.2 < ht.conf.perBucket ∧ head ≤ p.1 ∧ p.1 < ht.numBuckets ∧
    p.1 ∈ ht.chain head := by
  obtain ⟨c, hc, hpc⟩ := (ht.mem_chainPosFuel _ head p).mp hp
  obtain ⟨hfst, h2, h3⟩ := (ht.mem_bucketPos c p).mp hpc
  obtain ⟨hcl, hcu⟩ := ht.chainFuel_mem_bounds _ head c hc hh
  exact ⟨h2, h3, by omega, by omega, by rw [hfst]; exact hc⟩

/-- The chain positions of a head below `numBuckets` are duplicate-free. -/
theorem HashTable.chainPos_nodup (ht : HashTable) (head : Int)
    (hh : head < ht.numBuckets) : (ht.chainPos head).Nodup :=
  ht.chainPosFuel_nodup _ head hh

/-- A live slot always sits before the first fully-zero slot of a clean
list. -/
theorem mem_visible_of_live (r : Int → Int → Slot) (ps : List (Int × Int))
    (q : Int × Int) (hclean : cleanTail r ps) (hq : q ∈ ps)
    (hlive : isLive r q = true) :
    q ∈ ps.takeWhile (fun p => !isZeroSlot r p) := by
  rw [← List.takeWhile_append_dropWhile
    (p := fun p => !isZeroSlot r p) (l := ps)] at hq
  rcases List.mem_append.mp hq with h | h
  · exact h
  · rw [cleanTail, List.all_eq_true] at hclean
    have := hclean q h
    rw [hlive] at this
    simp at this

/-- A matching slot's value occurs among the live values. -/
theorem val_mem_liveVals (r : Int → Int → Slot) (k : Int)
    (ps : List (Int × Int)) (q : Int × Int) (hq : q ∈ ps)
    (hm : isMatch r k q = true) : (r q.1 q.2).val ∈ liveVals r k ps := by
  rw [liveVals]
  exact List.mem_map.mpr ⟨q, List.mem_filter.mpr ⟨hq, hm⟩, rfl⟩

/-- Conversely, every live value comes from a matching slot. -/
theorem liveVals_mem_inv (r : Int → Int → Slot) (k v : Int)
    (ps : List (Int × Int)) (hv : v ∈ liveVals r k ps) :
    ∃ q ∈ ps, isMatch r k q = true ∧ (r q.1 q.2).val = v := by
  rw [liveVals] at hv
  obtain ⟨q, hq, hval⟩ := List.mem_map.mp hv
  exact ⟨q, List.mem_of_mem_filter hq, (List.mem_filter.mp hq).2, hval⟩

/-- A slot that pair-matches `(k, v)` decodes as flag 1, key `k`, value `v`. -/
theorem isPair_fields (r : Int → Int → Slot) (k v : Int) (q : Int × Int)
    (h : isPair r k v q = true) :
    (r q.1 q.2).flag = 1 ∧ (r q.1 q.2).key = k ∧ (r q.1 q.2).val = v := by
  rw [isPair, isMatch, isLive] at h
  simp only [Bool.and_eq_true, beq_iff_eq] at h
  exact ⟨h.1.1, h.1.2, h.2⟩

/-- An entry slot of an in-range bucket lies inside the used region. -/
theorem HashTable.entryAddr_in_used (ht : HashTable) (b e : Int)
    (hb0 : 0 ≤ b) (hb : b < ht.numBuckets)
    (he : 0 ≤ e) (heP : e < ht.conf.perBucket) :
    0 ≤ ht.entryAddr b e ∧
    ht.entryAddr b e + EntrySize ≤ ht.numBuckets * ht.conf.bucketSize := by
  obtain ⟨hl, hr⟩ := ht.entryAddr_block b e he heP
  have hBS := ht.bucketSize_pos
  have h1 : 0 ≤ b * ht.conf.bucketSize := mul_nonneg hb0 (by omega)
  have h2 : (b + 1) * ht.conf.bucketSize ≤ ht.numBuckets * ht.conf.bucketSize :=
    mul_le_mul_of_nonneg_right (by omega) (by omega)
  have hB : BucketHeader = (10 : Int) := rfl
  omega

/-- A sound header stays sound when the stored bytes are untouched. -/
theorem HashTable.headerOK_congr (ht : HashTable) (buf2 : Buf) (b : Int)
    (h : varintAt buf2 (b * ht.conf.bucketSize)
      = varintAt ht.file.buf (b * ht.conf.bucketSize))
    (hok : ht.headerOK b) :
    ({ ht with file := { ht.file with buf := buf2 } } : HashTable).headerOK b := by
  rw [HashTable.headerOK]
  dsimp only
  rw [h]
  rw [HashTable.headerOK] at hok
  exact hok

/-- Dropping over a prefix that fully satisfies the predicate. -/
theorem dropWhile_append_of_all {α : Type} (p : α → Bool) :
    ∀ (l1 l2 : List α), (∀ a ∈ l1, p a = true) →
    (l1 ++ l2).dropWhile p = l2.dropWhile p := by
  intro l1
  induction l1 with
  | nil => intro l2 _; rfl
  | cons a l1 ih =>
    intro l2 h
    rw [List.cons_append, List.dropWhile_cons,
      if_pos (h a (List.mem_cons_self _ _))]
    exact ih l2 (fun x hx => h x (List.mem_cons_of_mem _ hx))

/-- Live values of a list touched only at one interior slot. -/
theorem liveVals_update_at (r r2 : Int → Int → Slot) (k2 : Int)
    (l1 l2 : List (Int × Int)) (p0 : Int × Int)
    (hl1 : ∀ q ∈ l1, r2 q.1 q.2 = r q.1 q.2)
    (hl2 : ∀ q ∈ l2, r2 q.1 q.2 = r q.1 q.2) :
    liveVals r2 k2 (l1 ++ p0 :: l2)
      = liveVals r k2 l1
        ++ ((if isMatch r2 k2 p0 then [(r2 p0.1 p0.2).val] else [])
            ++ liveVals r k2 l2) := by
  rw [liveVals_append, liveVals_cons, liveVals_congr r2 r _ l1 hl1,
    liveVals_congr r2 r _ l2 hl2]

/-- When `v` is absent at `k`, removing `(k, v)` changes no abstract state. -/
theorem HTInv.rem_untouched {n : Nat} {ht : HashTable} {m : Int → Multiset Int}
    (inv : HTInv n ht m) (k v : Int) (hvm : v ∉ m k) :
    HTInv n ht (bumpRem m k v) := by
  refine ⟨inv.nb_ge, inv.nb_cnt, inv.used_eq, inv.zeros, inv.headers, inv.disj,
    inv.clean, ?_, ?_⟩
  · intro k2
    rw [bumpRem]
    by_cases hk2 : k2 = k
    · subst hk2
      rw [if_pos rfl, Multiset.erase_of_not_mem hvm]
      exact inv.content k2
    · rw [if_neg hk2]
      exact inv.content k2
  · rw [bumpRem]
    by_cases h0 : (0 : Int) = k
    · rw [if_pos h0]
      intro hmem
      exact inv.mzero (Multiset.mem_of_mem_erase hmem)
    · rw [if_neg h0]
      exact inv.mzero

theorem isMatch_of_isPair (r : Int → Int → Slot) (k v : Int) (q : Int × Int)
    (h : isPair r k v q = true) : isMatch r k q = true := by
  rw [isPair] at h
  simp only [Bool.and_eq_true] at h
  exact h.1

/-- `nextBucket` depends only on the configuration, bucket count and bytes. -/
theorem HashTable.nextBucket_ext (ht1 ht2 : HashTable)
    (hc : ht1.conf = ht2.conf) (hn : ht1.numBuckets = ht2.numBuckets)
    (hb : ht1.file.buf = ht2.file.buf) (x : Int) :
    ht1.nextBucket x = ht2.nextBucket x := by
  rw [HashTable.nextBucket, HashTable.nextBucket, hc, hn, hb]

/-- `readSlot` depends only on the configuration and bytes. -/
theorem HashTable.readSlot_ext (ht1 ht2 : HashTable)
    (hc : ht1.conf = ht2.conf) (hb : ht1.file.buf = ht2.file.buf) (b e : Int) :
    ht1.readSlot b e = ht2.readSlot b e := by
  rw [HashTable.readSlot, HashTable.readSlot, HashTable.entryAddr,
    HashTable.entryAddr, hc, hb]


/-- Clearing the flag of the first visible pair-match preserves the
invariant, with one occurrence of `v` removed from the content at `k`. -/
theorem HTInv.rem_found {n : Nat} {ht ht2 : HashTable} {m : Int → Multiset Int}
    (inv : HTInv n ht m) (k v : Int) (p0 : Int × Int)
    (l1 l2 : List (Int × Int))
    (hsplit : ht.chainPos (ht.conf.hashKeyI k) = l1 ++ p0 :: l2)
    (hl1 : ∀ q ∈ l1, isPair ht.readSlot k v q = false ∧
      isZeroSlot ht.readSlot q = false)
    (hp0 : isPair ht.readSlot k v p0 = true)
    (hconf : ht2.conf = ht.conf) (hnum : ht2.numBuckets = ht.numBuckets)
    (hused : ht2.file.used = ht.file.used)
    (hbuf : ht2.file.buf = ht.file.buf.set (ht.entryAddr p0.1 p0.2) 0) :
    HTInv n ht2 (bumpRem m k v) := by
  obtain ⟨hh0, hhIB⟩ := ht.conf.hashKeyI_range k
  have hhN : ht.conf.hashKeyI k < ht.numBuckets := lt_of_lt_of_le hhIB inv.nb_ge
  have hp0mem : p0 ∈ ht.chainPos (ht.conf.hashKeyI k) := by
    rw [hsplit]
    simp
  obtain ⟨hp02, hp02P, hp01ge, hp01lt, hp01chain⟩ :=
    ht.chainPos_ranges _ hhN p0 hp0mem
  obtain ⟨hflag, hkey, hval⟩ := isPair_fields _ _ _ _ hp0
  have hnodup := ht.chainPos_nodup _ hhN
  have hp0l1 : p0 ∉ l1 := by
    rw [hsplit] at hnodup
    have hd := (List.nodup_append.mp hnodup).2.2
    intro hmem
    exact hd hmem (List.mem_cons_self _ _)
  have hp0l2 : p0 ∉ l2 := by
    rw [hsplit] at hnodup
    have hd := (List.nodup_append.mp hnodup).2.1
    exact (List.nodup_cons.mp hd).1
  have hkv : ¬(k = 0 ∧ v = 0) := by
    rintro ⟨rfl, rfl⟩
    apply inv.mzero
    rw [← inv.content 0, Multiset.mem_coe]
    have hmm := val_mem_liveVals ht.readSlot 0 _ p0 hp0mem
      (isMatch_of_isPair _ _ _ _ hp0)
    rw [hval] at hmm
    exact hmm
  have h2rec : ∀ b e : Int, ht2.readSlot b e
      = ({ ht with file := { ht.file with
          buf := ht.file.buf.set (ht.entryAddr p0.1 p0.2) 0 } } :
            HashTable).readSlot b e :=
    fun b e => HashTable.readSlot_ext _ _ (by rw [hconf]) (by rw [hbuf]) b e
  have hnb : ∀ c, ht2.nextBucket c = ht.nextBucket c := fun c =>
    (HashTable.nextBucket_ext ht2 _ (by rw [hconf]) (by rw [hnum])
      (by rw [hbuf]) c).trans (ht.clear_nextBucket p0.1 p0.2 c hp02 hp02P)
  have hcp : ∀ hd : Int, ht2.chain hd = ht.chain hd ∧
      ht2.chainPos hd = ht.chainPos hd :=
    fun hd => HashTable.chainPos_congr ht2 ht hconf hnum hnb hd
  have hrs_self : ht2.readSlot p0.1 p0.2 = ⟨0, k, v⟩ := by
    rw [h2rec, ht.clear_readSlot_self p0.1 p0.2, hkey, hval]
  have hrs_other : ∀ q : Int × Int, 0 ≤ q.2 → q.2 < ht.conf.perBucket →
      q ≠ p0 → ht2.readSlot q.1 q.2 = ht.readSlot q.1 q.2 := by
    intro q hq2 hq2P hqne
    rw [h2rec]
    apply ht.clear_readSlot_other p0.1 p0.2 q.1 q.2 hp02 hp02P hq2 hq2P
    intro hc
    apply hqne
    obtain ⟨qa, qb⟩ := q
    obtain ⟨pa, pb⟩ := p0
    simp only [Prod.mk.injEq] at hc
    simp [hc.1, hc.2]
  have hrs_chain : ∀ hd : Int, hd < ht.numBuckets →
      ∀ q ∈ ht.chainPos hd, q ≠ p0 →
      ht2.readSlot q.1 q.2 = ht.readSlot q.1 q.2 := by
    intro hd hdN q hq hqne
    obtain ⟨h1, h2, _, _, _⟩ := ht.chainPos_ranges hd hdN q hq
    exact hrs_other q h1 h2 hqne
  have hother_chain : ∀ hd : Int, 0 ≤ hd → hd < ht.conf.initialBuckets →
      hd ≠ ht.conf.hashKeyI k → p0 ∉ ht.chainPos hd := by
    intro hd hd0 hdIB hdne hmem
    obtain ⟨_, _, _, _, hchain⟩ := ht.chainPos_ranges hd
      (by have := inv.nb_ge; omega) p0 hmem
    exact inv.disj hd (ht.conf.hashKeyI k) hd0 hdIB hh0 hhIB hdne
      p0.1 hchain hp01chain
  have hl1r : ∀ q ∈ l1, ht2.readSlot q.1 q.2 = ht.readSlot q.1 q.2 := by
    intro q hq
    apply hrs_chain _ hhN q
    · rw [hsplit]
      exact List.mem_append.mpr (Or.inl hq)
    · intro hqe
      exact hp0l1 (hqe ▸ hq)
  have hl2r : ∀ q ∈ l2, ht2.readSlot q.1 q.2 = ht.readSlot q.1 q.2 := by
    intro q hq
    apply hrs_chain _ hhN q
    · rw [hsplit]
      exact List.mem_append.mpr (Or.inr (List.mem_cons_of_mem _ hq))
    · intro hqe
      exact hp0l2 (hqe ▸ hq)
  refine ⟨?_, ?_, ?_, ?_, ?_, ?_, ?_, ?_, ?_⟩
  · rw [hnum, hconf]
    exact inv.nb_ge
  · rw [hnum, hconf]
    exact inv.nb_cnt
  · rw [hused, hnum, hconf]
    exact inv.used_eq
  · intro p hp
    rw [hused] at hp
    rw [hbuf]
    obtain ⟨ha0, haU⟩ :=
      ht.entryAddr_in_used p0.1 p0.2 (by omega) hp01lt hp02 hp02P
    have huse := inv.used_eq
    have hE : EntrySize = (21 : Int) := rfl
    rw [Buf.set_ne _ _ _ _ (by omega)]
    exact inv.zeros p hp
  · intro b
    rw [HashTable.headerOK, hbuf, hconf, hnum]
    have hv : varintAt (ht.file.buf.set (ht.entryAddr p0.1 p0.2) 0)
        (b * ht.conf.bucketSize) = varintAt ht.file.buf
        (b * ht.conf.bucketSize) := by
      apply varintAt_congr
      intro i hi
      apply Buf.set_ne
      intro hc
      have hB : BucketHeader = (10 : Int) := rfl
      exact ht.entryAddr_not_header p0.1 p0.2 b hp02 hp02P 0 i
        (by norm_num) (by norm_num [EntrySize]) (by positivity)
        (by omega) (by omega)
    rw [hv]
    have hok := inv.headers b
    rw [HashTable.headerOK] at hok
    exact hok
  · intro h1 h2 a1 a2 a3 a4 hne b hb1
    rw [hconf] at a2 a4
    rw [(hcp h1).1] at hb1
    rw [(hcp h2).1]
    exact inv.disj h1 h2 a1 a2 a3 a4 hne b hb1
  · intro hd hd0 hdIB
    rw [hconf] at hdIB
    rw [(hcp hd).2]
    by_cases hdh : hd = ht.conf.hashKeyI k
    · rw [hdh, hsplit]
      have hclean_old := inv.clean _ hh0 hhIB
      rw [hsplit, cleanTail] at hclean_old
      rw [cleanTail]
      have hl1pass : ∀ q ∈ l1, (fun p => !isZeroSlot ht2.readSlot p) q
          = true := by
        intro q hq
        have hz := (hl1 q hq).2
        show (!isZeroSlot ht2.readSlot q) = true
        rw [isZeroSlot_congr _ ht.readSlot q (hl1r q hq)]
        simp [hz]
      have hl1pass_old : ∀ q ∈ l1,
          (fun p => !isZeroSlot ht.readSlot p) q = true := by
        intro q hq
        have hz := (hl1 q hq).2
        show (!isZeroSlot ht.readSlot q) = true
        simp [hz]
      rw [dropWhile_append_of_all (fun p => !isZeroSlot ht2.readSlot p)
        l1 (p0 :: l2) hl1pass]
      rw [dropWhile_append_of_all (fun p => !isZeroSlot ht.readSlot p)
        l1 (p0 :: l2) hl1pass_old] at hclean_old
      have hz_new : isZeroSlot ht2.readSlot p0 = false := by
        rw [isZeroSlot, hrs_self]
        by_cases hk0 : k = 0
        · have hv0 : ¬v = 0 := fun hv0 => hkv ⟨hk0, hv0⟩
          simp [hv0]
        · simp [hk0]
      have hz_old : isZeroSlot ht.readSlot p0 = false := by
        rw [isZeroSlot, hflag]
        simp
      rw [List.dropWhile_cons, if_pos (by simp [hz_new])]
      rw [List.dropWhile_cons, if_pos (by simp [hz_old])] at hclean_old
      rw [dropWhile_zero_congr _ ht.readSlot l2 hl2r]
      rw [List.all_eq_true] at hclean_old ⊢
      intro q hq
      have hql2 : q ∈ l2 := (List.dropWhile_sublist _).subset hq
      rw [isLive_congr _ ht.readSlot q (hl2r q hql2)]
      exact hclean_old q hq
    · have hp0notin := hother_chain hd hd0 hdIB hdh
      rw [cleanTail_congr _ ht.readSlot _ (by
        intro q hq
        apply hrs_chain hd (by have := inv.nb_ge; omega) q hq
        intro hqe
        exact hp0notin (hqe ▸ hq))]
      exact inv.clean hd hd0 hdIB
  · intro k2
    rw [hconf, (hcp _).2]
    by_cases hk2 : k2 = k
    · subst hk2
      rw [hsplit]
      rw [liveVals_update_at ht.readSlot ht2.readSlot _ l1 l2 p0 hl1r hl2r]
      have hdead : isMatch ht2.readSlot k2 p0 = false := by
        rw [isMatch, isLive, hrs_self]
        simp
      rw [hdead]
      simp only [Bool.false_eq_true, if_false, List.nil_append]
      have hold := inv.content k2
      rw [hsplit, liveVals_update_at ht.readSlot ht.readSlot _ l1 l2 p0
        (fun q _ => rfl) (fun q _ => rfl)] at hold
      have hmatch_old : isMatch ht.readSlot k2 p0 = true :=
        isMatch_of_isPair _ _ _ _ hp0
      rw [hmatch_old, hval] at hold
      rw [if_pos rfl] at hold
      rw [bumpRem, if_pos rfl, ← hold]
      have hperm : ((liveVals ht.readSlot k2 l1
          ++ ([v] ++ liveVals ht.readSlot k2 l2) : List Int) : Multiset Int)
          = v ::ₘ ((liveVals ht.readSlot k2 l1
            ++ liveVals ht.readSlot k2 l2 : List Int) : Multiset Int) := by
        rw [show (liveVals ht.readSlot k2 l1
            ++ ([v] ++ liveVals ht.readSlot k2 l2))
          = liveVals ht.readSlot k2 l1 ++ v :: liveVals ht.readSlot k2 l2
          from rfl]
        rw [Multiset.cons_coe]
        exact Multiset.coe_eq_coe.mpr List.perm_middle
      rw [hperm, Multiset.erase_cons_head]
    · rw [bumpRem, if_neg hk2]
      by_cases hch : ht.conf.hashKeyI k2 = ht.conf.hashKeyI k
      · rw [hch, hsplit]
        rw [liveVals_update_at ht.readSlot ht2.readSlot _ l1 l2 p0 hl1r hl2r]
        have hdead : isMatch ht2.readSlot k2 p0 = false := by
          rw [isMatch, isLive, hrs_self]
          simp
        rw [hdead]
        simp only [Bool.false_eq_true, if_false, List.nil_append]
        have hold := inv.content k2
        rw [hch, hsplit, liveVals_update_at ht.readSlot ht.readSlot _ l1 l2
          p0 (fun q _ => rfl) (fun q _ => rfl)] at hold
        have hmiss_old : isMatch ht.readSlot k2 p0 = false := by
          rw [isMatch, hkey]
          have hkk : ¬(k = k2) := fun hc => hk2 hc.symm
          simp [hkk]
        rw [hmiss_old] at hold
        simp only [Bool.false_eq_true, if_false, List.nil_append] at hold
        rw [← hold]
      · have hp0notin : p0 ∉ ht.chainPos (ht.conf.hashKeyI k2) := by
          obtain ⟨hk20, hk2IB⟩ := ht.conf.hashKeyI_range k2
          exact hother_chain _ hk20 hk2IB hch
        rw [liveVals_congr _ ht.readSlot k2 _ (by
          intro q hq
          apply hrs_chain _ (by
            obtain ⟨_, hlt⟩ := ht.conf.hashKeyI_range k2
            have := inv.nb_ge
            omega) q hq
          intro hqe
          exact hp0notin (hqe ▸ hq))]
        exact inv.content k2
  · rw [bumpRem]
    by_cases h0 : (0 : Int) = k
    · rw [if_pos h0]
      intro hmem
      exact inv.mzero (Multiset.mem_of_mem_erase hmem)
    · rw [if_neg h0]
      exact inv.mzero

/-- `HashTable.Remove` preserves the invariant; the abstract content loses
one occurrence of `v` at `k`. -/
theorem HTInv.rem {n : Nat} {ht : HashTable} {m : Int → Multiset Int}
    (inv : HTInv n ht m) (k v : Int) :
    HTInv n (ht.remove k v) (bumpRem m k v) := by
  obtain ⟨hh0, hhIB⟩ := ht.conf.hashKeyI_range k
  have huntouched : ∀ _ : removePosLoop ht.readSlot k v
      (ht.chainPos (ht.conf.hashKeyI k)) = .inl none ∨
      removePosLoop ht.readSlot k v (ht.chainPos (ht.conf.hashKeyI k)) = .inr (),
      HTInv n ht (bumpRem m k v) := by
    intro hnf
    apply inv.rem_untouched
    intro hv
    rw [← inv.content k, Multiset.mem_coe] at hv
    obtain ⟨q, hq, hm2, hval⟩ := liveVals_mem_inv _ _ _ _ hv
    have hlive : isLive ht.readSlot q = true := by
      rw [isMatch] at hm2
      simp only [Bool.and_eq_true] at hm2
      exact hm2.1
    have hvis := mem_visible_of_live _ _ q
      (inv.clean (ht.conf.hashKeyI k) hh0 hhIB) hq hlive
    have hnp := removePosLoop_none ht.readSlot k v _ hnf q hvis
    rw [isPair, hm2, hval] at hnp
    simp at hnp
  cases hrem : removePosLoop ht.readSlot k v
      (ht.chainPos (ht.conf.hashKeyI k)) with
  | inr u =>
    cases u
    have hstate : ht.remove k v = ht := by
      rw [HashTable.remove, ht.removeChain_eq_pos k v, ht.chainPos_eq_fuel, hrem]
    rw [hstate]
    exact huntouched (Or.inr hrem)
  | inl r =>
    cases r with
    | none =>
      have hstate : ht.remove k v = ht := by
        rw [HashTable.remove, ht.removeChain_eq_pos k v, ht.chainPos_eq_fuel,
          hrem]
        rfl
      rw [hstate]
      exact huntouched (Or.inl hrem)
    | some p0 =>
      obtain ⟨l1, l2, hsplit, hl1, hp0⟩ := removePosLoop_some _ k v _ p0 hrem
      have hstate : ht.remove k v
          = { ht with file := { ht.file with
              buf := ht.file.buf.set (ht.entryAddr p0.1 p0.2) 0 } } := by
        rw [HashTable.remove, ht.removeChain_eq_pos k v, ht.chainPos_eq_fuel,
          hrem]
        rfl
      rw [hstate]
      exact inv.rem_found k v p0 l1 l2 hsplit hl1 hp0 rfl rfl rfl rfl

/-- Slot decoding agrees across states whose bytes agree on the slot. -/
theorem HashTable.readSlot_congr2 (ht1 ht2 : HashTable)
    (hc : ht1.conf = ht2.conf) (b e : Int)
    (h : ∀ i : Int, 0 ≤ i → i < EntrySize →
      ht1.file.buf (ht2.entryAddr b e + i) = ht2.file.buf (ht2.entryAddr b e + i)) :
    ht1.readSlot b e = ht2.readSlot b e := by
  have hE : EntrySize = (21 : Int) := rfl
  have haddr : ht1.entryAddr b e = ht2.entryAddr b e := by
    rw [HashTable.entryAddr, HashTable.entryAddr, hc]
  rw [HashTable.readSlot, HashTable.readSlot, haddr]
  have hflag : ht1.file.buf (ht2.entryAddr b e) = ht2.file.buf (ht2.entryAddr b e) := by
    have := h 0 (by norm_num) (by rw [hE]; norm_num)
    simpa using this
  have hkey : varintAt ht1.file.buf (ht2.entryAddr b e + 1)
      = varintAt ht2.file.buf (ht2.entryAddr b e + 1) := by
    apply varintAt_congr
    intro i hi
    have := h (1 + i) (by omega) (by rw [hE]; omega)
    have harr : ht2.entryAddr b e + (1 + (i : Int))
        = ht2.entryAddr b e + 1 + (i : Int) := by ring
    rw [harr] at this
    exact this
  have hval : varintAt ht1.file.buf (ht2.entryAddr b e + 11)
      = varintAt ht2.file.buf (ht2.entryAddr b e + 11) := by
    apply varintAt_congr
    intro i hi
    have := h (11 + i) (by omega) (by rw [hE]; omega)
    have harr : ht2.entryAddr b e + (11 + (i : Int))
        = ht2.entryAddr b e + 11 + (i : Int) := by ring
    rw [harr] at this
    exact this
  rw [hflag, hkey, hval]

/-- A slot over all-zero bytes decodes to all zeroes. -/
theorem HashTable.readSlot_zeros (ht : HashTable) (b e : Int)
    (h : ∀ i : Int, 0 ≤ i → i < EntrySize →
      ht.file.buf (ht.entryAddr b e + i) = 0) :
    ht.readSlot b e = ⟨0, 0, 0⟩ := by
  have hE : EntrySize = (21 : Int) := rfl
  rw [HashTable.readSlot]
  have hflag : ht.file.buf (ht.entryAddr b e) = 0 := by
    have := h 0 (by norm_num) (by rw [hE]; norm_num)
    simpa using this
  have hkey := varintAt_zero ht.file.buf (ht.entryAddr b e + 1) (by
    intro i hi
    have := h (1 + i) (by omega) (by rw [hE]; omega)
    have harr : ht.entryAddr b e + (1 + (i : Int))
        = ht.entryAddr b e + 1 + (i : Int) := by ring
    rw [harr] at this
    exact this)
  have hval := varintAt_zero ht.file.buf (ht.entryAddr b e + 11) (by
    intro i hi
    have := h (11 + i) (by omega) (by rw [hE]; omega)
    have harr : ht.entryAddr b e + (11 + (i : Int))
        = ht.entryAddr b e + 11 + (i : Int) := by ring
    rw [harr] at this
    exact this)
  rw [hflag, hkey, hval]

/-- The last bucket of a walk is a member of the chain. -/
theorem HashTable.lastBucketFuel_mem (ht : HashTable) :
    ∀ (f : Nat) (b : Int), ht.lastBucketFuel f b ∈ ht.chainFuel (f + 1) b := by
  intro f
  induction f with
  | zero =>
    intro b
    rw [HashTable.lastBucketFuel, ht.chainFuel_succ_def]
    exact List.mem_cons_self _ _
  | succ g ih =>
    intro b
    by_cases h : ht.nextBucket b = 0
    · rw [HashTable.lastBucketFuel, if_pos h, ht.chainFuel_succ_def]
      exact List.mem_cons_self _ _
    · rw [HashTable.lastBucketFuel, if_neg h, ht.chainFuel_succ_def, if_neg h]
      exact List.mem_cons_of_mem _ (ih (ht.nextBucket b))

/-- `lastBucket` is a member of the chain. -/
theorem HashTable.lastBucket_mem_chain (ht : HashTable) (b : Int)
    (hb : 0 ≤ b) (hbN : b < ht.numBuckets) :
    ht.lastBucket b ∈ ht.chain b := by
  rw [HashTable.lastBucket, HashTable.chain]
  obtain ⟨f, hf⟩ : ∃ f, (ht.numBuckets + 1).toNat = f + 1 :=
    ⟨(ht.numBuckets + 1).toNat - 1, by omega⟩
  rw [hf]
  have hmem := ht.lastBucketFuel_mem (f + 1) b
  rw [ht.chainFuel_stable (f + 1) b f (by omega) (by omega)] at hmem
  exact hmem

/-- Growing one bucket appends the fresh bucket number to the grown chain. -/
theorem chainFuel_grow (ht htg : HashTable) (t N : Int)
    (hNt : t < N) (hN : ht.numBuckets = N)
    (htnext : ht.nextBucket t = 0) (hgt : htg.nextBucket t = N)
    (hgN : htg.nextBucket N = 0)
    (hagree : ∀ x, x < N → x ≠ t → htg.nextBucket x = ht.nextBucket x) :
    ∀ (f : Nat) (b : Int), 0 ≤ b → b < N → N ≤ b + f + 1 →
    t ∈ ht.chainFuel (f + 1) b →
    htg.chainFuel (f + 2) b = ht.chainFuel (f + 1) b ++ [N] := by
  intro f
  induction f with
  | zero =>
    intro b hb0 hbN hfuel hmem
    rw [ht.chainFuel_succ_def 0 b] at hmem
    have hbt : b = t := by
      by_cases h : ht.nextBucket b = 0
      · rw [if_pos h] at hmem
        simp at hmem
        omega
      · rw [if_neg h] at hmem
        rcases ht.nextBucket_bound b with h0 | ⟨h1, h2⟩
        · exact absurd h0 h
        · rw [HashTable.chainFuel] at hmem
          simp at hmem
          omega
    subst hbt
    rw [ht.chainFuel_succ_def 0 b, htnext, if_pos rfl]
    rw [htg.chainFuel_succ_def 1 b, hgt, if_neg (by omega)]
    rw [htg.chainFuel_succ_def 0 N, hgN, if_pos rfl]
    rfl
  | succ g ih =>
    intro b hb0 hbN hfuel hmem
    by_cases hbt : b = t
    · subst hbt
      rw [ht.chainFuel_succ_def (g + 1) b, htnext, if_pos rfl]
      rw [htg.chainFuel_succ_def (g + 2) b, hgt, if_neg (by omega)]
      rw [htg.chainFuel_succ_def (g + 1) N, hgN, if_pos rfl]
      rfl
    · rw [ht.chainFuel_succ_def (g + 1) b] at hmem
      rcases List.mem_cons.mp hmem with heq | hmem2
      · exact absurd heq.symm hbt
      · by_cases h : ht.nextBucket b = 0
        · rw [if_pos h] at hmem2
          simp at hmem2
        · rw [if_neg h] at hmem2
          rcases ht.nextBucket_bound b with h0 | ⟨h1, h2⟩
          · exact absurd h0 h
          · rw [ht.chainFuel_succ_def (g + 1) b, if_neg h]
            rw [htg.chainFuel_succ_def (g + 2) b,
              hagree b (by omega) hbt, if_neg h]
            rw [List.cons_append]
            congr 1
            exact ih (ht.nextBucket b) (by omega) (by omega) (by omega) hmem2

/-- Writing `(k, v)` into the first non-live slot of the key's chain
preserves the invariant, with `v` added to the content at `k`. -/
theorem HTInv.put_found {n : Nat} {ht ht2 : HashTable} {m : Int → Multiset Int}
    (inv : HTInv n ht m) (k v : Int) (p0 : Int × Int)
    (l1 l2 : List (Int × Int))
    (hsplit : ht.chainPos (ht.conf.hashKeyI k) = l1 ++ p0 :: l2)
    (hl1 : ∀ q ∈ l1, isLive ht.readSlot q = true)
    (hp0 : isLive ht.readSlot p0 = false)
    (hk1 : -(2 ^ 63) ≤ k) (hk2 : k < 2 ^ 63)
    (hv1 : -(2 ^ 63) ≤ v) (hv2 : v < 2 ^ 63)
    (hkv : ¬(k = 0 ∧ v = 0))
    (hconf : ht2.conf = ht.conf) (hnum : ht2.numBuckets = ht.numBuckets)
    (hused : ht2.file.used = ht.file.used)
    (hbuf : ht2.file.buf
      = (ht.writeEntry (ht.entryAddr p0.1 p0.2) k v).file.buf) :
    HTInv n ht2 (bumpPut m k v) := by
  obtain ⟨hh0, hhIB⟩ := ht.conf.hashKeyI_range k
  have hhN : ht.conf.hashKeyI k < ht.numBuckets := lt_of_lt_of_le hhIB inv.nb_ge
  have hp0mem : p0 ∈ ht.chainPos (ht.conf.hashKeyI k) := by
    rw [hsplit]
    simp
  obtain ⟨hp02, hp02P, hp01ge, hp01lt, hp01chain⟩ :=
    ht.chainPos_ranges _ hhN p0 hp0mem
  have hnodup := ht.chainPos_nodup _ hhN
  have hp0l1 : p0 ∉ l1 := by
    rw [hsplit] at hnodup
    have hd := (List.nodup_append.mp hnodup).2.2
    intro hmem
    exact hd hmem (List.mem_cons_self _ _)
  have hp0l2 : p0 ∉ l2 := by
    rw [hsplit] at hnodup
    have hd := (List.nodup_append.mp hnodup).2.1
    exact (List.nodup_cons.mp hd).1
  have h2rec : ∀ b e : Int, ht2.readSlot b e
      = (ht.writeEntry (ht.entryAddr p0.1 p0.2) k v).readSlot b e :=
    fun b e => HashTable.readSlot_ext ht2
      (ht.writeEntry (ht.entryAddr p0.1 p0.2) k v) (hconf.trans rfl) hbuf b e
  have hnb : ∀ c, ht2.nextBucket c = ht.nextBucket c := fun c =>
    (HashTable.nextBucket_ext ht2
      (ht.writeEntry (ht.entryAddr p0.1 p0.2) k v) (hconf.trans rfl)
      (hnum.trans rfl) hbuf c).trans
      (ht.writeEntry_nextBucket p0.1 p0.2 k v c hp02 hp02P)
  have hcp : ∀ hd : Int, ht2.chain hd = ht.chain hd ∧
      ht2.chainPos hd = ht.chainPos hd :=
    fun hd => HashTable.chainPos_congr ht2 ht hconf hnum hnb hd
  have hrs_self : ht2.readSlot p0.1 p0.2 = ⟨1, k, v⟩ :=
    (h2rec p0.1 p0.2).trans
      (ht.writeEntry_readSlot_self p0.1 p0.2 k v hk1 hk2 hv1 hv2)
  have hrs_other : ∀ q : Int × Int, 0 ≤ q.2 → q.2 < ht.conf.perBucket →
      q ≠ p0 → ht2.readSlot q.1 q.2 = ht.readSlot q.1 q.2 := by
    intro q hq2 hq2P hqne
    rw [h2rec]
    apply ht.writeEntry_readSlot_other p0.1 p0.2 k v q.1 q.2 hp02 hp02P hq2 hq2P
    intro hc
    apply hqne
    obtain ⟨qa, qb⟩ := q
    obtain ⟨pa, pb⟩ := p0
    simp only [Prod.mk.injEq] at hc
    simp [hc.1, hc.2]
  have hrs_chain : ∀ hd : Int, hd < ht.numBuckets →
      ∀ q ∈ ht.chainPos hd, q ≠ p0 →
      ht2.readSlot q.1 q.2 = ht.readSlot q.1 q.2 := by
    intro hd hdN q hq hqne
    obtain ⟨h1, h2, _, _, _⟩ := ht.chainPos_ranges hd hdN q hq
    exact hrs_other q h1 h2 hqne
  have hother_chain : ∀ hd : Int, 0 ≤ hd → hd < ht.conf.initialBuckets →
      hd ≠ ht.conf.hashKeyI k → p0 ∉ ht.chainPos hd := by
    intro hd hd0 hdIB hdne hmem
    obtain ⟨_, _, _, _, hchain⟩ := ht.chainPos_ranges hd
      (by have := inv.nb_ge; omega) p0 hmem
    exact inv.disj hd (ht.conf.hashKeyI k) hd0 hdIB hh0 hhIB hdne
      p0.1 hchain hp01chain
  have hl1r : ∀ q ∈ l1, ht2.readSlot q.1 q.2 = ht.readSlot q.1 q.2 := by
    intro q hq
    apply hrs_chain _ hhN q
    · rw [hsplit]
      exact List.mem_append.mpr (Or.inl hq)
    · intro hqe
      exact hp0l1 (hqe ▸ hq)
  have hl2r : ∀ q ∈ l2, ht2.readSlot q.1 q.2 = ht.readSlot q.1 q.2 := by
    intro q hq
    apply hrs_chain _ hhN q
    · rw [hsplit]
      exact List.mem_append.mpr (Or.inr (List.mem_cons_of_mem _ hq))
    · intro hqe
      exact hp0l2 (hqe ▸ hq)
  have haddr0 : 0 ≤ ht.entryAddr p0.1 p0.2 := by
    obtain ⟨ha0, _⟩ :=
      ht.entryAddr_in_used p0.1 p0.2 (by omega) hp01lt hp02 hp02P
    exact ha0
  have haddrU : ht.entryAddr p0.1 p0.2 + EntrySize
      ≤ ht.numBuckets * ht.conf.bucketSize := by
    obtain ⟨_, haU⟩ :=
      ht.entryAddr_in_used p0.1 p0.2 (by omega) hp01lt hp02 hp02P
    exact haU
  refine ⟨?_, ?_, ?_, ?_, ?_, ?_, ?_, ?_, ?_⟩
  · rw [hnum, hconf]
    exact inv.nb_ge
  · rw [hnum, hconf]
    exact inv.nb_cnt
  · rw [hused, hnum, hconf]
    exact inv.used_eq
  · intro p hp
    rw [hused] at hp
    rw [hbuf]
    have huse := inv.used_eq
    have hE : EntrySize = (21 : Int) := rfl
    rw [ht.writeEntry_buf_frame _ k v p (by omega)]
    exact inv.zeros p hp
  · intro b
    rw [HashTable.headerOK, hbuf, hconf, hnum]
    have hv : varintAt (ht.writeEntry (ht.entryAddr p0.1 p0.2) k v).file.buf
        (b * ht.conf.bucketSize) = varintAt ht.file.buf
        (b * ht.conf.bucketSize) := by
      apply varintAt_congr
      intro i hi
      apply ht.writeEntry_buf_frame
      have hB : BucketHeader = (10 : Int) := rfl
      by_contra hc
      push_neg at hc
      obtain ⟨hc1, hc2⟩ := hc
      exact ht.entryAddr_not_header p0.1 p0.2 b hp02 hp02P
        (b * ht.conf.bucketSize + i - ht.entryAddr p0.1 p0.2) i
        (by omega) (by omega) (by omega) (by omega) (by omega)
    rw [hv]
    have hok := inv.headers b
    rw [HashTable.headerOK] at hok
    exact hok
  · intro h1 h2 a1 a2 a3 a4 hne b hb1
    rw [hconf] at a2 a4
    rw [(hcp h1).1] at hb1
    rw [(hcp h2).1]
    exact inv.disj h1 h2 a1 a2 a3 a4 hne b hb1
  · intro hd hd0 hdIB
    rw [hconf] at hdIB
    rw [(hcp hd).2]
    by_cases hdh : hd = ht.conf.hashKeyI k
    · rw [hdh, hsplit]
      have hclean_old := inv.clean _ hh0 hhIB
      rw [hsplit, cleanTail] at hclean_old
      rw [cleanTail]
      have hl1pass : ∀ q ∈ l1, (fun p => !isZeroSlot ht2.readSlot p) q
          = true := by
        intro q hq
        have hlv := hl1 q hq
        show (!isZeroSlot ht2.readSlot q) = true
        rw [isZeroSlot_congr _ ht.readSlot q (hl1r q hq), isZeroSlot]
        rw [isLive] at hlv
        simp [hlv]
      have hl1pass_old : ∀ q ∈ l1,
          (fun p => !isZeroSlot ht.readSlot p) q = true := by
        intro q hq
        have hlv := hl1 q hq
        show (!isZeroSlot ht.readSlot q) = true
        rw [isZeroSlot]
        rw [isLive] at hlv
        simp [hlv]
      rw [dropWhile_append_of_all (fun p => !isZeroSlot ht2.readSlot p)
        l1 (p0 :: l2) hl1pass]
      rw [dropWhile_append_of_all (fun p => !isZeroSlot ht.readSlot p)
        l1 (p0 :: l2) hl1pass_old] at hclean_old
      have hz_new : isZeroSlot ht2.readSlot p0 = false := by
        rw [isZeroSlot, hrs_self]
        simp
      rw [List.dropWhile_cons, if_pos (by simp [hz_new])]
      rw [dropWhile_zero_congr _ ht.readSlot l2 hl2r]
      have hdead_l2 : ∀ q ∈ l2.dropWhile (fun p => !isZeroSlot ht.readSlot p),
          isLive ht.readSlot q = false := by
        intro q hq
        have hql2 : q ∈ l2 := (List.dropWhile_sublist _).subset hq
        by_cases hzp0 : isZeroSlot ht.readSlot p0 = true
        · rw [List.dropWhile_cons, if_neg (by simp [hzp0])] at hclean_old
          rw [List.all_eq_true] at hclean_old
          have := hclean_old q (List.mem_cons_of_mem _ hql2)
          simpa using this
        · rw [List.dropWhile_cons,
            if_pos (by simp [Bool.eq_false_iff.mpr hzp0])] at hclean_old
          rw [List.all_eq_true] at hclean_old
          have := hclean_old q hq
          simpa using this
      rw [List.all_eq_true]
      intro q hq
      have hql2 : q ∈ l2 := (List.dropWhile_sublist _).subset hq
      rw [isLive_congr _ ht.readSlot q (hl2r q hql2)]
      simp [hdead_l2 q hq]
    · have hp0notin := hother_chain hd hd0 hdIB hdh
      rw [cleanTail_congr _ ht.readSlot _ (by
        intro q hq
        apply hrs_chain hd (by have := inv.nb_ge; omega) q hq
        intro hqe
        exact hp0notin (hqe ▸ hq))]
      exact inv.clean hd hd0 hdIB
  · intro k2
    rw [hconf, (hcp _).2]
    by_cases hk2e : k2 = k
    · subst hk2e
      rw [hsplit]
      rw [liveVals_update_at ht.readSlot ht2.readSlot _ l1 l2 p0 hl1r hl2r]
      have hlivep0 : isMatch ht2.readSlot k2 p0 = true := by
        rw [isMatch, isLive, hrs_self]
        simp
      rw [hlivep0, hrs_self]
      have hold := inv.content k2
      rw [hsplit, liveVals_update_at ht.readSlot ht.readSlot _ l1 l2 p0
        (fun q _ => rfl) (fun q _ => rfl)] at hold
      have hmiss_old : isMatch ht.readSlot k2 p0 = false := by
        rw [isMatch, hp0]
        simp
      rw [hmiss_old] at hold
      simp only [Bool.false_eq_true, if_false, List.nil_append] at hold
      rw [bumpPut, if_pos rfl, ← hold]
      simp only [if_pos rfl]
      have hperm : ((liveVals ht.readSlot k2 l1
          ++ ([v] ++ liveVals ht.readSlot k2 l2) : List Int) : Multiset Int)
          = v ::ₘ ((liveVals ht.readSlot k2 l1
            ++ liveVals ht.readSlot k2 l2 : List Int) : Multiset Int) := by
        rw [show (liveVals ht.readSlot k2 l1
            ++ ([v] ++ liveVals ht.readSlot k2 l2))
          = liveVals ht.readSlot k2 l1 ++ v :: liveVals ht.readSlot k2 l2
          from rfl]
        rw [Multiset.cons_coe]
        exact Multiset.coe_eq_coe.mpr List.perm_middle
      rw [hperm]
      simp
    · rw [bumpPut, if_neg hk2e]
      by_cases hch : ht.conf.hashKeyI k2 = ht.conf.hashKeyI k
      · rw [hch, hsplit]
        rw [liveVals_update_at ht.readSlot ht2.readSlot _ l1 l2 p0 hl1r hl2r]
        have hdead : isMatch ht2.readSlot k2 p0 = false := by
          rw [isMatch, isLive, hrs_self]
          have hkk : (k == k2) = false := by
            simp only [beq_eq_false_iff_ne, ne_eq]
            exact fun hc => hk2e hc.symm
          simp [hkk]
        rw [hdead]
        simp only [Bool.false_eq_true, if_false, List.nil_append]
        have hold := inv.content k2
        rw [hch, hsplit, liveVals_update_at ht.readSlot ht.readSlot _ l1 l2
          p0 (fun q _ => rfl) (fun q _ => rfl)] at hold
        have hmiss_old : isMatch ht.readSlot k2 p0 = false := by
          rw [isMatch, hp0]
          simp
        rw [hmiss_old] at hold
        simp only [Bool.false_eq_true, if_false, List.nil_append] at hold
        rw [← hold]
      · have hp0notin : p0 ∉ ht.chainPos (ht.conf.hashKeyI k2) := by
          obtain ⟨hk20, hk2IB⟩ := ht.conf.hashKeyI_range k2
          exact hother_chain _ hk20 hk2IB hch
        rw [liveVals_congr _ ht.readSlot k2 _ (by
          intro q hq
          apply hrs_chain _ (by
            obtain ⟨_, hlt⟩ := ht.conf.hashKeyI_range k2
            have := inv.nb_ge
            omega) q hq
          intro hqe
          exact hp0notin (hqe ▸ hq))]
        exact inv.content k2
  · rw [bumpPut]
    by_cases h0 : (0 : Int) = k
    · rw [if_pos h0]
      intro hmem
      rcases Multiset.mem_cons.mp hmem with h | h
      · exact hkv ⟨h0.symm, h.symm⟩
      · exact inv.mzero h
    · rw [if_neg h0]
      exact inv.mzero


/-- Bounds for chain membership, at the chain level. -/
theorem HashTable.chain_mem_bounds (ht : HashTable) (b x : Int)
    (hx : x ∈ ht.chain b) (hb : b < ht.numBuckets) :
    b ≤ x ∧ x < ht.numBuckets := by
  rw [HashTable.chain] at hx
  exact ht.chainFuel_mem_bounds _ b x hx hb

/-- Growing a bucket onto a fully live chain preserves the invariant (the
content is untouched: the fresh bucket is all zeroes), appends the fresh
bucket's positions to the grown chain, and leaves every slot's decoding
unchanged. -/
theorem HTInv.grow {n : Nat} {ht : HashTable} {m : Int → Multiset Int}
    (inv : HTInv n ht m) (k : Int)
    (hall : ∀ q ∈ ht.chainPos (ht.conf.hashKeyI k),
      isLive ht.readSlot q = true)
    (hN63 : ht.numBuckets < 2 ^ 63) :
    HTInv (n + 1) (ht.growBucket (ht.conf.hashKeyI k)) m ∧
    (ht.growBucket (ht.conf.hashKeyI k)).chainPos (ht.conf.hashKeyI k)
      = ht.chainPos (ht.conf.hashKeyI k)
        ++ (ht.growBucket (ht.conf.hashKeyI k)).bucketPos ht.numBuckets ∧
    (∀ q ∈ (ht.growBucket (ht.conf.hashKeyI k)).bucketPos ht.numBuckets,
      (ht.growBucket (ht.conf.hashKeyI k)).readSlot q.1 q.2 = ⟨0, 0, 0⟩) ∧
    (∀ b e : Int, 0 ≤ e → e < ht.conf.perBucket →
      (ht.growBucket (ht.conf.hashKeyI k)).readSlot b e = ht.readSlot b e) := by
  obtain ⟨hh0, hhIB⟩ := ht.conf.hashKeyI_range k
  have hge := inv.nb_ge
  have hhN : ht.conf.hashKeyI k < ht.numBuckets := lt_of_lt_of_le hhIB hge
  have hIB1 := ht.conf.initialBuckets_pos
  have hN1 : 1 ≤ ht.numBuckets := le_trans hIB1 hge
  have hBS := ht.bucketSize_pos
  have htmem : ht.lastBucket (ht.conf.hashKeyI k)
      ∈ ht.chain (ht.conf.hashKeyI k) :=
    ht.lastBucket_mem_chain _ hh0 hhN
  obtain ⟨ht_ge, ht_lt⟩ := ht.chain_mem_bounds _ _ htmem hhN
  have ht0 : 0 ≤ ht.lastBucket (ht.conf.hashKeyI k) := by omega
  have htnext : ht.nextBucket (ht.lastBucket (ht.conf.hashKeyI k)) = 0 :=
    ht.nextBucket_lastBucket _ hh0
  obtain ⟨he1, he2, he3, he4, he5⟩ :=
    DataFile.ensureSize_spec ht.file ht.conf.bucketSize
  have hbufg : (ht.growBucket (ht.conf.hashKeyI k)).file.buf
      = ht.file.buf.writeBytes
        (ht.lastBucket (ht.conf.hashKeyI k) * ht.conf.bucketSize)
        (putVarint ht.numBuckets) := by
    simp only [HashTable.growBucket]
    rw [he1]
  have husedg : (ht.growBucket (ht.conf.hashKeyI k)).file.used
      = ht.file.used + ht.conf.bucketSize := by
    simp only [HashTable.growBucket]
    rw [he2]
  have hconfg : (ht.growBucket (ht.conf.hashKeyI k)).conf = ht.conf := rfl
  have hnumg : (ht.growBucket (ht.conf.hashKeyI k)).numBuckets
      = ht.numBuckets + 1 := rfl
  have hlen : (putVarint ht.numBuckets).length ≤ 10 :=
    putUvarintAux_length 10 _
  have hlenpos : 1 ≤ (putVarint ht.numBuckets).length :=
    putUvarintAux_length_pos 10 _ (by norm_num)
  have hc1 : (ht.lastBucket (ht.conf.hashKeyI k) + 1) * ht.conf.bucketSize
      = ht.lastBucket (ht.conf.hashKeyI k) * ht.conf.bucketSize
        + ht.conf.bucketSize := by ring
  have hblocks : (ht.lastBucket (ht.conf.hashKeyI k) + 1) * ht.conf.bucketSize
      ≤ ht.numBuckets * ht.conf.bucketSize :=
    mul_le_mul_of_nonneg_right (by omega) (by omega)
  have htpos : 0 ≤ ht.lastBucket (ht.conf.hashKeyI k) * ht.conf.bucketSize :=
    mul_nonneg (by omega) (by omega)
  have hframe : ∀ p : Int,
      (p < ht.lastBucket (ht.conf.hashKeyI k) * ht.conf.bucketSize ∨
       ht.lastBucket (ht.conf.hashKeyI k) * ht.conf.bucketSize + 10 ≤ p) →
      (ht.growBucket (ht.conf.hashKeyI k)).file.buf p = ht.file.buf p := by
    intro p hp
    rw [hbufg]
    exact Buf.writeBytes_outside _ _ _ _ (by omega)
  have hhdr_eq : ∀ c : Int, c ≠ ht.lastBucket (ht.conf.hashKeyI k) →
      varintAt (ht.growBucket (ht.conf.hashKeyI k)).file.buf
        (c * ht.conf.bucketSize)
      = varintAt ht.file.buf (c * ht.conf.bucketSize) := by
    intro c hct
    apply varintAt_congr
    intro i hi
    apply hframe
    rcases block_disjoint ht.conf.bucketSize (by omega) c
      (ht.lastBucket (ht.conf.hashKeyI k)) hct with hd | hd
    · left
      have hcc : (c + 1) * ht.conf.bucketSize
          = c * ht.conf.bucketSize + ht.conf.bucketSize := by ring
      omega
    · right
      omega
  have hstored_t : varintAt (ht.growBucket (ht.conf.hashKeyI k)).file.buf
      (ht.lastBucket (ht.conf.hashKeyI k) * ht.conf.bucketSize)
      = (ht.numBuckets, ((putVarint ht.numBuckets).length : Int)) := by
    rw [hbufg]
    exact varintAt_writeBytes _ _ _ (by omega) hN63
  have hgok : ∀ c, (ht.growBucket (ht.conf.hashKeyI k)).headerOK c := by
    intro c
    by_cases hct : c = ht.lastBucket (ht.conf.hashKeyI k)
    · rw [HashTable.headerOK, hconfg, hnumg, hct, hstored_t]
      right
      refine ⟨?_, ?_, ?_, ?_⟩
      · exact Int.natCast_nonneg _
      · show ht.lastBucket (ht.conf.hashKeyI k) < ht.numBuckets
        omega
      · show ht.numBuckets < ht.numBuckets + 1
        omega
      · exact hge
    · rw [HashTable.headerOK, hconfg, hnumg, hhdr_eq c hct]
      have hok := inv.headers c
      rw [HashTable.headerOK] at hok
      rcases hok with h0 | ⟨ha, hb, hcc2, hd⟩
      · left; exact h0
      · right; exact ⟨ha, hb, by omega, hd⟩
  have hgnext_t : (ht.growBucket (ht.conf.hashKeyI k)).nextBucket
      (ht.lastBucket (ht.conf.hashKeyI k)) = ht.numBuckets := by
    rw [HashTable.nextBucket_of_headerOK _ _ (hgok _) (by rw [hnumg]; omega),
      hconfg, hstored_t]
  have hN_next : (ht.growBucket (ht.conf.hashKeyI k)).nextBucket
      ht.numBuckets = 0 := by
    rw [HashTable.nextBucket_of_headerOK _ _ (hgok _) (by rw [hnumg]; omega),
      hconfg]
    have hz : varintAt (ht.growBucket (ht.conf.hashKeyI k)).file.buf
        (ht.numBuckets * ht.conf.bucketSize) = (0, 1) := by
      apply varintAt_zero
      intro i hi
      rw [hframe _ (by right; omega)]
      apply inv.zeros
      right
      rw [inv.used_eq]
      omega
    rw [hz]
  have hgnext_lt : ∀ c, c < ht.numBuckets →
      c ≠ ht.lastBucket (ht.conf.hashKeyI k) →
      (ht.growBucket (ht.conf.hashKeyI k)).nextBucket c = ht.nextBucket c := by
    intro c hc hct
    rw [HashTable.nextBucket_of_headerOK _ _ (hgok c) (by rw [hnumg]; omega),
      HashTable.nextBucket_of_headerOK ht c (inv.headers c) hc,
      hconfg, hhdr_eq c hct]
  have hgrs : ∀ b e : Int, 0 ≤ e → e < ht.conf.perBucket →
      (ht.growBucket (ht.conf.hashKeyI k)).readSlot b e = ht.readSlot b e := by
    intro b e he heP
    apply HashTable.readSlot_congr2 _ ht hconfg b e
    intro i hi0 hiE
    apply hframe
    by_contra hcon
    push_neg at hcon
    obtain ⟨hcon1, hcon2⟩ := hcon
    exact ht.entryAddr_not_header b e (ht.lastBucket (ht.conf.hashKeyI k))
      he heP i (ht.entryAddr b e + i
        - ht.lastBucket (ht.conf.hashKeyI k) * ht.conf.bucketSize)
      hi0 hiE (by omega) (by
        show ht.entryAddr b e + i
          - ht.lastBucket (ht.conf.hashKeyI k) * ht.conf.bucketSize
          < BucketHeader
        have hB : BucketHeader = (10 : Int) := rfl
        omega) (by omega)
  have hgzero : ∀ e : Int, 0 ≤ e → e < ht.conf.perBucket →
      (ht.growBucket (ht.conf.hashKeyI k)).readSlot ht.numBuckets e
        = ⟨0, 0, 0⟩ := by
    intro e he heP
    apply HashTable.readSlot_zeros _ ht.numBuckets e
    intro i hi0 hiE
    have haddr : (ht.growBucket (ht.conf.hashKeyI k)).entryAddr ht.numBuckets e
        = ht.entryAddr ht.numBuckets e := rfl
    rw [haddr]
    obtain ⟨hbl, hbr⟩ := ht.entryAddr_block ht.numBuckets e he heP
    have hB : BucketHeader = (10 : Int) := rfl
    rw [hframe _ (by omega)]
    apply inv.zeros
    right
    rw [inv.used_eq]
    omega
  have hchain_h : (ht.growBucket (ht.conf.hashKeyI k)).chain
      (ht.conf.hashKeyI k)
      = ht.chain (ht.conf.hashKeyI k) ++ [ht.numBuckets] := by
    have hgrow := chainFuel_grow ht (ht.growBucket (ht.conf.hashKeyI k))
      (ht.lastBucket (ht.conf.hashKeyI k)) ht.numBuckets ht_lt rfl
      htnext hgnext_t hN_next (fun x hx hxt => hgnext_lt x hx hxt)
    have hfN : (ht.numBuckets + 1).toNat = ht.numBuckets.toNat + 1 := by omega
    have hfN2 : (ht.numBuckets + 1 + 1).toNat = ht.numBuckets.toNat + 2 := by
      omega
    rw [HashTable.chain, HashTable.chain, hnumg, hfN, hfN2]
    apply hgrow ht.numBuckets.toNat (ht.conf.hashKeyI k) hh0 hhN (by omega)
    have hm2 := htmem
    rw [HashTable.chain, hfN] at hm2
    exact hm2
  have hchain_other : ∀ hd : Int, 0 ≤ hd → hd < ht.conf.initialBuckets →
      hd ≠ ht.conf.hashKeyI k →
      (ht.growBucket (ht.conf.hashKeyI k)).chain hd = ht.chain hd := by
    intro hd hd0 hdIB hdne
    have hdN : hd < ht.numBuckets := by omega
    have hfN : (ht.numBuckets + 1).toNat = ht.numBuckets.toNat + 1 := by omega
    have hfN2 : (ht.numBuckets + 1 + 1).toNat = ht.numBuckets.toNat + 2 := by
      omega
    have hstable : ht.chainFuel (ht.numBuckets.toNat + 2) hd
        = ht.chain hd := by
      rw [HashTable.chain, hfN]
      exact ht.chainFuel_stable (ht.numBuckets.toNat + 1) hd
        ht.numBuckets.toNat (by omega) (by omega)
    have hagree : ∀ x ∈ ht.chainFuel (ht.numBuckets.toNat + 2) hd,
        ht.nextBucket x
          = (ht.growBucket (ht.conf.hashKeyI k)).nextBucket x := by
      intro x hx
      rw [hstable] at hx
      obtain ⟨hxge, hxlt⟩ := ht.chain_mem_bounds _ _ hx hdN
      have hxt : x ≠ ht.lastBucket (ht.conf.hashKeyI k) := by
        intro hxe
        rw [hxe] at hx
        exact inv.disj hd (ht.conf.hashKeyI k) hd0 hdIB hh0 hhIB hdne
          (ht.lastBucket (ht.conf.hashKeyI k)) hx htmem
      exact (hgnext_lt x hxlt hxt).symm
    rw [HashTable.chain, hnumg, hfN2,
      ← ht.chainFuel_congr_mem (ht.growBucket (ht.conf.hashKeyI k)) _ hd hagree,
      hstable]
  have hbpf : (ht.growBucket (ht.conf.hashKeyI k)).bucketPos = ht.bucketPos :=
    rfl
  have hcp_h : (ht.growBucket (ht.conf.hashKeyI k)).chainPos
      (ht.conf.hashKeyI k)
      = ht.chainPos (ht.conf.hashKeyI k)
        ++ (ht.growBucket (ht.conf.hashKeyI k)).bucketPos ht.numBuckets := by
    rw [HashTable.chainPos, HashTable.chainPos, hbpf, hchain_h,
      List.map_append, List.flatten_append]
    simp
  have hcp_other : ∀ hd : Int, 0 ≤ hd → hd < ht.conf.initialBuckets →
      hd ≠ ht.conf.hashKeyI k →
      (ht.growBucket (ht.conf.hashKeyI k)).chainPos hd = ht.chainPos hd := by
    intro hd hd0 hdIB hdne
    rw [HashTable.chainPos, HashTable.chainPos, hbpf,
      hchain_other hd hd0 hdIB hdne]
  have hdeadN : ∀ q ∈ (ht.growBucket (ht.conf.hashKeyI k)).bucketPos
      ht.numBuckets,
      (ht.growBucket (ht.conf.hashKeyI k)).readSlot q.1 q.2 = ⟨0, 0, 0⟩ := by
    intro q hq
    rw [hbpf] at hq
    obtain ⟨hq1, hq2, hq3⟩ := (ht.mem_bucketPos _ q).mp hq
    rw [hq1]
    exact hgzero q.2 hq2 hq3
  have hliveN : ∀ q ∈ (ht.growBucket (ht.conf.hashKeyI k)).bucketPos
      ht.numBuckets,
      isLive (ht.growBucket (ht.conf.hashKeyI k)).readSlot q = false := by
    intro q hq
    rw [isLive, hdeadN q hq]
    rfl
  have hgrs_chain : ∀ hd : Int, hd < ht.numBuckets → ∀ q ∈ ht.chainPos hd,
      (ht.growBucket (ht.conf.hashKeyI k)).readSlot q.1 q.2
        = ht.readSlot q.1 q.2 := by
    intro hd hdN q hq
    obtain ⟨h1, h2, _, _, _⟩ := ht.chainPos_ranges hd hdN q hq
    exact hgrs q.1 q.2 h1 h2
  refine ⟨⟨?_, ?_, ?_, ?_, hgok, ?_, ?_, ?_, inv.mzero⟩, hcp_h, hdeadN,
    fun b e he heP => hgrs b e he heP⟩
  · rw [hnumg, hconfg]
    omega
  · rw [hnumg, hconfg]
    have hcnt := inv.nb_cnt
    push_cast
    omega
  · rw [husedg, hnumg, hconfg, inv.used_eq]
    ring
  · intro p hp
    rw [husedg] at hp
    have huse := inv.used_eq
    rw [hframe _ (by omega)]
    apply inv.zeros
    omega
  · intro h1 h2 a1 a2 a3 a4 hne b hb1
    rw [hconfg] at a2 a4
    by_cases he1 : h1 = ht.conf.hashKeyI k
    · rw [he1, hchain_h] at hb1
      have hne2 : h2 ≠ ht.conf.hashKeyI k := fun hcon => hne (he1.trans hcon.symm)
      rw [hchain_other h2 a3 a4 hne2]
      rcases List.mem_append.mp hb1 with hb | hb
      · rw [he1] at hne
        exact inv.disj (ht.conf.hashKeyI k) h2 hh0 hhIB a3 a4 hne b hb
      · simp at hb
        rw [hb]
        intro hmem
        obtain ⟨_, hlt⟩ := ht.chain_mem_bounds _ _ hmem (by omega)
        omega
    · rw [hchain_other h1 a1 a2 he1] at hb1
      by_cases he2 : h2 = ht.conf.hashKeyI k
      · rw [he2, hchain_h]
        intro hmem
        rcases List.mem_append.mp hmem with hb | hb
        · rw [he2] at hne
          exact inv.disj h1 (ht.conf.hashKeyI k) a1 a2 hh0 hhIB hne b hb1 hb
        · simp at hb
          rw [hb] at hb1
          obtain ⟨_, hlt⟩ := ht.chain_mem_bounds _ _ hb1 (by omega)
          omega
      · rw [hchain_other h2 a3 a4 he2]
        exact inv.disj h1 h2 a1 a2 a3 a4 hne b hb1
  · intro hd hd0 hdIB
    rw [hconfg] at hdIB
    by_cases hdh : hd = ht.conf.hashKeyI k
    · rw [hdh, hcp_h, cleanTail]
      have hl1pass : ∀ q ∈ ht.chainPos (ht.conf.hashKeyI k),
          (fun p => !isZeroSlot
            (ht.growBucket (ht.conf.hashKeyI k)).readSlot p) q = true := by
        intro q hq
        have hlv := hall q hq
        show (!isZeroSlot (ht.growBucket (ht.conf.hashKeyI k)).readSlot q)
          = true
        rw [isZeroSlot_congr _ ht.readSlot q (hgrs_chain _ hhN q hq),
          isZeroSlot]
        rw [isLive] at hlv
        simp [hlv]
      rw [dropWhile_append_of_all _ _ _ hl1pass]
      rw [List.all_eq_true]
      intro q hq
      have hqN : q ∈ (ht.growBucket (ht.conf.hashKeyI k)).bucketPos
          ht.numBuckets := (List.dropWhile_sublist _).subset hq
      simp [hliveN q hqN]
    · rw [hcp_other hd hd0 hdIB hdh]
      rw [cleanTail_congr _ ht.readSlot _
        (fun q hq => hgrs_chain hd (by omega) q hq)]
      exact inv.clean hd hd0 hdIB
  · intro k2
    rw [hconfg]
    by_cases hch : ht.conf.hashKeyI k2 = ht.conf.hashKeyI k
    · rw [hch, hcp_h, liveVals_append]
      rw [liveVals_congr _ ht.readSlot k2 _
        (fun q hq => hgrs_chain _ hhN q hq)]
      rw [liveVals_nil_of_dead _ _ _ hliveN, List.append_nil]
      have hcon := inv.content k2
      rw [hch] at hcon
      exact hcon
    · obtain ⟨hk20, hk2IB⟩ := ht.conf.hashKeyI_range k2
      rw [hcp_other _ hk20 hk2IB hch]
      rw [liveVals_congr _ ht.readSlot k2 _
        (fun q hq => hgrs_chain _ (by omega) q hq)]
      exact inv.content k2

/-- The growth counter of the invariant may be weakened. -/
theorem HTInv.mono {n n' : Nat} {ht : HashTable} {m : Int → Multiset Int}
    (inv : HTInv n ht m) (h : n ≤ n') : HTInv n' ht m := by
  refine ⟨inv.nb_ge, ?_, inv.used_eq, inv.zeros, inv.headers, inv.disj,
    inv.clean, inv.content, inv.mzero⟩
  have hc := inv.nb_cnt
  have hn : (n : Int) ≤ (n' : Int) := by exact_mod_cast h
  omega

/-- `HashTable.Put` preserves the invariant; the abstract content gains one
occurrence of `v` at `k`. -/
theorem HTInv.put {n : Nat} {ht : HashTable} {m : Int → Multiset Int}
    (inv : HTInv n ht m) (k v : Int)
    (hk1 : -(2 ^ 63) ≤ k) (hk2 : k < 2 ^ 63)
    (hv1 : -(2 ^ 63) ≤ v) (hv2 : v < 2 ^ 63)
    (hkv : ¬(k = 0 ∧ v = 0))
    (hbound : ht.conf.initialBuckets + (n : Int) < 2 ^ 63) :
    HTInv (n + 1) (ht.put k v) (bumpPut m k v) := by
  have hIB := ht.conf.initialBuckets_pos
  obtain ⟨r, hr⟩ : ∃ r, (ht.conf.initialBuckets + 2).toNat = r + 1 + 1 :=
    ⟨(ht.conf.initialBuckets + 2).toNat - 2, by omega⟩
  rw [HashTable.put, hr, HashTable.putFuel, ht.putChain_eq_pos,
    ht.chainPos_eq_fuel]
  cases hput : putPosLoop ht.readSlot (ht.chainPos (ht.conf.hashKeyI k)) with
  | some p0 =>
    obtain ⟨l1, l2, hsplit, hl1, hp0⟩ := putPosLoop_some _ _ p0 hput
    have hfin : HTInv n (ht.writeEntry (ht.entryAddr p0.1 p0.2) k v)
        (bumpPut m k v) :=
      inv.put_found k v p0 l1 l2 hsplit hl1 hp0 hk1 hk2 hv1 hv2 hkv
        rfl rfl rfl rfl
    exact hfin.mono (Nat.le_succ n)
  | none =>
    obtain ⟨hh0, hhIB⟩ := ht.conf.hashKeyI_range k
    have hhN : ht.conf.hashKeyI k < ht.numBuckets :=
      lt_of_lt_of_le hhIB inv.nb_ge
    have hN63 : ht.numBuckets < 2 ^ 63 := by
      have hc := inv.nb_cnt
      omega
    have hall : ∀ q ∈ ht.chainPos (ht.conf.hashKeyI k),
        isLive ht.readSlot q = true :=
      putPosLoop_none _ _ hput
    obtain ⟨hinvg, hcp_h, hdeadN, hgrs⟩ := inv.grow k hall hN63
    rw [HashTable.putFuel]
    have hkeyg : (ht.growBucket (ht.conf.hashKeyI k)).conf.hashKeyI k
        = ht.conf.hashKeyI k := rfl
    rw [(ht.growBucket (ht.conf.hashKeyI k)).putChain_eq_pos,
      (ht.growBucket (ht.conf.hashKeyI k)).chainPos_eq_fuel, hkeyg]
    have hP1 : ht.conf.perBucket.toNat = (ht.conf.perBucket.toNat - 1) + 1 := by
      have := ht.conf.perBucket_pos
      omega
    obtain ⟨rest, hrest⟩ : ∃ rest,
        (ht.growBucket (ht.conf.hashKeyI k)).bucketPos ht.numBuckets
          = (ht.numBuckets, (0 : Int)) :: rest := by
      rw [show (ht.growBucket (ht.conf.hashKeyI k)).bucketPos = ht.bucketPos
        from rfl, HashTable.bucketPos, hP1, List.range_succ_eq_map,
        List.map_cons]
      exact ⟨List.map (fun e : Nat => (ht.numBuckets, (e : Int)))
        (List.map Nat.succ (List.range (ht.conf.perBucket.toNat - 1))),
        by norm_num⟩
    have hallg : ∀ q ∈ ht.chainPos (ht.conf.hashKeyI k),
        isLive (ht.growBucket (ht.conf.hashKeyI k)).readSlot q = true := by
      intro q hq
      obtain ⟨h1, h2, _, _, _⟩ := ht.chainPos_ranges _ hhN q hq
      rw [isLive_congr _ ht.readSlot q (hgrs q.1 q.2 h1 h2)]
      exact hall q hq
    have hdead0 : isLive (ht.growBucket (ht.conf.hashKeyI k)).readSlot
        (ht.numBuckets, (0 : Int)) = false := by
      rw [isLive, hdeadN (ht.numBuckets, (0 : Int))
        (by rw [hrest]; exact List.mem_cons_self _ _)]
      rfl
    have hsplitg : (ht.growBucket (ht.conf.hashKeyI k)).chainPos
        (ht.conf.hashKeyI k)
        = ht.chainPos (ht.conf.hashKeyI k)
          ++ (ht.numBuckets, (0 : Int)) :: rest := by
      rw [hcp_h, hrest]
    have hfound : putPosLoop (ht.growBucket (ht.conf.hashKeyI k)).readSlot
        ((ht.growBucket (ht.conf.hashKeyI k)).chainPos (ht.conf.hashKeyI k))
        = some (ht.numBuckets, (0 : Int)) := by
      rw [hsplitg]
      exact putPosLoop_found _ _ _ _ hallg hdead0
    rw [hfound]
    exact hinvg.put_found k v (ht.numBuckets, (0 : Int))
      (ht.chainPos (ht.conf.hashKeyI k)) rest hsplitg hallg hdead0
      hk1 hk2 hv1 hv2 hkv rfl rfl rfl rfl

/-- All operations keep the configuration. -/
theorem HashTable.putFuel_conf :
    ∀ (f : Nat) (ht : HashTable) (k v : Int),
    (HashTable.putFuel f ht k v).conf = ht.conf := by
  intro f
  induction f with
  | zero => intro ht k v; rfl
  | succ g ih =>
    intro ht k v
    rw [HashTable.putFuel]
    cases ht.putChain (ht.numBuckets + 1).toNat (ht.conf.hashKeyI k) with
    | some addr => rfl
    | none => exact ih _ k v

theorem HashTable.put_conf (ht : HashTable) (k v : Int) :
    (ht.put k v).conf = ht.conf :=
  HashTable.putFuel_conf _ ht k v

theorem HashTable.remove_conf (ht : HashTable) (k v : Int) :
    (ht.remove k v).conf = ht.conf := by
  rw [HashTable.remove]
  cases ht.removeChain k v (ht.numBuckets + 1).toNat (ht.conf.hashKeyI k) with
  | some addr => rfl
  | none => rfl

theorem applyOp_conf (ht : HashTable) (op : HTOp) :
    (applyOp ht op).conf = ht.conf := by
  cases op with
  | put k v => exact ht.put_conf k v
  | rem k v => exact ht.remove_conf k v

/-- Relating Boolean range checks to the bounds they decide. -/
theorem inRange64_spec (x : Int) (h : inRange64 x = true) :
    -(2 ^ 63) ≤ x ∧ x < 2 ^ 63 := by
  rw [inRange64] at h
  exact of_decide_eq_true h

/-- Running a wellformed operation sequence preserves the invariant, tracking
the abstract content. -/
theorem HTInv.run :
    ∀ (ops : List HTOp) (n : Nat) (ht : HashTable) (m : Int → Multiset Int),
    HTInv n ht m → opsDistinct m ops = true → noZeroPut ops = true →
    ht.conf.initialBuckets + (n : Int) + ops.length < 2 ^ 63 →
    HTInv (n + ops.length) (applyOps ht ops) (mAfter m ops) := by
  intro ops
  induction ops with
  | nil =>
    intro n ht m inv _ _ _
    simpa using inv
  | cons op ops ih =>
    intro n ht m inv hd hz hbound
    cases op with
    | put k v =>
      rw [opsDistinct] at hd
      simp only [Bool.and_eq_true] at hd
      obtain ⟨⟨⟨hk, hv⟩, hvm⟩, hrest⟩ := hd
      rw [noZeroPut] at hz
      simp only [Bool.and_eq_true] at hz
      obtain ⟨hz0, hzrest⟩ := hz
      obtain ⟨hk1, hk2⟩ := inRange64_spec k hk
      obtain ⟨hv1, hv2⟩ := inRange64_spec v hv
      have hkv : ¬(k = 0 ∧ v = 0) := by
        rintro ⟨rfl, rfl⟩
        simp at hz0
      have hlen : (((HTOp.put k v :: ops).length : Nat) : Int)
          = (ops.length : Int) + 1 := by
        simp
      have hlen0 : (0 : Int) ≤ (ops.length : Int) := by positivity
      have hstep := inv.put k v hk1 hk2 hv1 hv2 hkv (by omega)
      have hrec := ih (n + 1) (ht.put k v) (bumpPut m k v) hstep hrest hzrest
        (by
          rw [ht.put_conf k v]
          push_cast
          push_cast at hbound hlen
          omega)
      show HTInv (n + (ops.length + 1)) (applyOps (ht.put k v) ops)
        (mAfter (bumpPut m k v) ops)
      have harith : n + (ops.length + 1) = n + 1 + ops.length := by omega
      rw [harith]
      exact hrec
    | rem k v =>
      rw [opsDistinct] at hd
      simp only [Bool.and_eq_true] at hd
      obtain ⟨⟨hk, hv⟩, hrest⟩ := hd
      rw [noZeroPut] at hz
      have hstep := inv.rem k v
      have hrec := ih n (ht.remove k v) (bumpRem m k v) hstep hrest hz
        (by
          rw [ht.remove_conf k v]
          have hlen : (((HTOp.rem k v :: ops).length : Nat) : Int)
              = (ops.length : Int) + 1 := by
            simp
          omega)
      show HTInv (n + (ops.length + 1)) (applyOps (ht.remove k v) ops)
        (mAfter (bumpRem m k v) ops)
      exact hrec.mono (by omega)

/-- C3 (amended): for every finite sequence of `Put(k,v)`/`Remove(k,v)`
operations on a fresh hash table in which all keys and values are 64-bit
integers, no pair is put while already live, no operation puts the pair
`(0, 0)`, and the bucket count cannot overflow a 64-bit integer,
`Get(k, 0)` returns exactly the multiset of values put under `k` and not
since removed. -/
theorem put_get_multiset_law (c : HTConf) (ops : List HTOp) (k : Int)
    (hd : opsDistinct (fun _ => (0 : Multiset Int)) ops = true)
    (hz : noZeroPut ops = true)
    (hbound : c.initialBuckets + ops.length < 2 ^ 63) :
    (((applyOps (emptyHT c) ops).get k 0 : List Int) : Multiset Int)
      = mAfter (fun _ => 0) ops k := by
  have hinv := HTInv.run ops 0 (emptyHT c) (fun _ => 0) (HTInv.empty c) hd hz
    (by
      show c.initialBuckets + ((0 : Nat) : Int) + ops.length < 2 ^ 63
      push_cast
      push_cast at hbound
      omega)
  obtain ⟨hh0, hhIB⟩ := (applyOps (emptyHT c) ops).conf.hashKeyI_range k
  rw [HashTable.get_eq_pos, getPos_zero _ _ _ 0 [] (le_refl 0),
    List.nil_append,
    liveVals_visible _ _ _ (hinv.clean _ hh0 hhIB)]
  exact hinv.content k

/-- Concrete instantiation of `put_get_multiset_law`: one put of `(7, 5)`
into a fresh two-bucket table. -/
theorem put_get_multiset_law_witness :
    (opsDistinct (fun _ => (0 : Multiset Int)) [HTOp.put 7 5] = true ∧
     noZeroPut [HTOp.put 7 5] = true ∧
     lookupConf.initialBuckets + ([HTOp.put 7 5] : List HTOp).length
       < 2 ^ 63) ∧
    (((applyOps (emptyHT lookupConf) [HTOp.put 7 5]).get 7 0 : List Int)
        : Multiset Int)
      = mAfter (fun _ => 0) [HTOp.put 7 5] 7 :=
  ⟨⟨by decide, by decide, by norm_num [lookupConf, HTConf.initialBuckets]⟩,
   put_get_multiset_law lookupConf [HTOp.put 7 5] 7 (by decide) (by decide)
     (by norm_num [lookupConf, HTConf.initialBuckets])⟩

/-- C3 as literally claimed — allowing the pair `(0, 0)` — is false: put
`(0,0)` and `(0,1)`, then remove `(0,0)`.  The cleared slot becomes fully
zero, `Get(0, 0)` stops there and misses the still-live value 1, so it
returns the empty multiset while the net content is `{1}`.  All claim
hypotheses (64-bit ranges, no duplicate live put) hold. -/
theorem put_get_law_fails_on_zero_pair :
    opsDistinct (fun _ => (0 : Multiset Int))
      [HTOp.put 0 0, HTOp.put 0 1, HTOp.rem 0 0] = true ∧
    (((applyOps (emptyHT lookupConf)
        [HTOp.put 0 0, HTOp.put 0 1, HTOp.rem 0 0]).get 0 0 : List Int)
        : Multiset Int)
      ≠ mAfter (fun _ => 0) [HTOp.put 0 0, HTOp.put 0 1, HTOp.rem 0 0] 0 := by
  constructor
  · decide
  · decide

/-- On an invariant state whose content at `id` is the single value `off`,
`Get(id, 1)` returns exactly `[off]`. -/
theorem HTInv.get_one_single {n : Nat} {ht : HashTable}
    {m : Int → Multiset Int} (inv : HTInv n ht m) (id off : Int)
    (hm : m id = {off}) : ht.get id 1 = [off] := by
  obtain ⟨hh0, hhIB⟩ := ht.conf.hashKeyI_range id
  rw [HashTable.get_eq_pos, getPos_one,
    liveVals_visible _ _ _ (inv.clean _ hh0 hhIB)]
  have hc := inv.content id
  rw [hm] at hc
  have hl : liveVals ht.readSlot id (ht.chainPos (ht.conf.hashKeyI id))
      = [off] := by
    rwa [show ({off} : Multiset Int) = (([off] : List Int) : Multiset Int)
      from rfl, Multiset.coe_eq_coe, List.perm_singleton] at hc
  rw [hl]
  rfl

/-- On an invariant state whose content at `id` is empty, `Get(id, 1)`
returns nothing. -/
theorem HTInv.get_one_nil {n : Nat} {ht : HashTable}
    {m : Int → Multiset Int} (inv : HTInv n ht m) (id : Int)
    (hm : m id = 0) : ht.get id 1 = [] := by
  obtain ⟨hh0, hhIB⟩ := ht.conf.hashKeyI_range id
  rw [HashTable.get_eq_pos, getPos_one,
    liveVals_visible _ _ _ (inv.clean _ hh0 hhIB)]
  have hc := inv.content id
  rw [hm] at hc
  rw [Multiset.coe_eq_zero] at hc
  rw [hc]
  rfl

/-- Partition-layer half of the delete-idempotence analysis: for a partition
whose lookup table was built by a wellformed operation sequence and maps `id`
to exactly the offset `off`, the first `Partition.Delete(id)` succeeds, and a
second `Delete(id)` returns the NoDoc error with the partition state —
collection buffer, used watermark, and lookup table — literally unchanged. -/
theorem partition_delete_not_idempotent (part : Partition) (c : HTConf)
    (ops : List HTOp) (id off : Int)
    (hlk : part.lookup = applyOps (emptyHT c) ops)
    (hd : opsDistinct (fun _ => (0 : Multiset Int)) ops = true)
    (hz : noZeroPut ops = true)
    (hbound : c.initialBuckets + ops.length < 2 ^ 63)
    (hm : mAfter (fun _ => 0) ops id = {off}) :
    (part.delete id).2 = .ok () ∧
    (part.delete id).1.delete id = ((part.delete id).1, .error (.noDoc id)) := by
  have hinv : HTInv (0 + ops.length) part.lookup (mAfter (fun _ => 0) ops) := by
    rw [hlk]
    exact HTInv.run ops 0 (emptyHT c) (fun _ => 0) (HTInv.empty c) hd hz
      (by
        show c.initialBuckets + ((0 : Nat) : Int) + ops.length < 2 ^ 63
        push_cast
        push_cast at hbound
        omega)
  have hget1 : part.lookup.get id 1 = [off] := hinv.get_one_single id off hm
  have hinv2 : HTInv (0 + ops.length) (part.lookup.remove id off)
      (bumpRem (mAfter (fun _ => 0) ops) id off) := hinv.rem id off
  have hm2 : bumpRem (mAfter (fun _ => 0) ops) id off id = 0 := by
    rw [bumpRem, if_pos rfl, hm]
    exact Multiset.erase_singleton off
  have hget2 : (part.lookup.remove id off).get id 1 = [] :=
    hinv2.get_one_nil id hm2
  have hdel1 : part.delete id
      = (⟨(part.col.delete off).1, part.lookup.remove id off⟩, .ok ()) := by
    rw [Partition.delete, hget1]
  rw [hdel1]
  refine ⟨rfl, ?_⟩
  show Partition.delete _ id = _
  rw [Partition.delete]
  dsimp only
  rw [hget2]

/-- Concrete instantiation of `partition_delete_not_idempotent`: a fresh
collection paired with a lookup table holding the single entry `9 → 0`. -/
theorem partition_delete_not_idempotent_witness :
    ((Partition.mk freshCol (applyOps (emptyHT lookupConf)
        [HTOp.put 9 0])).lookup
      = applyOps (emptyHT lookupConf) [HTOp.put 9 0] ∧
     opsDistinct (fun _ => (0 : Multiset Int)) [HTOp.put 9 0] = true ∧
     noZeroPut [HTOp.put 9 0] = true ∧
     lookupConf.initialBuckets + ([HTOp.put 9 0] : List HTOp).length
       < 2 ^ 63 ∧
     mAfter (fun _ => 0) [HTOp.put 9 0] 9 = {0}) ∧
    (((Partition.mk freshCol (applyOps (emptyHT lookupConf)
        [HTOp.put 9 0])).delete 9).2 = .ok () ∧
     ((Partition.mk freshCol (applyOps (emptyHT lookupConf)
        [HTOp.put 9 0])).delete 9).1.delete 9
       = (((Partition.mk freshCol (applyOps (emptyHT lookupConf)
          [HTOp.put 9 0])).delete 9).1, .error (.noDoc 9))) :=
  ⟨⟨rfl, by decide, by decide,
    by norm_num [lookupConf, HTConf.initialBuckets], by decide⟩,
   partition_delete_not_idempotent _ lookupConf [HTOp.put 9 0] 9 0 rfl
     (by decide) (by decide)
     (by norm_num [lookupConf, HTConf.initialBuckets]) (by decide)⟩

/-- The in-place-update claim fails at the boundary offset
`used - DocHeader`: inserting a zero-length document into a fresh collection
leaves a valid live record there (flag 1, room 0, and `Read` succeeds), and
`data = []` fits its room, yet `Collection.Update` rejects the offset with
NoDoc (its `≥` validation) instead of returning the same id. -/
theorem update_inplace_fails_at_boundary :
    (freshCol.insert []).2 = .ok 0 ∧
    (freshCol.insert []).1.file.used - DocHeader = 0 ∧
    (freshCol.insert []).1.file.buf 0 = 1 ∧
    (varintAt (freshCol.insert []).1.file.buf (0 + 1)).1 = 0 ∧
    (([] : List Nat).length : Int)
      ≤ (varintAt (freshCol.insert []).1.file.buf (0 + 1)).1 ∧
    (freshCol.insert []).1.read 0 = some [] ∧
    ((freshCol.insert []).1.update 0 []).2 = .error (.noDoc 0) := by
  decide

/-- A tombstoned record cannot be deleted again: when `Collection.Delete`
succeeds, a second `Collection.Delete` of the same id returns the NoDoc error
together with the state it was given, byte for byte. -/
theorem Collection.delete_twice (col : Collection) (id : Int)
    (h : (col.delete id).2 = .ok ()) :
    (col.delete id).1.delete id = ((col.delete id).1, .error (.noDoc id)) := by
  by_cases hv : id < 0 ∨ id > col.file.used - DocHeader ∨ col.file.buf id ≠ 1
  · rw [Collection.delete, if_pos hv] at h
    simp at h
  · push_neg at hv
    have hstate : col.delete id
        = ({ col with file := { col.file with buf := col.file.buf.set id 0 } },
           .ok ()) := by
      rw [Collection.delete, if_neg (by push_neg; exact hv), if_pos hv.2.2]
    rw [hstate]
    dsimp only
    rw [Collection.delete, if_pos (Or.inr (Or.inr (by
      show ¬(col.file.buf.set id 0 id = 1)
      rw [Buf.set_eq]
      norm_num)))]

/-- C10: Delete is not idempotent and fails atomically on a dead target, at
each layer separately. For a partition whose lookup table was built by a
wellformed operation sequence and maps `id` to exactly the offset `off`, the
first `Partition.Delete(id)` succeeds, and a second `Partition.Delete(id)`
returns the NoDoc error with the partition state — collection buffer, used
watermark, and lookup table — literally unchanged; and whenever a
`Collection.Delete` succeeds, tombstoning the record, a second
`Collection.Delete` of the same offset returns the NoDoc error with the
collection state literally unchanged. (A `Partition.Delete` issued right
after a bare successful `Collection.Delete` is NOT covered: it succeeds,
because the lookup entry survives and the collection error is discarded.) -/
theorem delete_not_idempotent_both_layers (part : Partition) (c : HTConf)
    (ops : List HTOp) (id off : Int) (col : Collection) (did : Int)
    (hlk : part.lookup = applyOps (emptyHT c) ops)
    (hd : opsDistinct (fun _ => (0 : Multiset Int)) ops = true)
    (hz : noZeroPut ops = true)
    (hbound : c.initialBuckets + ops.length < 2 ^ 63)
    (hm : mAfter (fun _ => 0) ops id = {off})
    (hcol : (col.delete did).2 = .ok ()) :
    ((part.delete id).2 = .ok () ∧
     (part.delete id).1.delete id
       = ((part.delete id).1, .error (.noDoc id))) ∧
    (col.delete did).1.delete did = ((col.delete did).1, .error (.noDoc did)) :=
  ⟨partition_delete_not_idempotent part c ops id off hlk hd hz hbound hm,
   Collection.delete_twice col did hcol⟩

/-- Concrete instantiation of `delete_not_idempotent_both_layers`: a fresh
collection paired with a lookup table holding the single entry `9 → 0`, and
a fresh collection holding one live one-byte document at offset `0`. -/
theorem delete_not_idempotent_both_layers_witness :
    ((Partition.mk freshCol (applyOps (emptyHT lookupConf)
        [HTOp.put 9 0])).lookup
      = applyOps (emptyHT lookupConf) [HTOp.put 9 0] ∧
     opsDistinct (fun _ => (0 : Multiset Int)) [HTOp.put 9 0] = true ∧
     noZeroPut [HTOp.put 9 0] = true ∧
     lookupConf.initialBuckets + ([HTOp.put 9 0] : List HTOp).length
       < 2 ^ 63 ∧
     mAfter (fun _ => 0) [HTOp.put 9 0] 9 = {0} ∧
     (((freshCol.insert [65]).1.delete 0).2 = .ok ())) ∧
    ((((Partition.mk freshCol (applyOps (emptyHT lookupConf)
        [HTOp.put 9 0])).delete 9).2 = .ok () ∧
      ((Partition.mk freshCol (applyOps (emptyHT lookupConf)
        [HTOp.put 9 0])).delete 9).1.delete 9
        = (((Partition.mk freshCol (applyOps (emptyHT lookupConf)
           [HTOp.put 9 0])).delete 9).1, .error (.noDoc 9))) ∧
     ((freshCol.insert [65]).1.delete 0).1.delete 0
       = (((freshCol.insert [65]).1.delete 0).1, .error (.noDoc 0))) :=
  ⟨⟨rfl, by decide, by decide,
    by norm_num [lookupConf, HTConf.initialBuckets], by decide, by decide⟩,
   delete_not_idempotent_both_layers _ lookupConf [HTOp.put 9 0] 9 0
     (freshCol.insert [65]).1 0 rfl (by decide) (by decide)
     (by norm_num [lookupConf, HTConf.initialBuckets]) (by decide)
     (by decide)⟩

/-- The cross-layer branch of the delete-idempotence claim is false: after a
bare successful `Collection.Delete` tombstones the record underneath a
partition, the lookup entry for the id survives, so the next
`Partition.Delete` of that id succeeds — `Partition.Delete` discards the
collection's NoDoc error — instead of returning the NoDoc error. -/
theorem partition_delete_after_col_delete_succeeds :
    (((freshPart.insert 5 [65]).1.col.delete 0).2 = .ok ()) ∧
    ((freshPart.insert 5 [65]).1.lookup.get 5 1 = [0]) ∧
    (((Partition.mk ((freshPart.insert 5 [65]).1.col.delete 0).1
        (freshPart.insert 5 [65]).1.lookup).delete 5).2 = .ok ()) := by
  decide
